import Mathlib

/-!
# go-ipld-prime: the generated map node, its assembler and its read path

A shallow embedding of the Go code that `schema/gen/go/genMap.go` emits for a
map type with a String-kind key type, followed by theorems about it.

Conventions of the embedding

* A method with a pointer receiver becomes a function from the receiver's
  state to an outcome and the receiver's state after the call.  The state after
  the call is given for failing calls too: a Go `panic` and an error return both
  leave behind whatever had been written before them.
* `panic("invalid state: ...")` and `panic("misuse: ...")` are `Err.IllegalState`;
  a panic of the Go runtime itself (write to a nil map, nil dereference, index
  out of range) is `Err.RuntimePanic`.
* The template parameters `.Type.ValueIsNullable` and
  `MaybeUsesPtr .Type.ValueType` are the two booleans of `Cfg`; the value type
  `_V` is the type parameter `V`.
* Memory.  The slice `t` is held by value together with its capacity.  `append`
  beyond the capacity moves the elements into a new backing array; the array
  left behind stays alive as long as a pointer refers to it, so it is kept in
  `old`.  A pointer `&t[i].v` is a `Ptr`: the backing array it points into
  (`arr`, the number of arrays retired before it was allocated) and the index.
-/

namespace GenMap

/-- The tri-state `schema.Maybe` together with the two extra values `midvalue`
and `allowNull` that generated assemblers store in a `schema.Maybe` slot. -/
inductive Maybe where
  | Maybe_Absent
  | Maybe_Null
  | Maybe_Value
  | midvalue
  | allowNull
  deriving DecidableEq, Repr

/-- The state of a map assembler (`maState`). -/
inductive maState where
  | maState_initial
  | maState_midKey
  | maState_expectValue
  | maState_midValue
  | maState_finished
  deriving DecidableEq, Repr

/-- The canonical key representation `_K` of a String-kind key type. -/
structure Key where
  x : String
  deriving DecidableEq, Repr

/-- The function `_K__Style{}.fromString` of the template branch
`eq .Type.KeyType.Kind.String "String"`. -/
def fromString (s : String) : Key := ⟨s⟩

/-- The failures an operation can end in. -/
inductive Err where
  | IllegalState
  | RepeatedMapKey (k : Key)
  | WrongKind
  | NotExists (key : String)
  | IteratorOverread
  | RuntimePanic
  deriving DecidableEq, Repr

/-- The template parameters, and the capacity the runtime picks when `append`
has to grow a slice of the given capacity. -/
structure Cfg where
  ValueIsNullable : Bool
  ValueMaybeUsesPtr : Bool
  grow : Nat → Nat

/-- The value storage of an entry.  For nullable values this is the wrapper
`_V__Maybe` with its state `m` and payload `v`; for non-nullable values it is
the inline `_V`, of which only `v` is used.  `v = none` is the payload nobody
has written yet (the zero value, or the nil pointer when the wrapper holds a
pointer). -/
structure MaybeV (V : Type) where
  m : Maybe
  v : Option V
  deriving DecidableEq, Repr

/-- One row `_T__entry` of the ordered sequence.  For nullable values the
wrapper is stored in the row itself, as the statements `&t[len(t)-1].v` and
`t[len(t)-1].v.m = allowNull` of the assembler take it to be. -/
structure Entry (V : Type) where
  k : Key
  v : MaybeV V
  deriving DecidableEq, Repr

/-- The address `&array[idx].v` of the value storage of a row. -/
structure Ptr where
  arr : Nat
  idx : Nat
  deriving DecidableEq, Repr

/-- The native map `_T`: the lookup structure `m` (`none` is the nil map), the
slice `t` with its capacity, and the backing arrays that `t` has left behind. -/
structure MapNode (V : Type) where
  m : Option (List (Key × Ptr))
  t : List (Entry V)
  cap : Nat
  old : List (List (Entry V))
  deriving DecidableEq, Repr

/-- The field `w` of the value assembler: nil, the address of a row's value
storage, or the address of a value the child allocated for itself. -/
inductive WRef (V : Type) where
  | nil
  | slot (p : Ptr)
  | box (v : V)
  deriving DecidableEq, Repr

/-- The field `m` of the value assembler: nil, `&ma.cm`, or the address of the
state of a row's wrapper. -/
inductive MRef where
  | nil
  | cm
  | slot (p : Ptr)
  deriving DecidableEq, Repr

/-- The fields `w` and `m` of the value assembler `va`. -/
structure ValueAssembler (V : Type) where
  w : WRef V
  m : MRef
  deriving DecidableEq, Repr

/-- The assembler `_T__Assembler`; `w` and `m` are the pointees of its two
pointers.  The key assembler `ka` is the same memory under another type, so it
has no field of its own. -/
structure Assembler (V : Type) where
  w : MapNode V
  m : Maybe
  state : maState
  cm : Maybe
  va : ValueAssembler V
  deriving DecidableEq, Repr

/-- What a call that returns a Node hands back: `ipld.Null`, or a handle on a
value payload. -/
inductive NodeRes (V : Type) where
  | Null
  | val (v : Option V)
  deriving DecidableEq, Repr

/-- Modelled from the spec: `ipld.ReprKind`, a numeric tag; its declaration is
not among the sources.  `ReprKind_Invalid` is zero, as `any.go` says. -/
abbrev ReprKind := Nat

/-- The kind tag of an unstarted builder. -/
def ReprKind_Invalid : ReprKind := 0
/-- The kind tag of maps. -/
def ReprKind_Map : ReprKind := 123
/-- The kind tag of lists. -/
def ReprKind_List : ReprKind := 91
/-- The kind tag of null. -/
def ReprKind_Null : ReprKind := 48
/-- The kind tag of booleans. -/
def ReprKind_Bool : ReprKind := 98
/-- The kind tag of integers. -/
def ReprKind_Int : ReprKind := 105
/-- The kind tag of floats. -/
def ReprKind_Float : ReprKind := 102
/-- The kind tag of strings. -/
def ReprKind_String : ReprKind := 115
/-- The kind tag of byte strings. -/
def ReprKind_Bytes : ReprKind := 120
/-- The kind tag of links. -/
def ReprKind_Link : ReprKind := 47

/-- An `ipld.Node` as `AssignNode` sees it: `ipld.Null`; a node of the map's own
concrete type `*_T`; or a node of any other representation that is not null,
given by its kind and, when it is a map, by the pairs its iterator yields (a
value that is null is `none`). -/
inductive Node (V : Type) where
  | Null
  | own (n : MapNode V)
  | other (kind : ReprKind) (entries : List (String × Option V))

variable {V : Type}

/-! ## Memory -/

/-- Read of a Go map: `v, exists := m[k]`. -/
def mget : List (Key × Ptr) → Key → Option Ptr
  | [], _ => none
  | (k1, p) :: r, k => if k1 = k then some p else mget r k

/-- Write of a Go map: `m[k] = p`. -/
def mset : List (Key × Ptr) → Key → Ptr → List (Key × Ptr)
  | [], k, p => [(k, p)]
  | (k1, p1) :: r, k, p => if k1 = k then (k, p) :: r else (k1, p1) :: mset r k p

/-- The keys of the lookup structure; a nil map has none. -/
def MapNode.mkeys (n : MapNode V) : List Key :=
  match n.m with
  | none => []
  | some l => l.map Prod.fst

/-- The read `n.m[k]`, which a nil map answers with "absent". -/
def MapNode.find (n : MapNode V) (k : Key) : Option Ptr :=
  match n.m with
  | none => none
  | some l => mget l k

/-- The keys of the ordered sequence, in order. -/
def MapNode.tkeys (n : MapNode V) : List Key := n.t.map Entry.k

/-- The row storage a pointer refers to: the current backing array when the
pointer was taken after the last move, else the retired array it was taken in. -/
def MapNode.deref (n : MapNode V) (p : Ptr) : Option (MaybeV V) :=
  if p.arr = n.old.length then (n.t[p.idx]?).map Entry.v
  else ((n.old.getD p.arr [])[p.idx]?).map Entry.v

/-- A write through a pointer to the value storage of a row. -/
def MapNode.store (n : MapNode V) (p : Ptr) (f : MaybeV V → MaybeV V) : MapNode V :=
  if p.arr = n.old.length then
    { n with t := n.t.modify (fun e => { e with v := f e.v }) p.idx }
  else
    { n with old := n.old.modify (fun a => a.modify (fun e => { e with v := f e.v }) p.idx) p.arr }

/-- The statement `t = append(t, e)`: in place while the capacity lasts, else
into a new backing array, the old one being retired. -/
def MapNode.append (grow : Nat → Nat) (n : MapNode V) (e : Entry V) : MapNode V :=
  if n.t.length < n.cap then { n with t := n.t ++ [e] }
  else { n with t := n.t ++ [e], cap := max (n.t.length + 1) (grow n.cap), old := n.old ++ [n.t] }

/-- The address `&n.t[len(n.t)-1].v`. -/
def MapNode.lastPtr (n : MapNode V) : Ptr := ⟨n.old.length, n.t.length - 1⟩

/-- The value a `*_V` stands for when it is copied out of `va.w`. -/
def WRef.load (n : MapNode V) : WRef V → Option V
  | .nil => none
  | .box v => some v
  | .slot p => (n.deref p).bind MaybeV.v

/-! ## Builder and assembler -/

/-- The outcome of a call (`none`: it succeeded) and the assembler after it. -/
abbrev Step (V : Type) := Option Err × Assembler V

/-- Runs `f` on the state a successful step left; a failed step stops the
sequence. -/
def Step.andThen (r : Step V) (f : Assembler V → Step V) : Step V :=
  match r.1 with
  | some _ => r
  | none => f r.2

/-- The method `Reset` of the builder: a zero map, a zero maybe, state initial. -/
def Reset : Assembler V :=
  { w := { m := none, t := [], cap := 0, old := [] },
    m := .Maybe_Absent,
    state := .maState_initial,
    cm := .Maybe_Absent,
    va := { w := .nil, m := .nil } }

/-- The method `NewBuilder` of the style: a builder that has been `Reset`. -/
def NewBuilder : Assembler V := Reset

/-- The method `BeginMap`.  The assembler's `w` is never nil here (the builder's
`Reset` sets it), so the allocation under `MaybeUsesPtr .Type` is not taken. -/
def BeginMap (na : Assembler V) (sizeHint : Int) : Step V :=
  match na.m with
  | .Maybe_Value => (some .IllegalState, na)
  | .Maybe_Null => (some .IllegalState, na)
  | .midvalue => (some .IllegalState, na)
  | _ =>
    let hint : Int := if sizeHint < 0 then 0 else sizeHint
    (none, { na with
      m := .midvalue,
      w := { m := some [], t := [], cap := hint.toNat, old := na.w.old ++ [na.w.t] } })

/-- The method `AssignNull`.  The mixin it delegates to in the absent case is
not among the sources; it rejects the call with a wrong-kind error. -/
def AssignNull (na : Assembler V) : Step V :=
  match na.m with
  | .allowNull => (none, { na with m := .Maybe_Null })
  | .Maybe_Absent => (some .WrongKind, na)
  | .Maybe_Value => (some .IllegalState, na)
  | .Maybe_Null => (some .IllegalState, na)
  | .midvalue => (some .IllegalState, na)

/-- The helper `valueFinishTidy`; `none` is the index-out-of-range panic of
`ma.w.t[len(ma.w.t)-1]` on an empty sequence. -/
def valueFinishTidy (cfg : Cfg) (ma : Assembler V) : Option (Bool × Assembler V) :=
  match ma.w.t.getLast? with
  | none => none
  | some tz =>
    if cfg.ValueIsNullable then
      match tz.v.m with
      | .Maybe_Null => some (true, { ma with state := .maState_initial })
      | .Maybe_Value =>
        if cfg.ValueMaybeUsesPtr then
          some (true, { ma with
            w := ma.w.store ma.w.lastPtr (fun s => { s with v := ma.va.w.load ma.w }),
            state := .maState_initial })
        else
          some (true, { ma with state := .maState_initial })
      | _ => some (false, ma)
    else
      match ma.cm with
      | .Maybe_Value =>
        some (true, { ma with
          va := { ma.va with w := .nil },
          cm := .Maybe_Absent,
          state := .maState_initial })
      | _ => some (false, ma)

/-- The `switch ma.state` that opens `AssembleEntry`, `AssembleKey` and
`Finish` (the three copies differ in the text of the panic only). -/
def stateFence (cfg : Cfg) (ma : Assembler V) : Step V :=
  match ma.state with
  | .maState_initial => (none, ma)
  | .maState_midKey => (some .IllegalState, ma)
  | .maState_expectValue => (some .IllegalState, ma)
  | .maState_midValue =>
    match valueFinishTidy cfg ma with
    | none => (some .RuntimePanic, ma)
    | some (true, ma1) => (none, ma1)
    | some (false, ma1) => (some .IllegalState, ma1)
  | .maState_finished => (some .IllegalState, ma)

/-- The statements that `AssembleEntry` and the key assembler's `AssignString`
share: resolve the key, refuse a repeated one, append the row, enter it in the
lookup structure, move to the state `next`, wire the value assembler.  For
nullable values whose wrapper holds the payload inline, `va.w` is the address of
that payload. -/
def addRow (cfg : Cfg) (ma : Assembler V) (k : String) (next : maState) : Step V :=
  let k2 := fromString k
  match ma.w.find k2 with
  | some _ => (some (.RepeatedMapKey k2), ma)
  | none =>
    let w1 := ma.w.append cfg.grow { k := k2, v := { m := .Maybe_Absent, v := none } }
    match w1.m with
    | none => (some .RuntimePanic, { ma with w := w1 })
    | some l =>
      let p := w1.lastPtr
      let w2 : MapNode V := { w1 with m := some (mset l k2 p) }
      if cfg.ValueIsNullable then
        (none, { ma with
          w := w2.store p (fun s => { s with m := .allowNull }),
          state := next,
          va := { w := if cfg.ValueMaybeUsesPtr then .nil else .slot p, m := .slot p } })
      else
        (none, { ma with w := w2, state := next, va := { w := .slot p, m := .cm } })

/-- The method `AssembleEntry`. -/
def AssembleEntry (cfg : Cfg) (ma : Assembler V) (k : String) : Step V :=
  (stateFence cfg ma).andThen fun ma1 => addRow cfg ma1 k .maState_midValue

/-- The method `AssembleKey`. -/
def AssembleKey (cfg : Cfg) (ma : Assembler V) : Step V :=
  (stateFence cfg ma).andThen fun ma1 => (none, { ma1 with state := .maState_midKey })

/-- The method `AssembleValue`. -/
def AssembleValue (ma : Assembler V) : Step V :=
  match ma.state with
  | .maState_expectValue => (none, { ma with state := .maState_midValue })
  | _ => (some .IllegalState, ma)

/-- The method `Finish`. -/
def Finish (cfg : Cfg) (ma : Assembler V) : Step V :=
  (stateFence cfg ma).andThen fun ma1 =>
    (none, { ma1 with state := .maState_finished, m := .Maybe_Value })

/-- The key assembler's method `AssignString`. -/
def KeyAssembler.AssignString (cfg : Cfg) (ka : Assembler V) (k : String) : Step V :=
  if ka.state ≠ .maState_midKey then (some .IllegalState, ka)
  else addRow cfg ka k .maState_expectValue

/-- The key assembler's method `AssignNode`, whose body is a TODO comment: it
does nothing with the key. -/
def KeyAssembler.AssignNode (ka : Assembler V) (_k : String) : Step V := (none, ka)

/-- The builder's method `Build`. -/
def Build (nb : Assembler V) : Except Err (MapNode V) :=
  if nb.state ≠ .maState_finished then .error .IllegalState else .ok nb.w

/-! ## The value assembler -/

/-- The maybe that the value assembler's `m` points at; `none` for a nil `m`. -/
def ValueAssembler.readM (ma : Assembler V) : Option Maybe :=
  match ma.va.m with
  | .nil => none
  | .cm => some ma.cm
  | .slot p => (ma.w.deref p).map MaybeV.m

/-- The write `*va.m = x`. -/
def ValueAssembler.writeM (ma : Assembler V) (x : Maybe) : Assembler V :=
  match ma.va.m with
  | .nil => ma
  | .cm => { ma with cm := x }
  | .slot p => { ma with w := ma.w.store p (fun s => { s with m := x }) }

/-- Modelled from the spec: the value sub-assembler `_V__Assembler` completing
its value with the payload `v` (by whichever of its assign or begin/finish
methods the value type calls for); its code is not among the sources.  It
refuses a slot that is already finished, stores the payload through `w`
(allocating when `w` is nil and the type allows it) and signals
`Maybe_Value` through `m`. -/
def ValueAssembler.AssignValue (cfg : Cfg) (ma : Assembler V) (v : V) : Step V :=
  match ValueAssembler.readM ma with
  | none => (some .RuntimePanic, ma)
  | some .Maybe_Value => (some .IllegalState, ma)
  | some .Maybe_Null => (some .IllegalState, ma)
  | some .midvalue => (some .IllegalState, ma)
  | some _ =>
    match ma.va.w with
    | .nil =>
      if cfg.ValueMaybeUsesPtr then
        (none, ValueAssembler.writeM { ma with va := { ma.va with w := .box v } } .Maybe_Value)
      else (some .RuntimePanic, ma)
    | .box _ =>
      (none, ValueAssembler.writeM { ma with va := { ma.va with w := .box v } } .Maybe_Value)
    | .slot p =>
      (none, ValueAssembler.writeM
        { ma with w := ma.w.store p (fun s => { s with v := some v }) } .Maybe_Value)

/-- Modelled from the spec: the value sub-assembler's `AssignNull`, which has
the shape of the map assembler's own: null is taken only where the parent
allowed it. -/
def ValueAssembler.AssignNull (ma : Assembler V) : Step V :=
  match ValueAssembler.readM ma with
  | none => (some .RuntimePanic, ma)
  | some .allowNull => (none, ValueAssembler.writeM ma .Maybe_Null)
  | some .Maybe_Absent => (some .WrongKind, ma)
  | some _ => (some .IllegalState, ma)

/-- Modelled from the spec: the value sub-assembler's `AssignNode`: a null node
goes to `AssignNull`, any other node completes the value with its payload. -/
def ValueAssembler.AssignNode (cfg : Cfg) (ma : Assembler V) : Option V → Step V
  | none => ValueAssembler.AssignNull ma
  | some v => ValueAssembler.AssignValue cfg ma v

/-! ## AssignNode -/

/-- The loop of `AssignNode` over the pairs of a map of another representation,
and the `Finish` after it. -/
def replay (cfg : Cfg) : List (String × Option V) → Assembler V → Step V
  | [], na => Finish cfg na
  | (k, v) :: rest, na =>
    (AssembleKey cfg na).andThen fun na1 =>
    (KeyAssembler.AssignNode na1 k).andThen fun na2 =>
    (AssembleValue na2).andThen fun na3 =>
    (ValueAssembler.AssignNode cfg na3 v).andThen fun na4 =>
    replay cfg rest na4

/-- The method `AssignNode`.  In the branch for a node of the map's own type
the statement `*na.w = *v2` copies the struct of `v2`: the assembler's node
afterwards has the lookup map and the slice header of `v2`.  A Go map is a
reference, so the assembler and `v2` hold one lookup map from then on; what the
holders of `v2` read while the assembler goes on is given by `Adopted`. -/
def AssignNode (cfg : Cfg) (na : Assembler V) : Node V → Step V
  | .Null => AssignNull na
  | .own v2 =>
    match na.m with
    | .Maybe_Value => (some .IllegalState, na)
    | .Maybe_Null => (some .IllegalState, na)
    | .midvalue => (some .IllegalState, na)
    | _ => (none, { na with w := v2, m := .Maybe_Value })
  | .other kind entries =>
    if kind ≠ ReprKind_Map then (some .WrongKind, na)
    else replay cfg entries na

/-! ## The read path -/

/-- The method `Length`. -/
def Length (n : MapNode V) : Nat := n.t.length

/-- The method `LookupString`.  A pointer of the lookup structure always has a
pointee in Go; the embedding answers a dangling one with a runtime panic. -/
def LookupString (cfg : Cfg) (n : MapNode V) (key : String) : Except Err (NodeRes V) :=
  let k2 := fromString key
  match n.find k2 with
  | none => .error (.NotExists key)
  | some p =>
    match n.deref p with
    | none => .error .RuntimePanic
    | some v =>
      if cfg.ValueIsNullable then
        if v.m = .Maybe_Null then .ok .Null else .ok (.val v.v)
      else .ok (.val v.v)

/-- The iterator `_T__MapItr`. -/
structure MapItr (V : Type) where
  n : MapNode V
  idx : Nat
  deriving DecidableEq, Repr

/-- The method `MapIterator`. -/
def MapIterator (n : MapNode V) : MapItr V := { n := n, idx := 0 }

/-- The iterator's method `Done`. -/
def MapItr.Done (itr : MapItr V) : Bool := decide (itr.idx ≥ itr.n.t.length)

/-- The result triple of `Next`: key, value, error; a `none` is a Go nil. -/
abbrev NextRes (V : Type) := Option Key × Option (NodeRes V) × Option Err

/-- The iterator's method `Next`, with the iterator after the call. -/
def MapItr.Next (cfg : Cfg) (itr : MapItr V) : NextRes V × MapItr V :=
  if itr.idx ≥ itr.n.t.length then ((none, none, some .IteratorOverread), itr)
  else
    match itr.n.t[itr.idx]? with
    | none => ((none, none, some .RuntimePanic), itr)
    | some x =>
      let v : Option (NodeRes V) :=
        if cfg.ValueIsNullable then
          match x.v.m with
          | .Maybe_Null => some .Null
          | .Maybe_Value => some (.val x.v.v)
          | _ => none
        else some (.val x.v.v)
      ((some x.k, v, none), { itr with idx := itr.idx + 1 })

/-- The caller's loop `for !itr.Done() { itr.Next() }`, collecting what `Next`
returns; it stops at the first error. -/
def MapItr.drain (cfg : Cfg) : Nat → MapItr V → List (NextRes V)
  | 0, _ => []
  | fuel + 1, itr =>
    if itr.Done then []
    else
      match itr.Next cfg with
      | ((k, v, none), itr1) => (k, v, none) :: MapItr.drain cfg fuel itr1
      | (r, _) => [r]

/-! ## Callers' scripts and predicates used in the statements -/

/-- The value assembler refers to the value storage at `p` the way `addRow`
wires it: through `w` (and `&ma.cm` as `m`) for non-nullable values, through
`m` for nullable ones, whose `w` is the row's payload address or, when the
wrapper holds a pointer, the nil copied out of the fresh row. -/
def ValueAssembler.wiredTo (cfg : Cfg) (va : ValueAssembler V) (p : Ptr) : Prop :=
  if cfg.ValueIsNullable then
    va.m = .slot p ∧ va.w = (if cfg.ValueMaybeUsesPtr then .nil else .slot p)
  else va.w = .slot p ∧ va.m = .cm

/-- One entry assembled the long way: `AssembleKey`, the key assembler's
`AssignString`, `AssembleValue`, and the value completed (`none`: with null). -/
def assembleViaKey (cfg : Cfg) (ma : Assembler V) (k : String) (v : Option V) : Step V :=
  (AssembleKey cfg ma).andThen fun a1 =>
  (KeyAssembler.AssignString cfg a1 k).andThen fun a2 =>
  (AssembleValue a2).andThen fun a3 =>
  ValueAssembler.AssignNode cfg a3 v

/-- One entry assembled through `AssembleEntry`, and the value completed. -/
def assembleViaEntry (cfg : Cfg) (ma : Assembler V) (k : String) (v : Option V) : Step V :=
  (AssembleEntry cfg ma k).andThen fun a1 => ValueAssembler.AssignNode cfg a1 v

/-- A pair to assemble: the key, the value (`none`: null), and whether the
caller takes `AssembleEntry` rather than the key assembler. -/
structure Pair (V : Type) where
  key : String
  value : Option V
  viaEntry : Bool

/-- One pair assembled by the route it names. -/
def assemblePair (cfg : Cfg) (ma : Assembler V) (p : Pair V) : Step V :=
  if p.viaEntry then assembleViaEntry cfg ma p.key p.value
  else assembleViaKey cfg ma p.key p.value

/-- The pairs assembled in order; the first failure stops the script. -/
def assembleAll (cfg : Cfg) : List (Pair V) → Assembler V → Step V
  | [], ma => (none, ma)
  | p :: ps, ma => (assemblePair cfg ma p).andThen fun a => assembleAll cfg ps a

/-- A whole map built by one caller: a new builder, `BeginMap`, the pairs,
`Finish`. -/
def buildMap (cfg : Cfg) (sizeHint : Int) (ps : List (Pair V)) : Step V :=
  (BeginMap NewBuilder sizeHint).andThen fun a =>
  (assembleAll cfg ps a).andThen fun b => Finish cfg b

/-- The row that `addRow` appends for the key string `k`: a zero row, whose
wrapper state is then set to `allowNull` when values are nullable. -/
def freshRow (cfg : Cfg) (k : String) : Entry V :=
  { k := fromString k,
    v := { m := if cfg.ValueIsNullable then .allowNull else .Maybe_Absent, v := none } }

/-- A map type with non-nullable values, on a runtime that doubles capacities. -/
def cfgPlain : Cfg := { ValueIsNullable := false, ValueMaybeUsesPtr := false, grow := fun c => 2 * c }

/-- A map type with nullable values whose wrapper holds the payload inline. -/
def cfgNullable : Cfg := { ValueIsNullable := true, ValueMaybeUsesPtr := false, grow := fun c => 2 * c }

/-- A map type with nullable values whose wrapper holds a pointer to the payload. -/
def cfgNullablePtr : Cfg := { ValueIsNullable := true, ValueMaybeUsesPtr := true, grow := fun c => 2 * c }

/-- A new builder on which `BeginMap` was called and one pair assembled. -/
def oneEntry (cfg : Cfg) (sizeHint : Int) (p : Pair V) : Step V :=
  (BeginMap NewBuilder sizeHint).andThen fun a => assemblePair cfg a p

/-- The assembler after the entry `("a", 1)` was assembled through
`AssembleEntry` and its value completed, for nullable values held by pointer. -/
def afterOneNullablePtr : Assembler Nat :=
  (oneEntry cfgNullablePtr 0 { key := "a", value := some 1, viaEntry := true }).2

/-- The assembler after the entry `("a", 1)` was assembled and completed and
`AssembleKey()` was called again, for non-nullable values. -/
def secondKeyPlain : Assembler Nat :=
  (AssembleKey cfgPlain
    (oneEntry cfgPlain 0 { key := "a", value := some 1, viaEntry := false }).2).2

/-- A call on the map assembler or on one of the two handles it gives out. -/
inductive Call (V : Type) where
  | AssembleKey
  | KeyAssignString (s : String)
  | AssembleValue
  | AssembleEntry (s : String)
  | Finish
  | ValueAssign (v : Option V)

/-- The call made on the assembler. -/
def Call.run (cfg : Cfg) (ma : Assembler V) : Call V → Step V
  | .AssembleKey => GenMap.AssembleKey cfg ma
  | .KeyAssignString s => KeyAssembler.AssignString cfg ma s
  | .AssembleValue => GenMap.AssembleValue ma
  | .AssembleEntry s => GenMap.AssembleEntry cfg ma s
  | .Finish => GenMap.Finish cfg ma
  | .ValueAssign v => ValueAssembler.AssignNode cfg ma v

/-- The assembler after a sequence of calls, each made on what its predecessor
left, whether that one succeeded or failed. -/
def runCalls (cfg : Cfg) : List (Call V) → Assembler V → Assembler V
  | [], ma => ma
  | c :: cs, ma => runCalls cfg cs (c.run cfg ma).2

/-- The two structures hold the same keys, in the same order, each once, and the
lookup structure is allocated. -/
def KeysAgree (n : MapNode V) : Prop :=
  n.m ≠ none ∧ n.mkeys = n.tkeys ∧ n.tkeys.Nodup

/-- The row a completed pair has left in the sequence once the tidy step has
run: the payload, and for nullable values the wrapper state Null or Value. -/
def finalRow (cfg : Cfg) (p : Pair V) : Entry V :=
  { k := fromString p.key,
    v := if cfg.ValueIsNullable then
        match p.value with
        | none => { m := .Maybe_Null, v := none }
        | some v => { m := .Maybe_Value, v := some v }
      else { m := .Maybe_Absent, v := p.value } }

/-- What `Next` returns for a row when it succeeds. -/
def Entry.asNext (cfg : Cfg) (x : Entry V) : NextRes V :=
  (some x.k,
    if cfg.ValueIsNullable then
      match x.v.m with
      | .Maybe_Null => some .Null
      | .Maybe_Value => some (.val x.v.v)
      | _ => none
    else some (.val x.v.v),
    none)

/-- What the iterator is to yield for an assembled pair: its key, its value (the
Null sentinel for null), no error. -/
def Pair.asNext (p : Pair V) : NextRes V :=
  (some (fromString p.key),
    some (match p.value with
      | none => NodeRes.Null
      | some v => NodeRes.val (some v)),
    none)

/-- The node that a lookup of an assembled pair is to return: the Null sentinel
for null, else the value. -/
def Pair.asNode (p : Pair V) : NodeRes V :=
  match p.value with
  | none => NodeRes.Null
  | some v => NodeRes.val (some v)

/-- The lookup structure leads, for the key of every row, to storage that holds
what the row holds: the pointer entered for the key has the row's index and its
pointee is the row's value storage, in the current backing array or in a
retired one. -/
def LookupAgrees (n : MapNode V) : Prop :=
  ∀ i x, n.t[i]? = some x → ∃ p, n.find x.k = some p ∧ p.idx = i ∧ n.deref p = some x.v

/-- The assembler is between entries, and its map holds exactly the pairs `ps`,
all of them tidied. -/
def Settled (cfg : Cfg) (ma : Assembler V) (ps : List (Pair V)) : Prop :=
  ma.state = .maState_initial ∧ ma.w.t = ps.map (finalRow cfg) ∧ ma.w.m ≠ none ∧
  ma.w.mkeys = ps.map (fun p => fromString p.key) ∧
  (cfg.ValueIsNullable = false → ma.cm = .Maybe_Absent) ∧ LookupAgrees ma.w

/-- The next call that passes the state fence finds the map settled on `ps`. -/
def Assembled (cfg : Cfg) (ma : Assembler V) (ps : List (Pair V)) : Prop :=
  ∃ mc, stateFence cfg ma = (none, mc) ∧ Settled cfg mc ps

/-- The method `IsNull` of a node. -/
def Node.IsNull : Node V → Bool
  | .Null => true
  | .own _ => false
  | .other _ _ => false

/-- The method `ReprKind` of a node. -/
def Node.ReprKind : Node V → ReprKind
  | .Null => ReprKind_Null
  | .own _ => ReprKind_Map
  | .other kind _ => kind

/-- The three calls that `AssembleEntry` stands for: `AssembleKey`, the key
assembler's `AssignString`, `AssembleValue`. -/
def assembleKeyStringValue (cfg : Cfg) (ma : Assembler V) (k : String) : Step V :=
  (AssembleKey cfg ma).andThen fun a1 =>
  (KeyAssembler.AssignString cfg a1 k).andThen fun a2 =>
  AssembleValue a2

/-- The completion signal that the tidy helper reads in midValue: the state of
the last row's wrapper for nullable values, the child maybe `cm` otherwise;
`none` when the sequence has no row. -/
def tidySignal (cfg : Cfg) (ma : Assembler V) : Option Maybe :=
  ma.w.t.getLast?.map (fun tz => if cfg.ValueIsNullable then tz.v.m else ma.cm)

/-- A key node as `Lookup` sees it: one of the declared key type, on which the
type assertion `key.(K)` succeeds, or any other node. -/
inductive KeyNode where
  | typed (k : Key)
  | other
  deriving DecidableEq, Repr

/-- How a call of `Lookup` ends: in a panic with its message, or by returning
to the caller (a node, or an error). -/
inductive Ended (α : Type) where
  | panicked (msg : String)
  | returned (x : α)

/-- The method `Lookup`.  The text of a key of String kind, `k2.String()`, is
the string it wraps. -/
def Lookup (cfg : Cfg) (n : MapNode V) : KeyNode → Ended (Except Err (NodeRes V))
  | .other => .panicked "todo invalid key type error"
  | .typed k2 =>
    match n.find k2 with
    | none => .returned (.error (.NotExists k2.x))
    | some p =>
      match n.deref p with
      | none => .returned (.error .RuntimePanic)
      | some v =>
        if cfg.ValueIsNullable then
          if v.m = .Maybe_Null then .returned (.ok .Null) else .returned (.ok (.val v.v))
        else .returned (.ok (.val v.v))

/-- An operation of the map assembler: one of the calls above, or one of the
three that the assembler has as a node assembler. -/
inductive Op (V : Type) where
  | call (c : Call V)
  | BeginMap (sizeHint : Int)
  | AssignNull
  | AssignNode (n : Node V)

/-- The operation made on the assembler. -/
def Op.run (cfg : Cfg) (ma : Assembler V) : Op V → Step V
  | .call c => c.run cfg ma
  | .BeginMap h => GenMap.BeginMap ma h
  | .AssignNull => GenMap.AssignNull ma
  | .AssignNode n => GenMap.AssignNode cfg ma n

/-- The assembler after a sequence of operations, each made on what its
predecessor left, whether that one succeeded or failed. -/
def runOps (cfg : Cfg) : List (Op V) → Assembler V → Assembler V
  | [], ma => ma
  | o :: os, ma => runOps cfg os (o.run cfg ma).2

/-- A maybe that was Null or Value and is Absent afterwards. -/
def Regresses (a b : Maybe) : Prop :=
  (a = .Maybe_Null ∨ a = .Maybe_Value) ∧ b = .Maybe_Absent

/-- Every wrapper of `n` whose state is Null or Value is still there in `n1`,
at the same address and in the same state. -/
def SlotsKept (n n1 : MapNode V) : Prop :=
  ∀ p s, n.deref p = some s → (s.m = .Maybe_Null ∨ s.m = .Maybe_Value) →
    ∃ s1, n1.deref p = some s1 ∧ s1.m = s.m

/-- The assembler for non-nullable values after the entry `("a", 1)` was
assembled and its value completed: the child maybe holds Value. -/
def afterOnePlain : Assembler Nat :=
  (oneEntry cfgPlain 0 { key := "a", value := some 1, viaEntry := true }).2

/-- The row's value is finished as far as its wrapper tells: for nullable values
the wrapper is Null or Value; for non-nullable values there is no wrapper. -/
def RowDone (cfg : Cfg) (x : Entry V) : Prop :=
  cfg.ValueIsNullable = true → (x.v.m = .Maybe_Null ∨ x.v.m = .Maybe_Value)

/-- The pointer entered for the key of the last row leads into the current
backing array. -/
def LastFresh (n : MapNode V) : Prop :=
  ∀ x, n.t.getLast? = some x → n.find x.k = some n.lastPtr

/-- The value assembler, where it holds the address of a row, holds that of the
last row. -/
def VaOK (ma : Assembler V) : Prop :=
  (∀ p, ma.va.w = .slot p → p = ma.w.lastPtr ∧ ma.w.t ≠ []) ∧
  (∀ p, ma.va.m = .slot p → p = ma.w.lastPtr ∧ ma.w.t ≠ [])

/-- Every row before the last is finished, and the last one too unless its
value is expected or under way. -/
def RowsDone (cfg : Cfg) (ma : Assembler V) : Prop :=
  (∀ x ∈ ma.w.t.dropLast, RowDone cfg x) ∧
  (ma.state = .maState_initial ∨ ma.state = .maState_midKey ∨
      ma.state = .maState_finished →
    ∀ x, ma.w.t.getLast? = some x → RowDone cfg x)

/-- The representation invariant of an assembler whose map has begun. -/
def Sound (cfg : Cfg) (ma : Assembler V) : Prop :=
  KeysAgree ma.w ∧ LookupAgrees ma.w ∧ LastFresh ma.w ∧ VaOK ma ∧ RowsDone cfg ma ∧
  (ma.state = .maState_expectValue ∨ ma.state = .maState_midValue → ma.w.t ≠ []) ∧
  (ma.m = .midvalue ∨ ma.m = .Maybe_Value)

/-- The invariant of every assembler, begun or not: a value is expected or
under way only on a map that is allocated and has a row, and an allocated map
belongs to an assembler that has begun or finished. -/
def Tame (ma : Assembler V) : Prop :=
  (ma.state = .maState_expectValue ∨ ma.state = .maState_midValue →
    ma.w.t ≠ [] ∧ ma.w.m ≠ none) ∧
  (ma.w.m ≠ none → ma.m = .midvalue ∨ ma.m = .Maybe_Value)

/-- A builder for non-nullable values on which `BeginMap(0)` was called, the
entries `("a", 1)` and `("b", 2)` assembled, and `Finish` called: both appends
move the rows to a new backing array. -/
def twoEntriesPlain : Assembler Nat :=
  runOps cfgPlain
    [Op.call (Call.AssembleEntry "a"), Op.call (Call.ValueAssign (some 1)),
     Op.call (Call.AssembleEntry "b"), Op.call (Call.ValueAssign (some 2)),
     Op.call Call.Finish] (BeginMap NewBuilder 0).2

/-- A builder for nullable values on which `BeginMap(0)` was called, the entries
`("a", null)` and `("b", 2)` assembled, and `Finish` called. -/
def twoEntriesNullable : Assembler Nat :=
  runOps cfgNullable
    [Op.call (Call.AssembleEntry "a"), Op.call (Call.ValueAssign none),
     Op.call (Call.AssembleEntry "b"), Op.call (Call.ValueAssign (some 2)),
     Op.call Call.Finish] (BeginMap NewBuilder 0).2

/-! ## A node that an assembler has adopted -/

/-- The node `v2` after `AssignNode(v2)` took the branch for a node of the map's
own type.  The statement `*na.w = *v2` copies a struct of a map and a slice; a
Go map is a reference and a slice header points at its backing array, so from
then on `v2.m` and `na.w.m` are one lookup map, whose pointers lead into the
memory the assembler writes, while `v2.t` keeps the header it had (backing
array and length).  `hdr` is `v2` as it was adopted, `w` the assembler's node
now. -/
structure Adopted (V : Type) where
  hdr : MapNode V
  w : MapNode V

/-- The rows that the slice header of the adopted node reads: the first
`len(v2.t)` rows of the backing array it points at, which is the assembler's
current array or one that the assembler's appends have left behind. -/
def Adopted.t (a : Adopted V) : List (Entry V) :=
  (if a.hdr.old.length = a.w.old.length then a.w.t
    else a.w.old.getD a.hdr.old.length []).take a.hdr.t.length

/-- The method `LookupString` on the adopted node: `n.m` is the shared lookup
map, and the pointer found in it leads into the shared memory. -/
def Adopted.LookupString (cfg : Cfg) (a : Adopted V) (key : String) :
    Except Err (NodeRes V) :=
  GenMap.LookupString cfg a.w key

/-- The method `MapIterator` on the adopted node: the iterator reads `n.t`
only. -/
def Adopted.MapIterator (a : Adopted V) : MapItr V :=
  { n := { a.hdr with t := a.t }, idx := 0 }

/-- The builder that has built the map with the one entry `("a", 1)` for
non-nullable values: `BeginMap(0)`, `AssembleEntry("a")`, the value 1,
`Finish`. -/
def finishedOnePlain : Assembler Nat :=
  runOps cfgPlain
    [Op.call (Call.AssembleEntry "a"), Op.call (Call.ValueAssign (some 1)),
     Op.call Call.Finish] (BeginMap NewBuilder 0).2

/-- A new builder that was given the finished map of `finishedOnePlain` through
`AssignNode` and then the entry `("z", 3)`. -/
def adopterPlain : Assembler Nat :=
  runOps cfgPlain
    [Op.AssignNode (Node.own finishedOnePlain.w), Op.call (Call.AssembleEntry "z"),
     Op.call (Call.ValueAssign (some 3))] NewBuilder

/-- A new builder for non-nullable values on which `AssembleKey()` was called
and `BeginMap` was not: the state is midKey and the lookup map is nil. -/
def midKeyUnbegun : Assembler Nat := (AssembleKey cfgPlain NewBuilder).2

/-- A new builder for nullable values on which `AssembleEntry("a")` and then
`Finish()` were called and `BeginMap` was not. -/
def finishedUnbegun : Assembler Nat :=
  runOps cfgNullable [Op.call (Call.AssembleEntry "a"), Op.call Call.Finish] NewBuilder

end GenMap

/-! # The dynamic builder of package `impls` (`any.go`) -/

namespace Impls

open GenMap

/-- An `ipld.Node` as the dynamic builder sees it: `ipld.Null`, the plain
scalars that the conversions `Bool(v)` .. `Link(v)` make, or any other node (one
built by the map or list builder, or one of another package). -/
inductive Node (L X : Type) where
  | Null
  | Bool (v : Bool)
  | Int (v : Int)
  | Float (v : Float)
  | String (v : String)
  | Bytes (v : List (Fin 256))
  | Link (v : L)
  | other (x : X)

/-- The parts of package `impls` that `any.go` uses and that are not among the
sources: the zero values of `plainMap__Builder` and `plainList__Builder`, what
setting their `w` and calling their `BeginMap` / `BeginList` does, and their
`Build`. -/
structure Plain (MB LB L X : Type) where
  mapZero : MB
  listZero : LB
  mapBeginMap : MB → Int → Option Err × MB
  listBeginList : LB → Int → Option Err × LB
  mapBuild : MB → Except Err (Option (Node L X))
  listBuild : LB → Except Err (Option (Node L X))

/-- The struct `anyBuilder`; a nil `scalarNode` is `none`. -/
structure anyBuilder (MB LB L X : Type) where
  kind : ReprKind
  mapBuilder : MB
  listBuilder : LB
  scalarNode : Option (Node L X)

variable {MB LB L X : Type}

/-- The outcome of a call on the dynamic builder and the builder after it. -/
abbrev AnyStep (MB LB L X : Type) := Option Err × anyBuilder MB LB L X

/-- The zero value `anyBuilder{}`. -/
def anyBuilder.zero (P : Plain MB LB L X) : anyBuilder MB LB L X :=
  { kind := ReprKind_Invalid, mapBuilder := P.mapZero, listBuilder := P.listZero,
    scalarNode := none }

/-- The method `NewBuilder` of `Style__Any`. -/
def Style__Any.NewBuilder (P : Plain MB LB L X) : anyBuilder MB LB L X :=
  anyBuilder.zero P

/-- The method `Reset`. -/
def anyBuilder.Reset (P : Plain MB LB L X) (_nb : anyBuilder MB LB L X) :
    anyBuilder MB LB L X :=
  anyBuilder.zero P

/-- The method `BeginMap`. -/
def anyBuilder.BeginMap (P : Plain MB LB L X) (nb : anyBuilder MB LB L X) (sizeHint : Int) :
    AnyStep MB LB L X :=
  if nb.kind ≠ ReprKind_Invalid then (some .IllegalState, nb)
  else
    ((P.mapBeginMap nb.mapBuilder sizeHint).1,
      { nb with kind := ReprKind_Map, mapBuilder := (P.mapBeginMap nb.mapBuilder sizeHint).2 })

/-- The method `BeginList`. -/
def anyBuilder.BeginList (P : Plain MB LB L X) (nb : anyBuilder MB LB L X) (sizeHint : Int) :
    AnyStep MB LB L X :=
  if nb.kind ≠ ReprKind_Invalid then (some .IllegalState, nb)
  else
    ((P.listBeginList nb.listBuilder sizeHint).1,
      { nb with
        kind := ReprKind_List, listBuilder := (P.listBeginList nb.listBuilder sizeHint).2 })

/-- The method `AssignNull`. -/
def anyBuilder.AssignNull (nb : anyBuilder MB LB L X) : AnyStep MB LB L X :=
  if nb.kind ≠ ReprKind_Invalid then (some .IllegalState, nb)
  else (none, { nb with kind := ReprKind_Null })

/-- The method `AssignBool`. -/
def anyBuilder.AssignBool (nb : anyBuilder MB LB L X) (v : Bool) : AnyStep MB LB L X :=
  if nb.kind ≠ ReprKind_Invalid then (some .IllegalState, nb)
  else (none, { nb with kind := ReprKind_Bool, scalarNode := some (.Bool v) })

/-- The method `AssignInt`. -/
def anyBuilder.AssignInt (nb : anyBuilder MB LB L X) (v : Int) : AnyStep MB LB L X :=
  if nb.kind ≠ ReprKind_Invalid then (some .IllegalState, nb)
  else (none, { nb with kind := ReprKind_Int, scalarNode := some (.Int v) })

/-- The method `AssignFloat`. -/
def anyBuilder.AssignFloat (nb : anyBuilder MB LB L X) (v : Float) : AnyStep MB LB L X :=
  if nb.kind ≠ ReprKind_Invalid then (some .IllegalState, nb)
  else (none, { nb with kind := ReprKind_Float, scalarNode := some (.Float v) })

/-- The method `AssignString`. -/
def anyBuilder.AssignString (nb : anyBuilder MB LB L X) (v : String) : AnyStep MB LB L X :=
  if nb.kind ≠ ReprKind_Invalid then (some .IllegalState, nb)
  else (none, { nb with kind := ReprKind_String, scalarNode := some (.String v) })

/-- The method `AssignBytes`. -/
def anyBuilder.AssignBytes (nb : anyBuilder MB LB L X) (v : List (Fin 256)) :
    AnyStep MB LB L X :=
  if nb.kind ≠ ReprKind_Invalid then (some .IllegalState, nb)
  else (none, { nb with kind := ReprKind_Bytes, scalarNode := some (.Bytes v) })

/-- The method `AssignLink`. -/
def anyBuilder.AssignLink (nb : anyBuilder MB LB L X) (v : L) : AnyStep MB LB L X :=
  if nb.kind ≠ ReprKind_Invalid then (some .IllegalState, nb)
  else (none, { nb with kind := ReprKind_Link, scalarNode := some (.Link v) })

/-- The method `AssignNode`; 99 is the magic kind of a node carried as it is. -/
def anyBuilder.AssignNode (nb : anyBuilder MB LB L X) (v : Option (Node L X)) :
    AnyStep MB LB L X :=
  if nb.kind ≠ ReprKind_Invalid then (some .IllegalState, nb)
  else (none, { nb with kind := 99, scalarNode := v })

/-- The method `Build`; `panic("misuse")` and `panic("unreachable")` are both
`Err.IllegalState`. -/
def anyBuilder.Build (P : Plain MB LB L X) (nb : anyBuilder MB LB L X) :
    Except Err (Option (Node L X)) :=
  if nb.kind = ReprKind_Invalid then .error .IllegalState
  else if nb.kind = ReprKind_Map then P.mapBuild nb.mapBuilder
  else if nb.kind = ReprKind_List then P.listBuild nb.listBuilder
  else if nb.kind = ReprKind_Null then .ok (some .Null)
  else if nb.kind = ReprKind_Bool then .ok nb.scalarNode
  else if nb.kind = ReprKind_Int then .ok nb.scalarNode
  else if nb.kind = ReprKind_Float then .ok nb.scalarNode
  else if nb.kind = ReprKind_String then .ok nb.scalarNode
  else if nb.kind = ReprKind_Bytes then .ok nb.scalarNode
  else if nb.kind = ReprKind_Link then .ok nb.scalarNode
  else if nb.kind = 99 then .ok nb.scalarNode
  else .error .IllegalState

/-- A shaping call on the dynamic builder, with its argument. -/
inductive Shaping (L X : Type) where
  | BeginMap (sizeHint : Int)
  | BeginList (sizeHint : Int)
  | AssignNull
  | AssignBool (v : Bool)
  | AssignInt (v : Int)
  | AssignFloat (v : Float)
  | AssignString (v : String)
  | AssignBytes (v : List (Fin 256))
  | AssignLink (v : L)
  | AssignNode (v : Option (Node L X))

/-- The shaping call made on the builder. -/
def Shaping.run (P : Plain MB LB L X) (nb : anyBuilder MB LB L X) :
    Shaping L X → AnyStep MB LB L X
  | .BeginMap h => anyBuilder.BeginMap P nb h
  | .BeginList h => anyBuilder.BeginList P nb h
  | .AssignNull => anyBuilder.AssignNull nb
  | .AssignBool v => anyBuilder.AssignBool nb v
  | .AssignInt v => anyBuilder.AssignInt nb v
  | .AssignFloat v => anyBuilder.AssignFloat nb v
  | .AssignString v => anyBuilder.AssignString nb v
  | .AssignBytes v => anyBuilder.AssignBytes nb v
  | .AssignLink v => anyBuilder.AssignLink nb v
  | .AssignNode v => anyBuilder.AssignNode nb v

/-- Sub-builders that do nothing, for concrete instances of the statements. -/
def plainUnit : Plain Unit Unit Unit Unit :=
  { mapZero := (), listZero := (),
    mapBeginMap := fun _ _ => (none, ()), listBeginList := fun _ _ => (none, ()),
    mapBuild := fun _ => .ok none, listBuild := fun _ => .ok none }

end Impls

/-! # Package `selector` (`traversal/selector/selector.go`) -/

namespace Selector

open GenMap

/-- An `ipld.Node` as the selector parser reads it. -/
inductive SNode where
  | null
  | bool (v : Bool)
  | int (v : Int)
  | float (v : Float)
  | string (v : String)
  | bytes (v : List (Fin 256))
  | link (v : String)
  | list (items : List SNode)
  | map (entries : List (SNode × SNode))

/-- The method `ReprKind` of a node. -/
def SNode.ReprKind : SNode → ReprKind
  | .null => ReprKind_Null
  | .bool _ => ReprKind_Bool
  | .int _ => ReprKind_Int
  | .float _ => ReprKind_Float
  | .string _ => ReprKind_String
  | .bytes _ => ReprKind_Bytes
  | .link _ => ReprKind_Link
  | .list _ => ReprKind_List
  | .map _ => ReprKind_Map

/-- The method `Length` of a node: the number of entries or items, and -1 for a
node that is neither a map nor a list. -/
def SNode.Length : SNode → Int
  | .list items => items.length
  | .map entries => entries.length
  | _ => -1

/-- Modelled from the spec: the method `AsString` of a node, whose code is not
among the sources: the string and no error for a node of kind String, the zero
string and a wrong-kind error for every other node. -/
def SNode.AsString : SNode → String × Option Err
  | .string v => (v, none)
  | _ => ("", some Err.WrongKind)

/-- The first call of `Next` on a new iterator of a node: its first entry, or
nothing when the node is no map or has no entry. -/
def SNode.firstEntry : SNode → Option (SNode × SNode)
  | .map (e :: _) => some e
  | _ => none

/-- The header of a Go slice: the address of its backing array, its length and
its capacity.  The nil slice has length and capacity zero. -/
structure SliceRef where
  arr : Nat
  len : Nat
  cap : Nat
  deriving DecidableEq, Repr

/-- The backing arrays of the slices of parents, by address; `P` is the
interface `ParsedParent`, and `none` is its nil value, which also fills the part
of an array that no slice has reached yet. -/
structure Mem (P : Type) where
  arrays : List (List (Option P))

/-- The elements of a slice. -/
def Mem.view {P : Type} (m : Mem P) (s : SliceRef) : List (Option P) :=
  (m.arrays.getD s.arr []).take s.len

/-- The call `make([]ParsedParent, 0, cap)`: a new array, and the empty slice
on it. -/
def Mem.make {P : Type} (m : Mem P) (cap : Nat) : Mem P × SliceRef :=
  ({ arrays := m.arrays ++ [List.replicate cap none] },
    { arr := m.arrays.length, len := 0, cap := cap })

/-- The call `append(s, x)`: in place while the capacity lasts, else into a new
array of the capacity the runtime picks. -/
def Mem.appendOne {P : Type} (grow : Nat → Nat) (m : Mem P) (s : SliceRef) (x : Option P) :
    Mem P × SliceRef :=
  if s.len < s.cap then
    ({ arrays := m.arrays.modify (fun a => a.set s.len x) s.arr }, { s with len := s.len + 1 })
  else
    ({ arrays := m.arrays ++
        [m.view s ++ [x] ++ List.replicate (max (s.len + 1) (grow s.cap) - (s.len + 1)) none] },
      { arr := m.arrays.length, len := s.len + 1, cap := max (s.len + 1) (grow s.cap) })

/-- The call `append(s, xs...)`, element by element. -/
def Mem.appendAll {P : Type} (grow : Nat → Nat) :
    Mem P → SliceRef → List (Option P) → Mem P × SliceRef
  | m, s, [] => (m, s)
  | m, s, x :: xs =>
    Mem.appendAll grow (Mem.appendOne grow m s x).1 (Mem.appendOne grow m s x).2 xs

/-- A slice header that the memory bears out: within its capacity, and, unless
it is empty, on an allocated array that reaches as far as the capacity. -/
def Mem.valid {P : Type} (m : Mem P) (s : SliceRef) : Prop :=
  s.len ≤ s.cap ∧
  (s.len = 0 ∨ (s.arr < m.arrays.length ∧ s.cap ≤ (m.arrays.getD s.arr []).length))

/-- The struct `ParseContext`: the header of its slice `parentStack`. -/
structure ParseContext where
  parentStack : SliceRef
  deriving DecidableEq, Repr

/-- The errors of the parser: the three that `ParseSelector` makes itself, the
nil dereference of a key that `Next` did not deliver, and those of the parsers
of the union's members. -/
inductive ParseError (E : Type) where
  | notMap
  | notSingleEntry
  | unknownMember (kstr : String)
  | nilKey
  | member (e : E)

/-- The parts of the package that `ParseSelector` uses and that are not among
the sources: the eight keys of the selector union and the parser of each
member. -/
structure Members (E S : Type) where
  exploreFieldsKey : String
  exploreAllKey : String
  exploreIndexKey : String
  exploreRangeKey : String
  exploreUnionKey : String
  exploreRecursiveKey : String
  exploreRecursiveEdgeKey : String
  matcherKey : String
  ParseExploreFields : ParseContext → SNode → Except (ParseError E) S
  ParseExploreAll : ParseContext → SNode → Except (ParseError E) S
  ParseExploreIndex : ParseContext → SNode → Except (ParseError E) S
  ParseExploreRange : ParseContext → SNode → Except (ParseError E) S
  ParseExploreUnion : ParseContext → SNode → Except (ParseError E) S
  ParseExploreRecursive : ParseContext → SNode → Except (ParseError E) S
  ParseExploreRecursiveEdge : ParseContext → SNode → Except (ParseError E) S
  ParseMatcher : ParseContext → SNode → Except (ParseError E) S

variable {P E S : Type}

/-- The eight keys of the selector union, in the order of the switch. -/
def Members.keys (M : Members E S) : List String :=
  [M.exploreFieldsKey, M.exploreAllKey, M.exploreIndexKey, M.exploreRangeKey,
   M.exploreUnionKey, M.exploreRecursiveKey, M.exploreRecursiveEdgeKey, M.matcherKey]

/-- The switch of `ParseSelector` over the key string. -/
def dispatch (M : Members E S) (pc : ParseContext) (kstr : String) (v : SNode) :
    Except (ParseError E) S :=
  if kstr = M.exploreFieldsKey then M.ParseExploreFields pc v
  else if kstr = M.exploreAllKey then M.ParseExploreAll pc v
  else if kstr = M.exploreIndexKey then M.ParseExploreIndex pc v
  else if kstr = M.exploreRangeKey then M.ParseExploreRange pc v
  else if kstr = M.exploreUnionKey then M.ParseExploreUnion pc v
  else if kstr = M.exploreRecursiveKey then M.ParseExploreRecursive pc v
  else if kstr = M.exploreRecursiveEdgeKey then M.ParseExploreRecursiveEdge pc v
  else if kstr = M.matcherKey then M.ParseMatcher pc v
  else .error (.unknownMember kstr)

/-- The method `ParseSelector` of a parse context. -/
def ParseContext.ParseSelector (M : Members E S) (pc : ParseContext) (n : SNode) :
    Except (ParseError E) S :=
  if n.ReprKind ≠ ReprKind_Map then .error .notMap
  else if n.Length ≠ 1 then .error .notSingleEntry
  else
    match n.firstEntry with
    | none => .error .nilKey
    | some (kn, v) => dispatch M pc kn.AsString.1 v

/-- The parsers of the members, in the order of the switch. -/
def Members.parsers (M : Members E S) :
    List (ParseContext → SNode → Except (ParseError E) S) :=
  [M.ParseExploreFields, M.ParseExploreAll, M.ParseExploreIndex, M.ParseExploreRange,
   M.ParseExploreUnion, M.ParseExploreRecursive, M.ParseExploreRecursiveEdge, M.ParseMatcher]

/-- The function `ParseSelector`, which starts from the zero context. -/
def ParseSelector (M : Members E S) (n : SNode) : Except (ParseError E) S :=
  ParseContext.ParseSelector M { parentStack := { arr := 0, len := 0, cap := 0 } } n

/-- The method `PushParent`: the memory after the call and the context it
returns.  The elements of `pc.parentStack` are read when the second `append`
runs. -/
def ParseContext.PushParent (grow : Nat → Nat) (m : Mem P) (pc : ParseContext)
    (parent : Option P) : Mem P × ParseContext :=
  let l := pc.parentStack.len
  let r1 := m.make (l + 1)
  let r2 := Mem.appendOne grow r1.1 r1.2 parent
  let r3 := Mem.appendAll grow r2.1 r2.2 (r2.1.view pc.parentStack)
  (r3.1, { parentStack := r3.2 })

/-- The eight keys as the library spells them, with member parsers that accept
nothing, for concrete instances of the statements. -/
def membersSample : Members Unit Unit :=
  { exploreFieldsKey := "f", exploreAllKey := "a", exploreIndexKey := "i",
    exploreRangeKey := "r", exploreUnionKey := "|", exploreRecursiveKey := "R",
    exploreRecursiveEdgeKey := "@", matcherKey := ".",
    ParseExploreFields := fun _ _ => .error (.member ()),
    ParseExploreAll := fun _ _ => .error (.member ()),
    ParseExploreIndex := fun _ _ => .error (.member ()),
    ParseExploreRange := fun _ _ => .error (.member ()),
    ParseExploreUnion := fun _ _ => .error (.member ()),
    ParseExploreRecursive := fun _ _ => .error (.member ()),
    ParseExploreRecursiveEdge := fun _ _ => .error (.member ()),
    ParseMatcher := fun _ _ => .error (.member ()) }

/-! ## Path segments -/

/-- The two errors of `strconv`. -/
inductive NumError where
  | ErrSyntax
  | ErrRange
  deriving DecidableEq, Repr

/-- The character of a decimal digit. -/
def digitChar (d : Nat) : Char := Char.ofNat (48 + d)

/-- The value of a character that is a decimal digit. -/
def digitVal (c : Char) : Option Nat :=
  if 48 ≤ c.toNat ∧ c.toNat ≤ 57 then some (c.toNat - 48) else none

/-- The decimal numeral of a natural number, most significant digit first. -/
def natChars (n : Nat) : List Char :=
  if n = 0 then [digitChar 0] else (Nat.digits 10 n).reverse.map digitChar

/-- Go's `strconv.Itoa`: the decimal numeral, with a minus sign for a negative
number. -/
def Itoa (i : Int) : String :=
  if i < 0 then String.mk ('-' :: natChars i.natAbs) else String.mk (natChars i.natAbs)

/-- The value of a run of decimal digits read after the value `acc`; `none` when
a character is no digit. -/
def parseDigits : Nat → List Char → Option Nat
  | acc, [] => some acc
  | acc, c :: cs =>
    match digitVal c with
    | none => none
    | some d => parseDigits (acc * 10 + d) cs

/-- The digits after the sign: a syntax error when there is none or one is no
digit, a range error (with the nearest value) when the number does not fit an
`int` of `intSize` bits. -/
def parseSigned (intSize : Nat) (neg : Bool) (cs : List Char) : Int × Option NumError :=
  match cs with
  | [] => (0, some .ErrSyntax)
  | c :: rest =>
    match parseDigits 0 (c :: rest) with
    | none => (0, some .ErrSyntax)
    | some n =>
      if neg then
        if n > 2 ^ (intSize - 1) then (-((2 : Int) ^ (intSize - 1)), some .ErrRange)
        else (-(n : Int), none)
      else
        if n ≥ 2 ^ (intSize - 1) then ((2 : Int) ^ (intSize - 1) - 1, some .ErrRange)
        else ((n : Int), none)

/-- Go's `strconv.Atoi` for an `int` of `intSize` bits: an optional sign, then
decimal digits. -/
def Atoi (intSize : Nat) (s : String) : Int × Option NumError :=
  match s.data with
  | [] => (0, some .ErrSyntax)
  | c :: cs =>
    if c = '-' then parseSigned intSize true cs
    else if c = '+' then parseSigned intSize false cs
    else parseSigned intSize false (c :: cs)

/-- The struct `PathSegmentString`. -/
structure PathSegmentString where
  S : String

/-- The struct `PathSegmentInt`. -/
structure PathSegmentInt where
  I : Int

/-- The method `String` of a `PathSegmentString`. -/
def PathSegmentString.String (ps : PathSegmentString) : String := ps.S

/-- The method `Index` of a `PathSegmentString`. -/
def PathSegmentString.Index (intSize : Nat) (ps : PathSegmentString) : Int × Option NumError :=
  Atoi intSize ps.S

/-- The method `String` of a `PathSegmentInt`. -/
def PathSegmentInt.String (ps : PathSegmentInt) : String := Itoa ps.I

/-- The method `Index` of a `PathSegmentInt`. -/
def PathSegmentInt.Index (ps : PathSegmentInt) : Int × Option NumError := (ps.I, none)

end Selector

namespace GenMap

variable {V : Type}

/-! ## Basic facts -/

@[simp] theorem Step.andThen_none (a : Assembler V) (f : Assembler V → Step V) :
    Step.andThen (none, a) f = f a := rfl

@[simp] theorem Step.andThen_some (e : Err) (a : Assembler V) (f : Assembler V → Step V) :
    Step.andThen (some e, a) f = (some e, a) := rfl

theorem Step.andThen_eq_none {r : Step V} {f : Assembler V → Step V}
    (h : (r.andThen f).1 = none) : r.1 = none ∧ (f r.2).1 = none := by
  obtain ⟨e, a⟩ := r
  cases e with
  | none => exact ⟨rfl, by simpa using h⟩
  | some e => simp at h

theorem mget_eq_none_iff (l : List (Key × Ptr)) (k : Key) :
    mget l k = none ↔ k ∉ l.map Prod.fst := by
  induction l with
  | nil => simp [mget]
  | cons a r ih =>
    obtain ⟨k1, p1⟩ := a
    by_cases h : k1 = k
    · simp [mget, h]
    · simp [mget, h, ih, Ne.symm h]

theorem mget_mset_self (l : List (Key × Ptr)) (k : Key) (p : Ptr) :
    mget (mset l k p) k = some p := by
  induction l with
  | nil => simp [mget, mset]
  | cons a r ih =>
    obtain ⟨k1, p1⟩ := a
    by_cases h : k1 = k
    · simp [mget, mset, h]
    · simp [mget, mset, h, ih]

theorem mget_mset_ne (l : List (Key × Ptr)) (k k2 : Key) (p : Ptr) (h : k2 ≠ k) :
    mget (mset l k p) k2 = mget l k2 := by
  induction l with
  | nil => simp [mget, mset, Ne.symm h]
  | cons a r ih =>
    obtain ⟨k1, p1⟩ := a
    by_cases h1 : k1 = k
    · subst h1
      simp [mget, mset, Ne.symm h]
    · simp [mget, mset, h1, ih]

theorem mset_keys_of_absent (l : List (Key × Ptr)) (k : Key) (p : Ptr)
    (h : mget l k = none) : (mset l k p).map Prod.fst = l.map Prod.fst ++ [k] := by
  induction l with
  | nil => simp [mset]
  | cons a r ih =>
    obtain ⟨k1, p1⟩ := a
    by_cases h1 : k1 = k
    · simp [mget, h1] at h
    · simp [mget, h1] at h
      simp [mset, h1, ih h]

@[simp] theorem MapNode.store_m (n : MapNode V) (p : Ptr) (f : MaybeV V → MaybeV V) :
    (n.store p f).m = n.m := by
  unfold MapNode.store; split <;> rfl

@[simp] theorem MapNode.store_cap (n : MapNode V) (p : Ptr) (f : MaybeV V → MaybeV V) :
    (n.store p f).cap = n.cap := by
  unfold MapNode.store; split <;> rfl

@[simp] theorem MapNode.store_old_length (n : MapNode V) (p : Ptr) (f : MaybeV V → MaybeV V) :
    (n.store p f).old.length = n.old.length := by
  unfold MapNode.store; split <;> simp

@[simp] theorem MapNode.store_t_length (n : MapNode V) (p : Ptr) (f : MaybeV V → MaybeV V) :
    (n.store p f).t.length = n.t.length := by
  unfold MapNode.store; split <;> simp

theorem modify_map_k (l : List (Entry V)) (g : MaybeV V → MaybeV V) (i : Nat) :
    (l.modify (fun e => { e with v := g e.v }) i).map Entry.k = l.map Entry.k := by
  induction l generalizing i with
  | nil => simp
  | cons a r ih =>
    cases i with
    | zero => simp
    | succ j => simp [ih]

@[simp] theorem MapNode.store_tkeys (n : MapNode V) (p : Ptr) (f : MaybeV V → MaybeV V) :
    (n.store p f).tkeys = n.tkeys := by
  unfold MapNode.store MapNode.tkeys
  split
  · exact modify_map_k n.t f p.idx
  · rfl

@[simp] theorem MapNode.store_mkeys (n : MapNode V) (p : Ptr) (f : MaybeV V → MaybeV V) :
    (n.store p f).mkeys = n.mkeys := by
  simp [MapNode.mkeys]

@[simp] theorem MapNode.store_find (n : MapNode V) (p : Ptr) (f : MaybeV V → MaybeV V)
    (k : Key) : (n.store p f).find k = n.find k := by
  simp [MapNode.find]

@[simp] theorem MapNode.store_lastPtr (n : MapNode V) (p : Ptr) (f : MaybeV V → MaybeV V) :
    (n.store p f).lastPtr = n.lastPtr := by
  simp [MapNode.lastPtr]

@[simp] theorem MapNode.append_t (g : Nat → Nat) (n : MapNode V) (e : Entry V) :
    (n.append g e).t = n.t ++ [e] := by
  unfold MapNode.append; split <;> rfl

@[simp] theorem MapNode.append_m (g : Nat → Nat) (n : MapNode V) (e : Entry V) :
    (n.append g e).m = n.m := by
  unfold MapNode.append; split <;> rfl

theorem MapNode.find_eq_none_iff (n : MapNode V) (k : Key) :
    n.find k = none ↔ k ∉ n.mkeys := by
  unfold MapNode.find MapNode.mkeys
  cases n.m with
  | none => simp
  | some l => exact mget_eq_none_iff l k

/-- Reading back through the pointer to the last row of the current array. -/
theorem MapNode.deref_lastPtr (n : MapNode V) (e : Entry V) (h : n.t.getLast? = some e) :
    n.deref n.lastPtr = some e.v := by
  have hne : n.t ≠ [] := by
    intro h0; simp [h0] at h
  have hlen : n.t.length - 1 < n.t.length := by
    have := List.length_pos.mpr hne
    omega
  have hget : n.t[n.t.length - 1]? = some e := by
    rw [List.getLast?_eq_getElem?] at h
    exact h
  simp [MapNode.deref, MapNode.lastPtr, hget]

/-- A write through the pointer to the last row rewrites that row only. -/
theorem MapNode.store_lastPtr_t (n : MapNode V) (f : MaybeV V → MaybeV V)
    (l : List (Entry V)) (e : Entry V) (h : n.t = l ++ [e]) :
    (n.store n.lastPtr f).t = l ++ [{ e with v := f e.v }] := by
  have : (n.store n.lastPtr f).t = n.t.modify (fun e => { e with v := f e.v }) (n.t.length - 1) := by
    simp [MapNode.store, MapNode.lastPtr]
  rw [this, h]
  simp [List.modify_eq_take_cons_drop]

/-! ## The state fence and the tidy helper -/

theorem valueFinishTidy_none_iff (cfg : Cfg) (ma : Assembler V) :
    valueFinishTidy cfg ma = none ↔ ma.w.t = [] := by
  unfold valueFinishTidy
  cases h : ma.w.t.getLast? with
  | none => simpa using h
  | some tz =>
    have hne : ma.w.t ≠ [] := by
      intro h0; simp [h0] at h
    simp only [hne, iff_false]
    split <;> split <;> (try split) <;> simp

/-- A tidy that reports "not finished" has written nothing. -/
theorem valueFinishTidy_false (cfg : Cfg) (ma ma1 : Assembler V)
    (h : valueFinishTidy cfg ma = some (false, ma1)) : ma1 = ma := by
  unfold valueFinishTidy at h
  split at h
  · simp at h
  · split at h
    · split at h
      · simp at h
      · split at h <;> simp at h
      · simp at h; exact h.symm
    · split at h
      · simp at h
      · simp at h; exact h.symm

/-- A tidy that succeeds leaves the state initial, and the lookup structure, the
keys and the number of rows as they were. -/
theorem valueFinishTidy_true (cfg : Cfg) (ma ma1 : Assembler V)
    (h : valueFinishTidy cfg ma = some (true, ma1)) :
    ma1.state = .maState_initial ∧ ma1.w.m = ma.w.m ∧ ma1.w.tkeys = ma.w.tkeys ∧
    ma1.w.t.length = ma.w.t.length ∧ ma1.m = ma.m ∧
    (cfg.ValueIsNullable = false → ma1.cm = .Maybe_Absent ∧ ma1.w = ma.w) ∧
    (cfg.ValueMaybeUsesPtr = false → ma1.w = ma.w) := by
  unfold valueFinishTidy at h
  split at h
  · simp at h
  · split at h
    · rename_i hn
      split at h
      · simp at h; subst h; simp [hn]
      · split at h
        · rename_i hp
          simp at h; subst h; simp [hn, hp]
        · simp at h; subst h; simp [hn]
      · simp at h
    · rename_i hn
      split at h
      · simp at h; subst h; simp
      · simp at h

/-- The fence fails with IllegalState or, on an empty sequence in midValue, with
the runtime's panic; a failing fence has written nothing. -/
theorem stateFence_fail (cfg : Cfg) (ma : Assembler V) (e : Err) (ma1 : Assembler V)
    (h : stateFence cfg ma = (some e, ma1)) :
    ma1 = ma ∧ (e = .IllegalState ∨
      (e = .RuntimePanic ∧ ma.state = .maState_midValue ∧ ma.w.t = [])) := by
  unfold stateFence at h
  split at h
  · simp at h
  · simp at h; simp [h]
  · simp at h; simp [h]
  · rename_i hs
    split at h
    · rename_i ht
      simp at h
      refine ⟨h.2.symm, Or.inr ⟨h.1.symm, hs, (valueFinishTidy_none_iff cfg ma).mp ht⟩⟩
    · simp at h
    · rename_i ht
      simp at h
      have := valueFinishTidy_false cfg ma _ ht
      refine ⟨by rw [← h.2, this], Or.inl h.1.symm⟩
  · simp at h; simp [h]

/-- The fence lets the caller through exactly from initial, and from midValue
when the tidy succeeds. -/
theorem stateFence_ok_iff (cfg : Cfg) (ma : Assembler V) :
    (stateFence cfg ma).1 = none ↔
      (ma.state = .maState_initial ∨
        (ma.state = .maState_midValue ∧ ∃ ma1, valueFinishTidy cfg ma = some (true, ma1))) := by
  unfold stateFence
  cases hs : ma.state <;> simp
  cases ht : valueFinishTidy cfg ma with
  | none => simp
  | some r =>
    obtain ⟨b, a⟩ := r
    cases b <;> simp

theorem stateFence_initial (cfg : Cfg) (ma : Assembler V)
    (h : ma.state = .maState_initial) : stateFence cfg ma = (none, ma) := by
  simp [stateFence, h]

theorem stateFence_midValue (cfg : Cfg) (ma ma1 : Assembler V)
    (h : ma.state = .maState_midValue) (ht : valueFinishTidy cfg ma = some (true, ma1)) :
    stateFence cfg ma = (none, ma1) := by
  simp [stateFence, h, ht]

/-! ## C7, C8, C10 -/

/-- C7: `Done()` is true exactly when the cursor has reached the number of
entries; `Next()` fails with IteratorOverread exactly when `Done()` is true, and
then returns no key and no value and leaves the cursor where it is; when
`Done()` is false `Next()` succeeds, returns the key and the value of the entry
at the cursor and advances the cursor by one; `Next()` never changes the map. -/
theorem mapItr_next_done_spec (cfg : Cfg) (itr : MapItr V) :
    (itr.Done = true ↔ itr.n.t.length ≤ itr.idx) ∧
    ((itr.Next cfg).1.2.2 = some Err.IteratorOverread ↔ itr.Done = true) ∧
    (itr.Done = true → itr.Next cfg = ((none, none, some Err.IteratorOverread), itr)) ∧
    (itr.Done = false → ∃ x, itr.n.t[itr.idx]? = some x ∧
      (itr.Next cfg).1.1 = some x.k ∧ (itr.Next cfg).1.2.2 = none ∧
      (itr.Next cfg).2.idx = itr.idx + 1 ∧
      (cfg.ValueIsNullable = false → (itr.Next cfg).1.2.1 = some (NodeRes.val x.v.v)) ∧
      (cfg.ValueIsNullable = true → x.v.m = Maybe.Maybe_Null →
        (itr.Next cfg).1.2.1 = some NodeRes.Null) ∧
      (cfg.ValueIsNullable = true → x.v.m = Maybe.Maybe_Value →
        (itr.Next cfg).1.2.1 = some (NodeRes.val x.v.v))) ∧
    (itr.Next cfg).2.n = itr.n := by
  by_cases hd : itr.n.t.length ≤ itr.idx
  · have hN : itr.Next cfg = ((none, none, some Err.IteratorOverread), itr) := by
      simp [MapItr.Next, hd]
    simp [MapItr.Done, hd, hN]
  · have hlt : itr.idx < itr.n.t.length := by omega
    have hx : itr.n.t[itr.idx]? = some itr.n.t[itr.idx] := List.getElem?_eq_getElem hlt
    refine ⟨by simp [MapItr.Done], ?_, ?_, ?_, ?_⟩
    · simp [MapItr.Next, MapItr.Done, hd, hx]
    · simp [MapItr.Done, hd]
    · intro _
      refine ⟨itr.n.t[itr.idx], hx, ?_⟩
      simp only [MapItr.Next, ge_iff_le, hd, if_false, hx]
      refine ⟨trivial, trivial, trivial, ?_, ?_, ?_⟩
      · intro hn; simp [hn]
      · intro hn hm; simp [hn, hm]
      · intro hn hm; simp [hn, hm]
    · simp [MapItr.Next, hd, hx]

/-- C8: `AssembleKey()` succeeds exactly when the state is initial, or is
midValue and the tidy of the pending value succeeds, and then the state is
midKey; every other call fails, and, the sequence being non-empty in midValue as
it is in every state the assembler reaches, it fails with IllegalState (in
midKey, expectValue, finished, and in midValue with an unfinished value) and
leaves the assembler, its entries and its lookup structure as they were. -/
theorem assembleKey_spec (cfg : Cfg) (ma : Assembler V)
    (hrow : ma.state = maState.maState_midValue → ma.w.t ≠ []) :
    ((AssembleKey cfg ma).1 = none ↔
      (ma.state = maState.maState_initial ∨
        (ma.state = maState.maState_midValue ∧
          ∃ ma1, valueFinishTidy cfg ma = some (true, ma1)))) ∧
    ((AssembleKey cfg ma).1 = none → (AssembleKey cfg ma).2.state = maState.maState_midKey) ∧
    ((AssembleKey cfg ma).1 ≠ none →
      AssembleKey cfg ma = (some Err.IllegalState, ma)) ∧
    (ma.state = maState.maState_midKey ∨ ma.state = maState.maState_expectValue ∨
      ma.state = maState.maState_finished → AssembleKey cfg ma = (some Err.IllegalState, ma)) ∧
    (ma.state = maState.maState_midValue → valueFinishTidy cfg ma = some (false, ma) →
      AssembleKey cfg ma = (some Err.IllegalState, ma)) := by
  have key : ∀ r : Step V, stateFence cfg ma = r →
      (AssembleKey cfg ma).1 = r.1 ∧
      (r.1 = none → (AssembleKey cfg ma).2.state = maState.maState_midKey) ∧
      (r.1 ≠ none → AssembleKey cfg ma = r) := by
    intro r hr
    obtain ⟨e, a⟩ := r
    cases e with
    | none => simp [AssembleKey, hr]
    | some e => simp [AssembleKey, hr]
  obtain ⟨h1, h2, h3⟩ := key _ rfl
  refine ⟨?_, ?_, ?_, ?_, ?_⟩
  · rw [h1]; exact stateFence_ok_iff cfg ma
  · intro h; exact h2 (h1 ▸ h)
  · intro h
    have hne : (stateFence cfg ma).1 ≠ none := h1 ▸ h
    rw [h3 hne]
    cases hf : stateFence cfg ma with
    | mk e a =>
      cases e with
      | none => simp [hf] at hne
      | some e =>
        obtain ⟨ha, he⟩ := stateFence_fail cfg ma e a hf
        rcases he with he | ⟨_, hs, ht⟩
        · simp [ha, he]
        · exact absurd ht (hrow hs)
  · intro hs
    rcases hs with hs | hs | hs <;> simp [AssembleKey, stateFence, hs]
  · intro hs ht
    simp [AssembleKey, stateFence, hs, ht]

/-- C10: `AssembleValue()` succeeds exactly when the state is expectValue; it
then moves the state to midValue and changes nothing else, so the entries, the
lookup structure and the value assembler are as the key left them, and after a
successful key `AssignString` the handle it returns is the value assembler wired
to the last entry; in every other state it fails with IllegalState and changes
nothing. -/
theorem assembleValue_spec (ma : Assembler V) :
    ((AssembleValue ma).1 = none ↔ ma.state = maState.maState_expectValue) ∧
    (ma.state = maState.maState_expectValue →
      AssembleValue ma = (none, { ma with state := maState.maState_midValue })) ∧
    (ma.state ≠ maState.maState_expectValue →
      AssembleValue ma = (some Err.IllegalState, ma)) ∧
    (∀ (cfg : Cfg) (ka : Assembler V) (s : String),
      KeyAssembler.AssignString cfg ka s = (none, ma) →
        (AssembleValue ma).1 = none ∧ (AssembleValue ma).2.w = ma.w ∧
        ValueAssembler.wiredTo cfg (AssembleValue ma).2.va (AssembleValue ma).2.w.lastPtr) := by
  refine ⟨?_, ?_, ?_, ?_⟩
  · cases hs : ma.state <;> simp [AssembleValue, hs]
  · intro hs; simp [AssembleValue, hs]
  · intro hs
    cases hs2 : ma.state <;> simp_all [AssembleValue]
  · intro cfg ka s h
    unfold KeyAssembler.AssignString at h
    split at h
    · simp at h
    · unfold addRow at h
      simp only at h
      split at h
      · simp at h
      · split at h
        · simp at h
        · split at h
          · rename_i hn
            simp at h
            subst h
            simp [AssembleValue, ValueAssembler.wiredTo, hn, MapNode.lastPtr]
          · rename_i hn
            simp at h
            subst h
            simp [AssembleValue, ValueAssembler.wiredTo, hn, MapNode.lastPtr]

theorem assembleKey_spec_witness :
    (((AssembleEntry cfgPlain (BeginMap (NewBuilder : Assembler Nat) 0).2 "a").2.state
        = maState.maState_midValue →
      (AssembleEntry cfgPlain (BeginMap (NewBuilder : Assembler Nat) 0).2 "a").2.w.t ≠ [])) ∧
    AssembleKey cfgPlain (AssembleEntry cfgPlain (BeginMap (NewBuilder : Assembler Nat) 0).2 "a").2
      = (some Err.IllegalState,
          (AssembleEntry cfgPlain (BeginMap (NewBuilder : Assembler Nat) 0).2 "a").2) :=
  ⟨by decide,
   (assembleKey_spec cfgPlain
      (AssembleEntry cfgPlain (BeginMap (NewBuilder : Assembler Nat) 0).2 "a").2
      (by decide)).2.2.2.2 (by decide) (by decide)⟩

/-! ## Appending a row -/

/-- What `addRow` does for a key that the allocated lookup structure does not
hold yet. -/
theorem addRow_fresh (cfg : Cfg) (ma : Assembler V) (k : String) (next : maState)
    (l : List (Key × Ptr)) (hm : ma.w.m = some l) (hk : ma.w.find (fromString k) = none) :
    (addRow cfg ma k next).1 = none ∧
    (addRow cfg ma k next).2.state = next ∧
    (addRow cfg ma k next).2.m = ma.m ∧
    (addRow cfg ma k next).2.cm = ma.cm ∧
    (addRow cfg ma k next).2.w.t = ma.w.t ++ [freshRow cfg k] ∧
    (addRow cfg ma k next).2.w.m
      = some (mset l (fromString k) (addRow cfg ma k next).2.w.lastPtr) ∧
    (addRow cfg ma k next).2.w.old
      = (ma.w.append cfg.grow { k := fromString k, v := { m := .Maybe_Absent, v := none } }).old ∧
    ValueAssembler.wiredTo cfg (addRow cfg ma k next).2.va (addRow cfg ma k next).2.w.lastPtr := by
  have hm1 : (ma.w.append cfg.grow
      { k := fromString k, v := { m := .Maybe_Absent, v := none } }).m = some l := by
    rw [MapNode.append_m]; exact hm
  unfold addRow
  simp only [hk, hm1]
  cases hn : cfg.ValueIsNullable
  · simp [freshRow, hn, ValueAssembler.wiredTo, MapNode.lastPtr]
  · simp only [if_true]
    refine ⟨trivial, trivial, trivial, trivial, ?_, ?_, ?_, ?_⟩
    · have := MapNode.store_lastPtr_t
        ({ (ma.w.append cfg.grow { k := fromString k, v := { m := .Maybe_Absent, v := none } }) with
            m := some (mset l (fromString k) (ma.w.append cfg.grow
              { k := fromString k, v := { m := .Maybe_Absent, v := none } }).lastPtr) } : MapNode V)
        (fun s => { s with m := Maybe.allowNull }) ma.w.t
        { k := fromString k, v := { m := .Maybe_Absent, v := none } } (by simp)
      simp only [MapNode.lastPtr] at this ⊢
      rw [this]
      simp [freshRow, hn]
    · simp [MapNode.lastPtr]
    · simp [MapNode.store, MapNode.lastPtr]
    · simp [ValueAssembler.wiredTo, hn, MapNode.lastPtr]

/-- A repeated key makes `addRow` return the error and write nothing. -/
theorem addRow_repeated (cfg : Cfg) (ma : Assembler V) (k : String) (next : maState)
    (hk : ma.w.find (fromString k) ≠ none) :
    addRow cfg ma k next = (some (Err.RepeatedMapKey (fromString k)), ma) := by
  unfold addRow
  cases h : ma.w.find (fromString k) with
  | none => exact absurd h hk
  | some p => simp [h]

/-! ## C9 -/

/-- C9 (amended): in state midKey with the lookup structure allocated (as
`BeginMap` leaves it), for a key string `s` that the lookup structure does not
hold, the key assembler's `AssignString(s)` succeeds, moves
the state to expectValue, appends exactly one row with key `s` at the end of the
ordered sequence (the earlier rows unchanged, the length one more), enters `s`
in the lookup structure with the address of the new row's value storage (every
other key's entry as before), and wires the value assembler to that storage. -/
theorem keyAssignString_fresh_spec (cfg : Cfg) (ka : Assembler V) (s : String)
    (hs : ka.state = maState.maState_midKey) (hm : ka.w.m ≠ none)
    (hk : ka.w.find (fromString s) = none) :
    (KeyAssembler.AssignString cfg ka s).1 = none ∧
    (KeyAssembler.AssignString cfg ka s).2.state = maState.maState_expectValue ∧
    (KeyAssembler.AssignString cfg ka s).2.w.t = ka.w.t ++ [freshRow cfg s] ∧
    (KeyAssembler.AssignString cfg ka s).2.w.t.length = ka.w.t.length + 1 ∧
    (KeyAssembler.AssignString cfg ka s).2.w.find (fromString s)
      = some (KeyAssembler.AssignString cfg ka s).2.w.lastPtr ∧
    (KeyAssembler.AssignString cfg ka s).2.w.lastPtr.idx = ka.w.t.length ∧
    (KeyAssembler.AssignString cfg ka s).2.w.deref
        (KeyAssembler.AssignString cfg ka s).2.w.lastPtr = some (freshRow cfg s : Entry V).v ∧
    (∀ k, k ≠ fromString s →
      (KeyAssembler.AssignString cfg ka s).2.w.find k = ka.w.find k) ∧
    (KeyAssembler.AssignString cfg ka s).2.w.mkeys = ka.w.mkeys ++ [fromString s] ∧
    ValueAssembler.wiredTo cfg (KeyAssembler.AssignString cfg ka s).2.va
      (KeyAssembler.AssignString cfg ka s).2.w.lastPtr := by
  obtain ⟨l, hl⟩ := Option.ne_none_iff_exists'.mp hm
  have hE : KeyAssembler.AssignString cfg ka s = addRow cfg ka s maState.maState_expectValue := by
    simp [KeyAssembler.AssignString, hs]
  obtain ⟨h1, h2, -, -, h5, h6, -, h8⟩ :=
    addRow_fresh cfg ka s maState.maState_expectValue l hl hk
  rw [hE]
  have hkl : mget l (fromString s) = none := by
    simpa [MapNode.find, hl] using hk
  refine ⟨h1, h2, h5, by simp [h5], ?_, ?_, ?_, ?_, ?_, h8⟩
  · simp [MapNode.find, h6, mget_mset_self]
  · simp [MapNode.lastPtr, h5]
  · exact MapNode.deref_lastPtr _ _ (by simp [h5])
  · intro k hne
    simp [MapNode.find, h6, hl, mget_mset_ne _ _ _ _ hne]
  · simp [MapNode.mkeys, h6, hl, mset_keys_of_absent _ _ _ hkl]

theorem keyAssignString_fresh_spec_witness :
    (KeyAssembler.AssignString cfgNullable
        (AssembleKey cfgNullable (BeginMap (NewBuilder : Assembler Nat) 4).2).2 "a").1 = none ∧
    (KeyAssembler.AssignString cfgNullable
        (AssembleKey cfgNullable (BeginMap (NewBuilder : Assembler Nat) 4).2).2 "a").2.w.t
      = [{ k := fromString "a", v := { m := Maybe.allowNull, v := none } }] :=
  have h := keyAssignString_fresh_spec cfgNullable
    (AssembleKey cfgNullable (BeginMap (NewBuilder : Assembler Nat) 4).2).2 "a"
    (by decide) (by decide) (by decide)
  ⟨h.1, h.2.2.1⟩

/-! ## C2 -/

/-- C2, as stated, fails: with nullable values held by pointer, after `("a", 1)`
was assembled and its value completed (state midValue, value finished),
`AssembleEntry("a")` fails with the repeated-key error, yet the ordered sequence
is not what it was: the tidy step has stored the finished payload in the last
row before the key was refused. -/
theorem duplicate_entry_rewrites_last_row :
    afterOneNullablePtr.state = maState.maState_midValue ∧
    afterOneNullablePtr.w.find (fromString "a") ≠ none ∧
    (∃ a, valueFinishTidy cfgNullablePtr afterOneNullablePtr = some (true, a)) ∧
    (AssembleEntry cfgNullablePtr afterOneNullablePtr "a").1
      = some (Err.RepeatedMapKey (fromString "a")) ∧
    ¬ ((AssembleEntry cfgNullablePtr afterOneNullablePtr "a").2.w.t = afterOneNullablePtr.w.t) := by
  refine ⟨by decide, by decide, ⟨_, rfl⟩, by decide, by decide⟩

/-- C2 (amended): for a key `k` already present in the lookup structure, the key
assembler's `AssignString(k)` in midKey and `AssembleEntry(k)` in initial fail
with the repeated-key error and leave the whole assembler as it was;
`AssembleEntry(k)` in midValue with a finished value fails with the same error
and leaves the lookup structure, the keys and the number of rows as they were,
and the rows too, except that for nullable values held by pointer the tidy step
has stored the finished payload in the last row. -/
theorem duplicate_key_rejected (cfg : Cfg) (ma : Assembler V) (k : String)
    (hk : ma.w.find (fromString k) ≠ none) :
    (ma.state = maState.maState_midKey →
      KeyAssembler.AssignString cfg ma k = (some (Err.RepeatedMapKey (fromString k)), ma)) ∧
    (ma.state = maState.maState_initial →
      AssembleEntry cfg ma k = (some (Err.RepeatedMapKey (fromString k)), ma)) ∧
    (∀ ma1, ma.state = maState.maState_midValue →
      valueFinishTidy cfg ma = some (true, ma1) →
        AssembleEntry cfg ma k = (some (Err.RepeatedMapKey (fromString k)), ma1) ∧
        ma1.w.m = ma.w.m ∧ ma1.w.tkeys = ma.w.tkeys ∧ ma1.w.t.length = ma.w.t.length ∧
        (ma1.w = ma.w ∨
          (cfg.ValueIsNullable = true ∧ cfg.ValueMaybeUsesPtr = true ∧
            ma1.w = ma.w.store ma.w.lastPtr (fun s => { s with v := ma.va.w.load ma.w })))) := by
  refine ⟨?_, ?_, ?_⟩
  · intro hs
    simp [KeyAssembler.AssignString, hs, addRow_repeated cfg ma k _ hk]
  · intro hs
    simp [AssembleEntry, stateFence_initial cfg ma hs, addRow_repeated cfg ma k _ hk]
  · intro ma1 hs ht
    obtain ⟨-, h2, h3, h4, -, h6, h7⟩ := valueFinishTidy_true cfg ma ma1 ht
    have hk1 : ma1.w.find (fromString k) ≠ none := by
      simpa [MapNode.find, h2] using hk
    refine ⟨?_, h2, h3, h4, ?_⟩
    · simp [AssembleEntry, stateFence_midValue cfg ma ma1 hs ht,
        addRow_repeated cfg ma1 k _ hk1]
    · cases hn : cfg.ValueIsNullable
      · exact Or.inl (h6 hn).2
      · cases hp : cfg.ValueMaybeUsesPtr
        · exact Or.inl (h7 hp)
        · unfold valueFinishTidy at ht
          split at ht
          · simp at ht
          · simp only [hn, hp, if_true] at ht
            split at ht
            · simp at ht; subst ht; exact Or.inl rfl
            · simp at ht; subst ht; exact Or.inr ⟨rfl, rfl, rfl⟩
            · simp at ht

theorem duplicate_key_rejected_witness :
    AssembleEntry cfgNullablePtr afterOneNullablePtr "a"
      = (some (Err.RepeatedMapKey (fromString "a")),
          { afterOneNullablePtr with
            w := afterOneNullablePtr.w.store afterOneNullablePtr.w.lastPtr
              (fun s => { s with v := some 1 }),
            state := maState.maState_initial }) ∧
    afterOneNullablePtr.w.tkeys = [fromString "a"] :=
  ⟨((duplicate_key_rejected cfgNullablePtr afterOneNullablePtr "a" (by decide)).2.2
      _ (by decide) rfl).1, by decide⟩

/-! ## C3 -/

/-- The trace of C3 on one input: after `("a", 1)` was assembled and completed,
`AssembleKey()` and the key assembler's `AssignString("a")` leave the assembler
in midKey, and the `Finish()` that follows does not succeed. -/
theorem finish_after_repeated_key_fails :
    KeyAssembler.AssignString cfgPlain secondKeyPlain "a"
      = (some (Err.RepeatedMapKey (fromString "a")), secondKeyPlain) ∧
    (Finish cfgPlain (KeyAssembler.AssignString cfgPlain secondKeyPlain "a").2).1
      = some Err.IllegalState ∧
    ¬ ((Finish cfgPlain (KeyAssembler.AssignString cfgPlain secondKeyPlain "a").2).1 = none) := by
  refine ⟨by decide, by decide, by decide⟩

/-- C3: the code does not let the map be completed after a repeated key was
given to the key assembler.  After a new map assembler has assembled and
completed the single entry `(k, v)`, `AssembleKey()` succeeds and the key
assembler's `AssignString(k)` fails with the repeated-key error, as the claim
says, and entries and lookup structure are untouched: the map under assembly
still has `Length() == 1` and `LookupString(k) == v`.  But the error is
returned with the state left in midKey, and the `Finish()` that follows fails
with IllegalState, where the claim has it succeed. -/
theorem repeated_key_after_one_entry (cfg : Cfg) (sizeHint : Int) (via : Bool)
    (k : String) (v : V) :
    (oneEntry cfg sizeHint { key := k, value := some v, viaEntry := via }).1 = none ∧
    (AssembleKey cfg
      (oneEntry cfg sizeHint { key := k, value := some v, viaEntry := via }).2).1 = none ∧
    (AssembleKey cfg
      (oneEntry cfg sizeHint { key := k, value := some v, viaEntry := via }).2).2.state
        = maState.maState_midKey ∧
    KeyAssembler.AssignString cfg (AssembleKey cfg
      (oneEntry cfg sizeHint { key := k, value := some v, viaEntry := via }).2).2 k
      = (some (Err.RepeatedMapKey (fromString k)), (AssembleKey cfg
          (oneEntry cfg sizeHint { key := k, value := some v, viaEntry := via }).2).2) ∧
    Finish cfg (AssembleKey cfg
      (oneEntry cfg sizeHint { key := k, value := some v, viaEntry := via }).2).2
      = (some Err.IllegalState, (AssembleKey cfg
          (oneEntry cfg sizeHint { key := k, value := some v, viaEntry := via }).2).2) ∧
    Length (AssembleKey cfg
      (oneEntry cfg sizeHint { key := k, value := some v, viaEntry := via }).2).2.w = 1 ∧
    LookupString cfg (AssembleKey cfg
      (oneEntry cfg sizeHint { key := k, value := some v, viaEntry := via }).2).2.w k
      = Except.ok (NodeRes.val (some v)) := by
  obtain ⟨b1, b2, g⟩ := cfg
  cases via <;> cases b1 <;> cases b2 <;>
    by_cases hc : (0 : Nat) < (if sizeHint < 0 then (0 : Int) else sizeHint).toNat <;>
    simp [oneEntry, assemblePair, assembleViaKey, assembleViaEntry,
      NewBuilder, Reset, BeginMap, AssembleKey, AssembleEntry, AssembleValue, Finish,
      KeyAssembler.AssignString, stateFence, addRow, valueFinishTidy,
      ValueAssembler.AssignNode, ValueAssembler.AssignValue, ValueAssembler.readM,
      ValueAssembler.writeM, MapNode.find, MapNode.append, MapNode.store, MapNode.deref,
      MapNode.lastPtr, WRef.load, mget, mset, Length, LookupString, hc]

/-- The sibling path of C3 on the same input: after `("a", 1)` was assembled
and completed, `AssembleEntry("a")` refuses the repeated key too, but leaves the
state initial, and the `Finish()` that follows succeeds with a map of
`Length() == 1` and `LookupString("a") == 1`. -/
theorem repeated_entry_then_finish_succeeds :
    (AssembleEntry cfgPlain afterOnePlain "a").1
      = some (Err.RepeatedMapKey (fromString "a")) ∧
    (AssembleEntry cfgPlain afterOnePlain "a").2.state = maState.maState_initial ∧
    (Finish cfgPlain (AssembleEntry cfgPlain afterOnePlain "a").2).1 = none ∧
    (Finish cfgPlain (AssembleEntry cfgPlain afterOnePlain "a").2).2.state
      = maState.maState_finished ∧
    Length (Finish cfgPlain (AssembleEntry cfgPlain afterOnePlain "a").2).2.w = 1 ∧
    LookupString cfgPlain (Finish cfgPlain (AssembleEntry cfgPlain afterOnePlain "a").2).2.w
      "a" = Except.ok (NodeRes.val (some 1)) := by
  refine ⟨by decide, by decide, by decide, by decide, by decide, by rfl⟩

/-! ## C6 -/

/-- C6: the code does not give the round trip.  `AssignNode(M)` of a map `M` of
the assembler's own concrete type into a new builder succeeds and records
`Maybe_Value`, but leaves the state initial, so the `Build()` that follows
fails with IllegalState for every `M`; and for a map of another representation
with at least one entry the replay fails with IllegalState at the first
`AssembleValue()`, the key assembler's `AssignNode` having assembled no key. -/
theorem assignNode_round_trip_fails (cfg : Cfg) (M : MapNode V) :
    AssignNode cfg NewBuilder (Node.own M)
      = (none, { (NewBuilder : Assembler V) with w := M, m := Maybe.Maybe_Value }) ∧
    (AssignNode cfg NewBuilder (Node.own M)).2.state = maState.maState_initial ∧
    Build (AssignNode cfg NewBuilder (Node.own M)).2 = Except.error Err.IllegalState ∧
    (∀ (k : String) (v : Option V) (rest : List (String × Option V)),
      AssignNode cfg NewBuilder (Node.other ReprKind_Map ((k, v) :: rest))
        = (some Err.IllegalState,
            { (NewBuilder : Assembler V) with state := maState.maState_midKey })) := by
  refine ⟨?_, ?_, ?_, ?_⟩
  · simp [AssignNode, NewBuilder, Reset]
  · simp [AssignNode, NewBuilder, Reset]
  · simp [AssignNode, NewBuilder, Reset, Build]
  · intro k v rest
    simp [AssignNode, replay, NewBuilder, Reset, AssembleKey, stateFence,
      KeyAssembler.AssignNode, AssembleValue]

/-! ## C4: the two structures hold the same keys -/

theorem KeysAgree.of_same {n n1 : MapNode V} (h : KeysAgree n)
    (hm : n1.m = n.m) (ht : n1.tkeys = n.tkeys) : KeysAgree n1 := by
  obtain ⟨h1, h2, h3⟩ := h
  refine ⟨by rw [hm]; exact h1, ?_, by rw [ht]; exact h3⟩
  simp only [MapNode.mkeys, hm, ht] at h2 ⊢
  exact h2

theorem stateFence_same (cfg : Cfg) (ma : Assembler V) :
    (stateFence cfg ma).2.w.m = ma.w.m ∧ (stateFence cfg ma).2.w.tkeys = ma.w.tkeys := by
  cases hf : stateFence cfg ma with
  | mk e a =>
    cases e with
    | some e =>
      obtain ⟨ha, -⟩ := stateFence_fail cfg ma e a hf
      simp [ha]
    | none =>
      have hok := (stateFence_ok_iff cfg ma).mp (by simp [hf])
      rcases hok with hs | ⟨hs, ma1, ht⟩
      · rw [stateFence_initial cfg ma hs] at hf
        simp at hf; simp [← hf]
      · rw [stateFence_midValue cfg ma ma1 hs ht] at hf
        simp at hf
        obtain ⟨-, h2, h3, -⟩ := valueFinishTidy_true cfg ma ma1 ht
        simp [← hf, h2, h3]

theorem addRow_keysAgree (cfg : Cfg) (ma : Assembler V) (k : String) (next : maState)
    (h : KeysAgree ma.w) : KeysAgree (addRow cfg ma k next).2.w := by
  cases hk : ma.w.find (fromString k) with
  | some p =>
    rw [addRow_repeated cfg ma k next (by simp [hk])]
    exact h
  | none =>
    obtain ⟨h1, h2, h3⟩ := h
    obtain ⟨l, hl⟩ := Option.ne_none_iff_exists'.mp h1
    obtain ⟨-, -, -, -, h5, h6, -, -⟩ := addRow_fresh cfg ma k next l hl hk
    have hkl : mget l (fromString k) = none := by
      simpa [MapNode.find, hl] using hk
    have hnot : fromString k ∉ ma.w.tkeys := by
      rw [← h2]; exact (MapNode.find_eq_none_iff ma.w _).mp hk
    have hmk : ma.w.mkeys = l.map Prod.fst := by simp [MapNode.mkeys, hl]
    refine ⟨by simp [h6], ?_, ?_⟩
    · simp [MapNode.mkeys, MapNode.tkeys, h6, h5, mset_keys_of_absent _ _ _ hkl, freshRow]
      rw [← hmk, h2]; rfl
    · simp only [MapNode.tkeys, h5, List.map_append, List.map_cons, List.map_nil]
      rw [List.nodup_append]
      refine ⟨h3, by simp, ?_⟩
      intro a ha hb
      simp [freshRow] at hb
      subst hb
      exact hnot ha

theorem valueAssignNode_same (cfg : Cfg) (ma : Assembler V) (v : Option V) :
    (ValueAssembler.AssignNode cfg ma v).2.w.m = ma.w.m ∧
    (ValueAssembler.AssignNode cfg ma v).2.w.tkeys = ma.w.tkeys := by
  cases v with
  | none =>
    simp only [ValueAssembler.AssignNode, ValueAssembler.AssignNull]
    split <;> (try simp)
    unfold ValueAssembler.writeM
    split <;> simp
  | some v =>
    simp only [ValueAssembler.AssignNode, ValueAssembler.AssignValue]
    split <;> (try simp)
    split
    · split
      · unfold ValueAssembler.writeM
        split <;> simp
      · simp
    · unfold ValueAssembler.writeM
      split <;> simp
    · unfold ValueAssembler.writeM
      split <;> simp

/-- Every call keeps the agreement of the two structures. -/
theorem callRun_keysAgree (cfg : Cfg) (ma : Assembler V) (c : Call V)
    (h : KeysAgree ma.w) : KeysAgree (c.run cfg ma).2.w := by
  have hf : KeysAgree (stateFence cfg ma).2.w :=
    h.of_same (stateFence_same cfg ma).1 (stateFence_same cfg ma).2
  cases c with
  | AssembleKey =>
    simp only [Call.run, AssembleKey]
    cases hs : stateFence cfg ma with
    | mk e a =>
      rw [hs] at hf
      cases e <;> simpa using hf
  | KeyAssignString s =>
    simp only [Call.run, KeyAssembler.AssignString]
    split
    · exact h
    · exact addRow_keysAgree cfg ma s _ h
  | AssembleValue =>
    simp only [Call.run, AssembleValue]
    split <;> exact h
  | AssembleEntry s =>
    simp only [Call.run, AssembleEntry]
    cases hs : stateFence cfg ma with
    | mk e a =>
      rw [hs] at hf
      cases e with
      | none => simpa using addRow_keysAgree cfg a s _ (by simpa using hf)
      | some e => simpa using hf
  | Finish =>
    simp only [Call.run, Finish]
    cases hs : stateFence cfg ma with
    | mk e a =>
      rw [hs] at hf
      cases e <;> simpa using hf
  | ValueAssign v =>
    exact h.of_same (valueAssignNode_same cfg ma v).1 (valueAssignNode_same cfg ma v).2

theorem runCalls_keysAgree (cfg : Cfg) (cs : List (Call V)) (ma : Assembler V)
    (h : KeysAgree ma.w) : KeysAgree (runCalls cfg cs ma).w := by
  induction cs generalizing ma with
  | nil => exact h
  | cons c cs ih => exact ih _ (callRun_keysAgree cfg ma c h)

/-- C4: in every state that a new map builder reaches after `BeginMap` through
any sequence of `AssembleKey`, key `AssignString`, `AssembleValue`,
`AssembleEntry` and `Finish` calls (and completions of values), whether the
calls succeed or fail, the keys of the lookup structure `m` are the keys of the
ordered sequence `t`, and no key occurs twice in `t`. -/
theorem storage_keys_agree (cfg : Cfg) (sizeHint : Int) (cs : List (Call V)) :
    (∀ k, k ∈ (runCalls cfg cs (BeginMap (NewBuilder : Assembler V) sizeHint).2).w.mkeys ↔
      k ∈ (runCalls cfg cs (BeginMap (NewBuilder : Assembler V) sizeHint).2).w.tkeys) ∧
    (runCalls cfg cs (BeginMap (NewBuilder : Assembler V) sizeHint).2).w.tkeys.Nodup ∧
    (runCalls cfg cs (BeginMap (NewBuilder : Assembler V) sizeHint).2).w.mkeys
      = (runCalls cfg cs (BeginMap (NewBuilder : Assembler V) sizeHint).2).w.tkeys := by
  have h0 : KeysAgree (BeginMap (NewBuilder : Assembler V) sizeHint).2.w := by
    simp [KeysAgree, BeginMap, NewBuilder, Reset, MapNode.mkeys, MapNode.tkeys]
  obtain ⟨-, h2, h3⟩ := runCalls_keysAgree cfg cs _ h0
  exact ⟨fun k => by rw [h2], h3, h2⟩

/-! ## C1: length and order of an assembled map -/

theorem modify_concat_length {α : Type} (l : List α) (e : α) (f : α → α) :
    (l ++ [e]).modify f l.length = l ++ [f e] := by
  induction l with
  | nil => simp
  | cons a r ih => simp [ih]

/-- Appending a row for a new key, entered in the lookup structure with the
address of the row in the array that `append` returned, keeps the lookup
structure in agreement with the sequence: the pointers taken before a move of
the backing array still lead to what the rows hold. -/
theorem lookupAgrees_addRow (g : Nat → Nat) (n n3 : MapNode V) (l : List (Key × Ptr))
    (e e1 : Entry V) (hn : LookupAgrees n) (hm : n.m = some l) (hk : e1.k ∉ n.tkeys)
    (ht : n3.t = n.t ++ [e1])
    (hm3 : n3.m = some (mset l e1.k ⟨n3.old.length, n.t.length⟩))
    (ho : n3.old = (n.append g e).old) : LookupAgrees n3 := by
  intro i x hx
  rw [ht] at hx
  rcases Nat.lt_trichotomy i n.t.length with hi | hi | hi
  · rw [List.getElem?_append_left hi] at hx
    obtain ⟨p, hf, hidx, hd⟩ := hn i x hx
    have hxk : x.k ≠ e1.k := by
      intro h
      apply hk
      rw [← h]
      exact List.mem_map.mpr ⟨x, List.getElem?_mem hx, rfl⟩
    refine ⟨p, ?_, hidx, ?_⟩
    · simp only [MapNode.find, hm3, hm] at hf ⊢
      rw [mget_mset_ne _ _ _ _ hxk]; exact hf
    · unfold MapNode.deref at hd ⊢
      rw [ho, ht]
      unfold MapNode.append
      by_cases hc : n.t.length < n.cap
      · simp only [hc, if_true]
        by_cases hp : p.arr = n.old.length
        · simp only [hp, if_true] at hd ⊢
          rw [hidx] at hd ⊢
          rw [List.getElem?_append_left hi]; exact hd
        · simp only [hp, if_false] at hd ⊢
          exact hd
      · simp only [hc, if_false, List.length_append, List.length_singleton]
        by_cases hp : p.arr = n.old.length
        · simp only [hp, if_true] at hd
          have hne : ¬ (n.old.length = n.old.length + 1) := by omega
          simp only [hp, hne, if_false]
          simpa [List.getD_eq_getElem?_getD] using hd
        · simp only [hp, if_false] at hd
          have hlt : p.arr < n.old.length := by
            by_contra hge
            have : n.old.getD p.arr [] = [] := by
              rw [List.getD_eq_getElem?_getD, List.getElem?_eq_none (by omega)]; rfl
            rw [this] at hd
            simp at hd
          have hne : ¬ (p.arr = n.old.length + 1) := by omega
          simp only [hne, if_false]
          rw [List.getD_eq_getElem?_getD, List.getElem?_append_left hlt,
            ← List.getD_eq_getElem?_getD]
          exact hd
  · subst hi
    have hxe : x = e1 := by simpa using hx.symm
    subst hxe
    refine ⟨⟨n3.old.length, n.t.length⟩, ?_, rfl, ?_⟩
    · simp [MapNode.find, hm3, mget_mset_self]
    · simp [MapNode.deref, ht]
  · rw [List.getElem?_eq_none (by simp; omega)] at hx
    simp at hx

/-- Completing the value of the row just appended makes the next state fence
succeed, and the tidy it runs leaves the row in its final form. -/
theorem valueAssign_then_fence (cfg : Cfg) (ma : Assembler V) (rows : List (Entry V))
    (p : Pair V) (hs : ma.state = maState.maState_midValue)
    (ht : ma.w.t = rows ++ [freshRow cfg p.key])
    (hw : ValueAssembler.wiredTo cfg ma.va ma.w.lastPtr)
    (hcm : cfg.ValueIsNullable = false → ma.cm = Maybe.Maybe_Absent)
    (hv : p.value = none → cfg.ValueIsNullable = true) :
    ∃ mb md, ValueAssembler.AssignNode cfg ma p.value = (none, mb) ∧
      stateFence cfg mb = (none, md) ∧ md.state = maState.maState_initial ∧
      md.w.t = rows ++ [finalRow cfg p] ∧ md.w.m = ma.w.m ∧ md.m = ma.m ∧
      (cfg.ValueIsNullable = false → md.cm = Maybe.Maybe_Absent) ∧ md.w.old = ma.w.old := by
  obtain ⟨⟨wm, wt, wcap, wold⟩, m, state, cm, ⟨vw, vm⟩⟩ := ma
  obtain ⟨key, value, via⟩ := p
  obtain ⟨b1, b2, g⟩ := cfg
  simp only at hs ht hcm hv
  subst hs ht
  cases b1 <;> cases b2 <;> cases value <;>
    simp [ValueAssembler.wiredTo, MapNode.lastPtr] at hw hcm hv <;>
    obtain ⟨h1, h2⟩ := hw <;> subst h1 h2 <;> (try subst hcm) <;>
    simp [ValueAssembler.AssignNode, ValueAssembler.AssignValue, ValueAssembler.AssignNull,
      ValueAssembler.readM, ValueAssembler.writeM, MapNode.deref, MapNode.store,
      MapNode.lastPtr, stateFence, valueFinishTidy, freshRow, finalRow, WRef.load,
      modify_concat_length]

/-- One more pair, with a key the map does not hold, keeps the map assembled. -/
theorem assemblePair_assembled (cfg : Cfg) (ma : Assembler V) (ps : List (Pair V))
    (p : Pair V) (h : Assembled cfg ma ps)
    (hk : fromString p.key ∉ ps.map (fun q => fromString q.key))
    (hv : p.value = none → cfg.ValueIsNullable = true) :
    ∃ mb, assemblePair cfg ma p = (none, mb) ∧ Assembled cfg mb (ps ++ [p]) := by
  obtain ⟨mc, hf, hs, ht, hm, hmk, hcm, hla⟩ := h
  obtain ⟨l, hl⟩ := Option.ne_none_iff_exists'.mp hm
  have hfind : mc.w.find (fromString p.key) = none := by
    rw [MapNode.find_eq_none_iff, hmk]; exact hk
  have hkl : mget l (fromString p.key) = none := by
    simpa [MapNode.find, hl] using hfind
  have hmkl : l.map Prod.fst = ps.map (fun q => fromString q.key) := by
    simpa [MapNode.mkeys, hl] using hmk
  -- the state in which the value is completed, by either route
  have hroute : ∃ a3 : Assembler V,
      assemblePair cfg ma p = ValueAssembler.AssignNode cfg a3 p.value ∧
      a3.state = maState.maState_midValue ∧
      a3.w.t = ps.map (finalRow cfg) ++ [freshRow cfg p.key] ∧
      a3.w.m = some (mset l (fromString p.key) a3.w.lastPtr) ∧
      ValueAssembler.wiredTo cfg a3.va a3.w.lastPtr ∧ a3.cm = mc.cm ∧
      a3.w.old = (mc.w.append cfg.grow
        { k := fromString p.key, v := { m := .Maybe_Absent, v := none } }).old := by
    cases hvia : p.viaEntry
    · -- AssembleKey, AssignString, AssembleValue
      obtain ⟨h1, h2, -, h4, h5, h6, h7, h8⟩ :=
        addRow_fresh cfg { mc with state := maState.maState_midKey } p.key
          maState.maState_expectValue l hl hfind
      refine ⟨{ (addRow cfg { mc with state := maState.maState_midKey } p.key
          maState.maState_expectValue).2 with state := maState.maState_midValue },
        ?_, rfl, by simpa [ht] using h5, by simpa [MapNode.lastPtr] using h6,
        by simpa [MapNode.lastPtr] using h8, h4, h7⟩
      have hA : AssembleKey cfg ma = (none, { mc with state := maState.maState_midKey }) := by
        simp [AssembleKey, hf]
      have hB : KeyAssembler.AssignString cfg { mc with state := maState.maState_midKey } p.key
          = (none, (addRow cfg { mc with state := maState.maState_midKey } p.key
              maState.maState_expectValue).2) := by
        simp only [KeyAssembler.AssignString, ne_eq, not_true_eq_false, if_false]
        exact Prod.ext h1 rfl
      have hC : AssembleValue (addRow cfg { mc with state := maState.maState_midKey } p.key
            maState.maState_expectValue).2
          = (none, { (addRow cfg { mc with state := maState.maState_midKey } p.key
              maState.maState_expectValue).2 with state := maState.maState_midValue }) := by
        simp [AssembleValue, h2]
      simp [assemblePair, hvia, assembleViaKey, hA, hB, hC]
    · -- AssembleEntry
      obtain ⟨h1, h2, -, h4, h5, h6, h7, h8⟩ :=
        addRow_fresh cfg mc p.key maState.maState_midValue l hl hfind
      refine ⟨(addRow cfg mc p.key maState.maState_midValue).2, ?_, h2,
        by simpa [ht] using h5, h6, h8, h4, h7⟩
      have hA : AssembleEntry cfg ma p.key
          = (none, (addRow cfg mc p.key maState.maState_midValue).2) := by
        simp only [AssembleEntry, hf, Step.andThen_none]
        exact Prod.ext h1 rfl
      simp [assemblePair, hvia, assembleViaEntry, hA]
  obtain ⟨a3, hr, h3s, h3t, h3m, h3w, h3c, h3o⟩ := hroute
  obtain ⟨mb, md, hb, hd, hds, hdt, hdm, -, hdc, hdo⟩ :=
    valueAssign_then_fence cfg a3 (ps.map (finalRow cfg)) p h3s h3t h3w
      (fun hn => by rw [h3c]; exact hcm hn) hv
  refine ⟨mb, by rw [hr, hb], md, hd, hds, by simp [hdt], by simp [hdm, h3m], ?_, hdc, ?_⟩
  · simp [MapNode.mkeys, hdm, h3m, mset_keys_of_absent _ _ _ hkl, hmkl]
  · have hnot : (finalRow cfg p).k ∉ mc.w.tkeys := by
      have : mc.w.tkeys = ps.map (fun q => fromString q.key) := by
        simp [MapNode.tkeys, ht, finalRow]
      rw [this]; exact hk
    refine lookupAgrees_addRow cfg.grow mc.w md.w l _ (finalRow cfg p) hla hl hnot
      (by rw [hdt, ht]) ?_ (by rw [hdo, h3o])
    rw [hdm, h3m]
    simp [MapNode.lastPtr, h3t, hdo, finalRow, ht]

/-- Pairs with distinct keys, none of them in the map yet, all get assembled. -/
theorem assembleAll_assembled (cfg : Cfg) (qs : List (Pair V)) :
    ∀ (ps : List (Pair V)) (ma : Assembler V), Assembled cfg ma ps →
      ((ps ++ qs).map (fun q => q.key)).Nodup →
      (∀ q ∈ qs, q.value = none → cfg.ValueIsNullable = true) →
      ∃ mb, assembleAll cfg qs ma = (none, mb) ∧ Assembled cfg mb (ps ++ qs) := by
  induction qs with
  | nil =>
    intro ps ma h _ _
    exact ⟨ma, rfl, by simpa using h⟩
  | cons q qs ih =>
    intro ps ma h hnd hv
    have hk : fromString q.key ∉ ps.map (fun r => fromString r.key) := by
      intro hmem
      rw [List.mem_map] at hmem
      obtain ⟨r, hr, he⟩ := hmem
      have he2 : r.key = q.key := by simpa [fromString] using he
      rw [List.map_append, List.nodup_append] at hnd
      exact hnd.2.2 (List.mem_map.mpr ⟨r, hr, he2⟩) (by simp)
    obtain ⟨mb, hb, hB⟩ := assemblePair_assembled cfg ma ps q h hk (hv q (by simp))
    have hnd2 : (((ps ++ [q]) ++ qs).map (fun r => r.key)).Nodup := by simpa using hnd
    obtain ⟨mc, hc, hC⟩ := ih (ps ++ [q]) mb hB hnd2 (fun r hr => hv r (by simp [hr]))
    exact ⟨mc, by simp [assembleAll, hb, hc], by simpa using hC⟩

/-- A whole map built from pairs with distinct keys: every call succeeds, and
the assembler that `Finish` marks finished is settled on the pairs. -/
theorem buildMap_settled (cfg : Cfg) (sizeHint : Int) (ps : List (Pair V))
    (hnd : (ps.map (fun p => p.key)).Nodup)
    (hv : ∀ p ∈ ps, p.value = none → cfg.ValueIsNullable = true) :
    ∃ mc, buildMap cfg sizeHint ps
        = (none, { mc with state := maState.maState_finished, m := Maybe.Maybe_Value }) ∧
      Settled cfg mc ps := by
  have h0 : Assembled cfg (BeginMap (NewBuilder : Assembler V) sizeHint).2 [] := by
    refine ⟨(BeginMap (NewBuilder : Assembler V) sizeHint).2, ?_, ?_⟩
    · simp [stateFence, BeginMap, NewBuilder, Reset]
    · simp [Settled, BeginMap, NewBuilder, Reset, MapNode.mkeys, LookupAgrees]
  have hB : BeginMap (NewBuilder : Assembler V) sizeHint
      = (none, (BeginMap (NewBuilder : Assembler V) sizeHint).2) := by
    simp [BeginMap, NewBuilder, Reset]
  obtain ⟨mb, hb, mc, hf, hS⟩ :=
    assembleAll_assembled cfg ps [] _ h0 (by simpa using hnd) hv
  refine ⟨mc, ?_, by simpa using hS⟩
  unfold buildMap
  rw [hB]
  simp [hb, Finish, hf]

/-- In a map settled on pairs, the lookup of an assembled key returns the node
of its pair, and the lookup of any other key fails with NotExists. -/
theorem lookup_of_settled (cfg : Cfg) (n : MapNode V) (ps : List (Pair V))
    (ht : n.t = ps.map (finalRow cfg))
    (hmk : n.mkeys = ps.map (fun p => fromString p.key)) (hla : LookupAgrees n)
    (hv : ∀ p ∈ ps, p.value = none → cfg.ValueIsNullable = true) :
    (∀ p ∈ ps, LookupString cfg n p.key = Except.ok p.asNode) ∧
    (∀ key, key ∉ ps.map (fun p => p.key) →
      LookupString cfg n key = Except.error (Err.NotExists key)) := by
  refine ⟨?_, ?_⟩
  · intro p hp
    obtain ⟨i, hi⟩ := List.mem_iff_getElem?.mp hp
    have hrow : n.t[i]? = some (finalRow cfg p) := by
      rw [ht, List.getElem?_map, hi]; rfl
    obtain ⟨q, hf, -, hd⟩ := hla i _ hrow
    have hf2 : n.find (fromString p.key) = some q := by simpa [finalRow] using hf
    have hval := hv p hp
    obtain ⟨key, value, via⟩ := p
    simp only [LookupString, hf2, hd]
    cases hn : cfg.ValueIsNullable <;> cases value <;>
      simp_all [finalRow, Pair.asNode]
  · intro key hk
    have : n.find (fromString key) = none := by
      rw [MapNode.find_eq_none_iff, hmk]
      intro hmem
      obtain ⟨r, hr, he⟩ := List.mem_map.mp hmem
      have he2 : r.key = key := by simpa [fromString] using he
      exact hk (List.mem_map.mpr ⟨r, hr, he2⟩)
    simp [LookupString, this]

/-- Draining an iterator with enough fuel yields the rows from the cursor on. -/
theorem drain_eq (cfg : Cfg) (fuel : Nat) :
    ∀ itr : MapItr V, itr.n.t.length - itr.idx ≤ fuel →
      MapItr.drain cfg fuel itr = (itr.n.t.drop itr.idx).map (Entry.asNext cfg) := by
  induction fuel with
  | zero =>
    intro itr h
    have : itr.n.t.length ≤ itr.idx := by omega
    simp [MapItr.drain, List.drop_of_length_le this]
  | succ f ih =>
    intro itr h
    by_cases hd : itr.n.t.length ≤ itr.idx
    · simp [MapItr.drain, MapItr.Done, hd, List.drop_of_length_le hd]
    · have hlt : itr.idx < itr.n.t.length := by omega
      have hx : itr.n.t[itr.idx]? = some itr.n.t[itr.idx] := List.getElem?_eq_getElem hlt
      have hdrop : itr.n.t.drop itr.idx = itr.n.t[itr.idx] :: itr.n.t.drop (itr.idx + 1) :=
        List.drop_eq_getElem_cons hlt
      have hrec := ih { itr with idx := itr.idx + 1 } (by simp; omega)
      simp only [MapItr.drain, MapItr.Done, ge_iff_le, hd, decide_False, Bool.false_eq_true,
        if_false, MapItr.Next, hx, hdrop, List.map_cons]
      rw [hrec]
      simp [Entry.asNext]

theorem finalRow_asNext (cfg : Cfg) (p : Pair V)
    (hv : p.value = none → cfg.ValueIsNullable = true) :
    (finalRow cfg p).asNext cfg = p.asNext := by
  obtain ⟨key, value, via⟩ := p
  cases hn : cfg.ValueIsNullable <;> cases value <;>
    simp_all [finalRow, Entry.asNext, Pair.asNext]

/-- C1: for every list of pairs with pairwise distinct key strings, assembled in
order into a new map after `BeginMap` (each key through `AssembleKey` and the
key assembler's `AssignString`, or through `AssembleEntry`; each value
completed, with null only where values are nullable) and then finished, every
call succeeds, `Build()` returns a map whose `Length()` is the number of pairs,
and the iterator yields exactly that many entries, without error, whose keys
are the assembled keys in the order of assembly (and whose values are the
assembled values). -/
theorem assembled_map_length_and_order (cfg : Cfg) (sizeHint : Int) (ps : List (Pair V))
    (hnd : (ps.map (fun p => p.key)).Nodup)
    (hv : ∀ p ∈ ps, p.value = none → cfg.ValueIsNullable = true) :
    (buildMap cfg sizeHint ps).1 = none ∧
    ∃ n, Build (buildMap cfg sizeHint ps).2 = Except.ok n ∧
      Length n = ps.length ∧
      (MapItr.drain cfg (Length n) (MapIterator n)).length = ps.length ∧
      (MapItr.drain cfg (Length n) (MapIterator n)).map (fun r => r.1)
        = ps.map (fun p => some (fromString p.key)) ∧
      MapItr.drain cfg (Length n) (MapIterator n) = ps.map Pair.asNext ∧
      MapItr.Done { n := n, idx := ps.length } = true := by
  obtain ⟨mc, hrun, -, ht, -⟩ := buildMap_settled cfg sizeHint ps hnd hv
  have hrows : ps.map (finalRow cfg) = mc.w.t := by simpa using ht.symm
  have hdrain : MapItr.drain cfg (Length mc.w) (MapIterator mc.w) = ps.map Pair.asNext := by
    rw [drain_eq cfg _ _ (by simp [Length, MapIterator])]
    simp only [MapIterator, List.drop_zero, ← hrows, List.map_map]
    apply List.map_congr_left
    intro p hp
    exact finalRow_asNext cfg p (hv p hp)
  refine ⟨by rw [hrun], mc.w, by rw [hrun]; simp [Build], ?_, ?_, ?_, hdrain, ?_⟩
  · simp [Length, ← hrows]
  · simp [hdrain]
  · simp [hdrain, Pair.asNext]
  · simp [MapItr.Done, ← hrows]

theorem assembled_map_length_and_order_witness :
    (buildMap cfgPlain 1
      [{ key := "a", value := some 1, viaEntry := false },
       { key := "b", value := some 2, viaEntry := true }]).1 = none ∧
    ∃ n : MapNode Nat, Build (buildMap cfgPlain 1
      [{ key := "a", value := some 1, viaEntry := false },
       { key := "b", value := some 2, viaEntry := true }]).2 = Except.ok n ∧
      Length n = 2 ∧
      (MapItr.drain cfgPlain (Length n) (MapIterator n)).map (fun r => r.1)
        = [some (fromString "a"), some (fromString "b")] :=
  have h := assembled_map_length_and_order cfgPlain 1
    [{ key := "a", value := some (1 : Nat), viaEntry := false },
     { key := "b", value := some 2, viaEntry := true }] (by decide) (by decide)
  ⟨h.1, h.2.choose, h.2.choose_spec.1, h.2.choose_spec.2.1, h.2.choose_spec.2.2.2.1⟩

/-! ## C5 -/

/-- C5: `LookupString(key)` fails with NotExists exactly when the resolved key
is absent from the lookup structure; when it is present in a nullable-valued
map the call returns the Null sentinel with no error if the state of the entry's
wrapper is Null and the unwrapped value otherwise (for non-nullable values, the
value); and in every map assembled from pairs with distinct keys and then
finished, a key for which null was assembled is answered with the Null sentinel
(and a key with a value with that value), while a key that was not assembled is
answered with NotExists. -/
theorem lookupString_spec (cfg : Cfg) (n : MapNode V) (key : String) :
    (LookupString cfg n key = Except.error (Err.NotExists key) ↔
      n.find (fromString key) = none) ∧
    (∀ p v, n.find (fromString key) = some p → n.deref p = some v →
      (cfg.ValueIsNullable = true → v.m = Maybe.Maybe_Null →
        LookupString cfg n key = Except.ok NodeRes.Null) ∧
      (cfg.ValueIsNullable = true → v.m ≠ Maybe.Maybe_Null →
        LookupString cfg n key = Except.ok (NodeRes.val v.v)) ∧
      (cfg.ValueIsNullable = false →
        LookupString cfg n key = Except.ok (NodeRes.val v.v))) ∧
    (∀ (sizeHint : Int) (ps : List (Pair V)),
      (ps.map (fun p => p.key)).Nodup →
      (∀ p ∈ ps, p.value = none → cfg.ValueIsNullable = true) →
      ∃ m : MapNode V, Build (buildMap cfg sizeHint ps).2 = Except.ok m ∧
        (∀ p ∈ ps, p.value = none →
          LookupString cfg m p.key = Except.ok NodeRes.Null) ∧
        (∀ p ∈ ps, LookupString cfg m p.key = Except.ok p.asNode) ∧
        (∀ other, other ∉ ps.map (fun p => p.key) →
          LookupString cfg m other = Except.error (Err.NotExists other))) := by
  refine ⟨?_, ?_, ?_⟩
  · cases hf : n.find (fromString key) with
    | none => simp [LookupString, hf]
    | some p =>
      cases hd : n.deref p with
      | none => simp [LookupString, hf, hd]
      | some v =>
        simp only [LookupString, hf, hd]
        split <;> (try split) <;> simp
  · intro p v hf hd
    unfold LookupString
    simp only [hf, hd]
    refine ⟨?_, ?_, ?_⟩
    · intro hn hv; simp [hn, hv]
    · intro hn hv; simp [hn, hv]
    · intro hn; simp [hn]
  · intro sizeHint ps hnd hv
    obtain ⟨mc, hrun, -, ht, -, hmk, -, hla⟩ := buildMap_settled cfg sizeHint ps hnd hv
    obtain ⟨h1, h2⟩ := lookup_of_settled cfg mc.w ps ht hmk hla hv
    refine ⟨mc.w, by rw [hrun]; simp [Build], ?_, h1, h2⟩
    intro p hp hnone
    rw [h1 p hp]
    simp [Pair.asNode, hnone]

theorem lookupString_spec_witness :
    ∃ m : MapNode Nat, Build (buildMap cfgNullablePtr 0
        [{ key := "a", value := some 1, viaEntry := true },
         { key := "k", value := none, viaEntry := false }]).2 = Except.ok m ∧
      LookupString cfgNullablePtr m "k" = Except.ok NodeRes.Null ∧
      LookupString cfgNullablePtr m "a" = Except.ok (NodeRes.val (some 1)) ∧
      LookupString cfgNullablePtr m "c" = Except.error (Err.NotExists "c") :=
  have h := (lookupString_spec cfgNullablePtr (Reset : Assembler Nat).w "k").2.2 0
    [{ key := "a", value := some 1, viaEntry := true },
     { key := "k", value := none, viaEntry := false }] (by decide) (by decide)
  ⟨h.choose, h.choose_spec.1,
    h.choose_spec.2.1 { key := "k", value := none, viaEntry := false } (by simp) rfl,
    h.choose_spec.2.2.1 { key := "a", value := some 1, viaEntry := true } (by simp),
    h.choose_spec.2.2.2 "c" (by decide)⟩

/-! ## C11, C12: Finish and the tidy step -/

/-- What a successful tidy has written to the map: nothing, or, for nullable
values held by pointer, the finished payload in the last row. -/
theorem valueFinishTidy_true_w (cfg : Cfg) (ma ma1 : Assembler V)
    (ht : valueFinishTidy cfg ma = some (true, ma1)) :
    ma1.w = ma.w ∨
      (cfg.ValueIsNullable = true ∧ cfg.ValueMaybeUsesPtr = true ∧
        ma1.w = ma.w.store ma.w.lastPtr (fun s => { s with v := ma.va.w.load ma.w })) := by
  obtain ⟨-, -, -, -, -, h6, h7⟩ := valueFinishTidy_true cfg ma ma1 ht
  cases hn : cfg.ValueIsNullable
  · exact Or.inl (h6 hn).2
  · cases hp : cfg.ValueMaybeUsesPtr
    · exact Or.inl (h7 hp)
    · unfold valueFinishTidy at ht
      split at ht
      · simp at ht
      · simp only [hn, hp, if_true] at ht
        split at ht
        · simp at ht; subst ht; exact Or.inl rfl
        · simp at ht; subst ht; exact Or.inr ⟨rfl, rfl, rfl⟩
        · simp at ht

/-- In the state finished the fence stops every call. -/
theorem stateFence_finished (cfg : Cfg) (ma : Assembler V)
    (h : ma.state = maState.maState_finished) : stateFence cfg ma = (some Err.IllegalState, ma) := by
  simp [stateFence, h]

/-- The tidy helper in terms of the completion signal. -/
theorem valueFinishTidy_of_signal (cfg : Cfg) (ma : Assembler V) :
    (cfg.ValueIsNullable = true →
      (tidySignal cfg ma = some Maybe.Maybe_Value ∨ tidySignal cfg ma = some Maybe.Maybe_Null) →
      ∃ ma1, valueFinishTidy cfg ma = some (true, ma1)) ∧
    (cfg.ValueIsNullable = false → tidySignal cfg ma = some Maybe.Maybe_Value →
      ∃ ma1, valueFinishTidy cfg ma = some (true, ma1)) ∧
    (ma.w.t ≠ [] → tidySignal cfg ma ≠ some Maybe.Maybe_Value →
      (cfg.ValueIsNullable = true → tidySignal cfg ma ≠ some Maybe.Maybe_Null) →
      valueFinishTidy cfg ma = some (false, ma)) := by
  unfold tidySignal valueFinishTidy
  cases hl : ma.w.t.getLast? with
  | none =>
    have : ma.w.t = [] := by simpa using hl
    simp [this]
  | some tz =>
    cases hn : cfg.ValueIsNullable
    · simp only [Option.map_some', Bool.false_eq_true, if_false]
      refine ⟨by simp, ?_, ?_⟩
      · intro _ h
        simp only [Option.some.injEq] at h
        simp [h]
      · intro _ h _
        cases hc : ma.cm <;> simp_all
    · simp only [Option.map_some', if_true]
      refine ⟨?_, by simp, ?_⟩
      · intro _ h
        rcases h with h | h
        · simp only [Option.some.injEq] at h
          cases hp : cfg.ValueMaybeUsesPtr <;> simp [h]
        · simp only [Option.some.injEq] at h
          simp [h]
      · intro _ h1 h2
        cases hm : tz.v.m <;> simp_all

/-- C11, as stated, fails: with nullable values held by pointer, `Finish()`
called in midValue on a finished value succeeds, but the entries are not what
they were, the tidy step having stored the finished payload in the last row. -/
theorem finish_rewrites_last_row :
    afterOneNullablePtr.state = maState.maState_midValue ∧
    (Finish cfgNullablePtr afterOneNullablePtr).1 = none ∧
    (Finish cfgNullablePtr afterOneNullablePtr).2.state = maState.maState_finished ∧
    ¬ ((Finish cfgNullablePtr afterOneNullablePtr).2.w.t = afterOneNullablePtr.w.t) := by
  refine ⟨by decide, by decide, by decide, by decide⟩

/-- C11 (amended): `Finish()` succeeds exactly from initial, or from midValue
when the tidy of the pending value succeeds; on success the state is finished
and the assembler's own maybe is Value, the lookup structure, the keys and the
number of rows are as they were, and so are the rows, except that for nullable
values held by pointer the tidy step has stored the finished payload in the
last row; every other call of `Finish()` fails with IllegalState and changes
nothing; and once the state is finished, `AssembleKey`, `AssembleValue`,
`AssembleEntry`, `Finish` and the key assembler's `AssignString` all fail with
IllegalState and leave the assembler as it was. -/
theorem finish_spec (cfg : Cfg) (ma : Assembler V)
    (hrow : ma.state = maState.maState_midValue → ma.w.t ≠ []) :
    ((Finish cfg ma).1 = none ↔
      (ma.state = maState.maState_initial ∨
        (ma.state = maState.maState_midValue ∧
          ∃ ma1, valueFinishTidy cfg ma = some (true, ma1)))) ∧
    ((Finish cfg ma).1 = none →
      (Finish cfg ma).2.state = maState.maState_finished ∧
      (Finish cfg ma).2.m = Maybe.Maybe_Value ∧
      (Finish cfg ma).2.w.m = ma.w.m ∧
      (Finish cfg ma).2.w.tkeys = ma.w.tkeys ∧
      (Finish cfg ma).2.w.t.length = ma.w.t.length ∧
      ((Finish cfg ma).2.w = ma.w ∨
        (cfg.ValueIsNullable = true ∧ cfg.ValueMaybeUsesPtr = true ∧
          ma.state = maState.maState_midValue ∧
          (Finish cfg ma).2.w
            = ma.w.store ma.w.lastPtr (fun s => { s with v := ma.va.w.load ma.w })))) ∧
    ((Finish cfg ma).1 ≠ none → Finish cfg ma = (some Err.IllegalState, ma)) ∧
    (ma.state = maState.maState_finished →
      AssembleKey cfg ma = (some Err.IllegalState, ma) ∧
      AssembleValue ma = (some Err.IllegalState, ma) ∧
      (∀ k, AssembleEntry cfg ma k = (some Err.IllegalState, ma)) ∧
      Finish cfg ma = (some Err.IllegalState, ma) ∧
      (∀ k, KeyAssembler.AssignString cfg ma k = (some Err.IllegalState, ma))) := by
  refine ⟨?_, ?_, ?_, ?_⟩
  · have : (Finish cfg ma).1 = (stateFence cfg ma).1 := by
      unfold Finish
      cases hf : stateFence cfg ma with
      | mk e a => cases e <;> simp
    rw [this]; exact stateFence_ok_iff cfg ma
  · intro h
    have hf1 : (stateFence cfg ma).1 = none := by
      unfold Finish at h
      cases hf : stateFence cfg ma with
      | mk e a =>
        cases e with
        | none => rfl
        | some e => simp [hf] at h
    rcases (stateFence_ok_iff cfg ma).mp hf1 with hs | ⟨hs, ma1, ht⟩
    · simp [Finish, stateFence_initial cfg ma hs]
    · obtain ⟨-, h2, h3, h4, -, -, -⟩ := valueFinishTidy_true cfg ma ma1 ht
      have hw := valueFinishTidy_true_w cfg ma ma1 ht
      simp only [Finish, stateFence_midValue cfg ma ma1 hs ht, Step.andThen_none]
      refine ⟨trivial, trivial, h2, h3, h4, ?_⟩
      rcases hw with hw | ⟨hn, hp, hw⟩
      · exact Or.inl hw
      · exact Or.inr ⟨hn, hp, hs, hw⟩
  · intro h
    cases hf : stateFence cfg ma with
    | mk e a =>
      cases e with
      | none => simp [Finish, hf] at h
      | some e =>
        obtain ⟨ha, he⟩ := stateFence_fail cfg ma e a hf
        rcases he with he | ⟨_, hs, ht⟩
        · simp [Finish, hf, ha, he]
        · exact absurd ht (hrow hs)
  · intro hs
    have hf := stateFence_finished cfg ma hs
    refine ⟨by simp [AssembleKey, hf], by simp [AssembleValue, hs], ?_, by simp [Finish, hf], ?_⟩
    · intro k; simp [AssembleEntry, hf]
    · intro k; simp [KeyAssembler.AssignString, hs]

theorem finish_spec_witness :
    (Finish cfgNullablePtr afterOneNullablePtr).1 = none ∧
    (Finish cfgNullablePtr afterOneNullablePtr).2.state = maState.maState_finished ∧
    (Finish cfgNullablePtr afterOneNullablePtr).2.m = Maybe.Maybe_Value ∧
    (Finish cfgNullablePtr afterOneNullablePtr).2.w.tkeys = afterOneNullablePtr.w.tkeys :=
  have h := finish_spec cfgNullablePtr afterOneNullablePtr (by decide)
  have h1 : (Finish cfgNullablePtr afterOneNullablePtr).1 = none :=
    h.1.mpr (Or.inr ⟨by decide, _, rfl⟩)
  ⟨h1, (h.2.1 h1).1, (h.2.1 h1).2.1, (h.2.1 h1).2.2.2.1⟩

/-- The tidy helper by the signal it reads, for any assembler in midValue with
at least one row: for nullable values a last wrapper in state Value or Null, and
for non-nullable values a child maybe holding Value, make `valueFinishTidy`
succeed and return the state to initial; any other signal makes it fail and
write nothing, so the state stays midValue, and the `AssembleKey`,
`AssembleEntry` or `Finish` that was attempted fails with IllegalState. -/
theorem tidy_by_signal (cfg : Cfg) (ma : Assembler V)
    (hs : ma.state = maState.maState_midValue) (hrow : ma.w.t ≠ []) :
    (cfg.ValueIsNullable = true →
      (tidySignal cfg ma = some Maybe.Maybe_Value ∨ tidySignal cfg ma = some Maybe.Maybe_Null) →
      ∃ ma1, valueFinishTidy cfg ma = some (true, ma1) ∧
        ma1.state = maState.maState_initial) ∧
    (cfg.ValueIsNullable = false → tidySignal cfg ma = some Maybe.Maybe_Value →
      ∃ ma1, valueFinishTidy cfg ma = some (true, ma1) ∧
        ma1.state = maState.maState_initial) ∧
    (tidySignal cfg ma ≠ some Maybe.Maybe_Value →
      (cfg.ValueIsNullable = true → tidySignal cfg ma ≠ some Maybe.Maybe_Null) →
      valueFinishTidy cfg ma = some (false, ma) ∧
      AssembleKey cfg ma = (some Err.IllegalState, ma) ∧
      (∀ k, AssembleEntry cfg ma k = (some Err.IllegalState, ma)) ∧
      Finish cfg ma = (some Err.IllegalState, ma)) := by
  obtain ⟨h1, h2, h3⟩ := valueFinishTidy_of_signal cfg ma
  refine ⟨?_, ?_, ?_⟩
  · intro hn hsig
    obtain ⟨ma1, ht⟩ := h1 hn hsig
    exact ⟨ma1, ht, (valueFinishTidy_true cfg ma ma1 ht).1⟩
  · intro hn hsig
    obtain ⟨ma1, ht⟩ := h2 hn hsig
    exact ⟨ma1, ht, (valueFinishTidy_true cfg ma ma1 ht).1⟩
  · intro hv hnull
    have ht := h3 hrow hv hnull
    have hf : stateFence cfg ma = (some Err.IllegalState, ma) := by
      simp [stateFence, hs, ht]
    refine ⟨ht, by simp [AssembleKey, hf], ?_, by simp [Finish, hf]⟩
    intro k; simp [AssembleEntry, hf]

/-! ## C13: AssembleEntry and the three calls it stands for -/

/-- The row is appended the same way whatever the state before and after:
`addRow` reads the state nowhere and writes it last. -/
theorem addRow_state_irrelevant (cfg : Cfg) (mc : Assembler V) (k : String)
    (s0 next1 next2 : maState) :
    (addRow cfg { mc with state := s0 } k next1).1 = (addRow cfg mc k next2).1 ∧
    ((addRow cfg mc k next2).1 = none →
      { (addRow cfg { mc with state := s0 } k next1).2 with state := next2 }
        = (addRow cfg mc k next2).2 ∧
      (addRow cfg { mc with state := s0 } k next1).2.state = next1) ∧
    (addRow cfg { mc with state := s0 } k next1).2.w = (addRow cfg mc k next2).2.w ∧
    (addRow cfg { mc with state := s0 } k next1).2.m = (addRow cfg mc k next2).2.m ∧
    (addRow cfg { mc with state := s0 } k next1).2.cm = (addRow cfg mc k next2).2.cm := by
  unfold addRow
  simp only
  cases hf : mc.w.find (fromString k) with
  | some p => simp
  | none =>
    simp only
    cases hm : (mc.w.append cfg.grow
        { k := fromString k, v := { m := Maybe.Maybe_Absent, v := none } }).m with
    | none => simp
    | some l =>
      simp only
      cases hn : cfg.ValueIsNullable <;> simp

/-- C13: `AssembleEntry(k)` is the composition of `AssembleKey()`, the key
assembler's `AssignString(k)` and `AssembleValue()`: in every assembler state
and for every key string the two have the same outcome (both succeed, or both
fail with the same error: the IllegalState of the fence when the tidy fails,
the repeated-key error when the key is present), they leave the same map, own
maybe and child maybe, and when they succeed they leave the same assembler
altogether, in state midValue. -/
theorem assembleEntry_is_three_steps (cfg : Cfg) (ma : Assembler V) (k : String) :
    (AssembleEntry cfg ma k).1 = (assembleKeyStringValue cfg ma k).1 ∧
    ((AssembleEntry cfg ma k).1 = none ↔ (assembleKeyStringValue cfg ma k).1 = none) ∧
    ((AssembleEntry cfg ma k).1 = none →
      (AssembleEntry cfg ma k).2 = (assembleKeyStringValue cfg ma k).2 ∧
      (AssembleEntry cfg ma k).2.state = maState.maState_midValue) ∧
    (AssembleEntry cfg ma k).2.w = (assembleKeyStringValue cfg ma k).2.w ∧
    (AssembleEntry cfg ma k).2.m = (assembleKeyStringValue cfg ma k).2.m ∧
    (AssembleEntry cfg ma k).2.cm = (assembleKeyStringValue cfg ma k).2.cm ∧
    (ma.w.find (fromString k) ≠ none → (stateFence cfg ma).1 = none →
      (AssembleEntry cfg ma k).1 = some (Err.RepeatedMapKey (fromString k)) ∧
      (assembleKeyStringValue cfg ma k).1 = some (Err.RepeatedMapKey (fromString k))) := by
  have main : (AssembleEntry cfg ma k).1 = (assembleKeyStringValue cfg ma k).1 ∧
      ((AssembleEntry cfg ma k).1 = none →
        (AssembleEntry cfg ma k).2 = (assembleKeyStringValue cfg ma k).2 ∧
        (AssembleEntry cfg ma k).2.state = maState.maState_midValue) ∧
      (AssembleEntry cfg ma k).2.w = (assembleKeyStringValue cfg ma k).2.w ∧
      (AssembleEntry cfg ma k).2.m = (assembleKeyStringValue cfg ma k).2.m ∧
      (AssembleEntry cfg ma k).2.cm = (assembleKeyStringValue cfg ma k).2.cm := by
    unfold AssembleEntry assembleKeyStringValue AssembleKey
    cases hf : stateFence cfg ma with
    | mk e mc =>
      cases e with
      | some e => simp
      | none =>
        simp only [Step.andThen_none]
        have hK : KeyAssembler.AssignString cfg { mc with state := maState.maState_midKey } k
            = addRow cfg { mc with state := maState.maState_midKey } k
                maState.maState_expectValue := by
          simp [KeyAssembler.AssignString]
        rw [hK]
        obtain ⟨h1, h2, h3, h4, h5⟩ := addRow_state_irrelevant cfg mc k
          maState.maState_midKey maState.maState_expectValue maState.maState_midValue
        cases hr : addRow cfg { mc with state := maState.maState_midKey } k
            maState.maState_expectValue with
        | mk e2 a2 =>
          rw [hr] at h1 h2 h3 h4 h5
          simp only at h1 h2 h3 h4 h5
          cases e2 with
          | some e2 =>
            simp only [Step.andThen_some]
            refine ⟨h1.symm, ?_, h3.symm, h4.symm, h5.symm⟩
            intro h; rw [← h1] at h; simp at h
          | none =>
            obtain ⟨h2a, h2b⟩ := h2 h1.symm
            simp only [Step.andThen_none, AssembleValue, h2b]
            refine ⟨h1.symm, ?_, ?_, ?_, ?_⟩
            · intro _
              refine ⟨h2a.symm, ?_⟩
              rw [← h2a]
            · rw [← h3]
            · rw [← h4]
            · rw [← h5]
  refine ⟨main.1, by rw [main.1], main.2.1, main.2.2.1, main.2.2.2.1, main.2.2.2.2, ?_⟩
  intro hk h
  have hE : (AssembleEntry cfg ma k).1 = some (Err.RepeatedMapKey (fromString k)) := by
    unfold AssembleEntry
    cases hf : stateFence cfg ma with
    | mk e mc =>
      cases e with
      | some e => simp [hf] at h
      | none =>
        have hm : mc.w.m = ma.w.m := by simpa [hf] using (stateFence_same cfg ma).1
        have hk1 : mc.w.find (fromString k) ≠ none := by
          simpa [MapNode.find, hm] using hk
        simp [addRow_repeated cfg mc k _ hk1]
  exact ⟨hE, by rw [← main.1]; exact hE⟩

/-! ## C14, C15, C20 -/

/-- C14: the key assembler is valid in midKey only: in every other state
(initial, expectValue, midValue, finished) its `AssignString(s)` fails with
IllegalState for every string and leaves the state, the entries and the lookup
structure, indeed the whole assembler, as they were. -/
theorem keyAssignString_outside_midKey (cfg : Cfg) (ka : Assembler V) (s : String)
    (hs : ka.state ≠ maState.maState_midKey) :
    KeyAssembler.AssignString cfg ka s = (some Err.IllegalState, ka) ∧
    (KeyAssembler.AssignString cfg ka s).2.state = ka.state ∧
    (KeyAssembler.AssignString cfg ka s).2.w.t = ka.w.t ∧
    (KeyAssembler.AssignString cfg ka s).2.w.m = ka.w.m := by
  have h : KeyAssembler.AssignString cfg ka s = (some Err.IllegalState, ka) := by
    simp [KeyAssembler.AssignString, hs]
  simp [h]

theorem keyAssignString_outside_midKey_witness :
    KeyAssembler.AssignString cfgPlain afterOneNullablePtr "b"
      = (some Err.IllegalState, afterOneNullablePtr) :=
  (keyAssignString_outside_midKey cfgPlain afterOneNullablePtr "b" (by decide)).1

/-- C15, as stated, fails: a null node is not of kind Map, and on a map
assembler that has begun its map and not finished it `AssignNode` of it fails
with IllegalState, not with the wrong-kind error. -/
theorem assignNode_null_after_begin :
    (Node.Null : Node Nat).ReprKind ≠ ReprKind_Map ∧
    (BeginMap (NewBuilder : Assembler Nat) 0).2.state ≠ maState.maState_finished ∧
    (BeginMap (NewBuilder : Assembler Nat) 0).2.m = Maybe.midvalue ∧
    AssignNode cfgPlain (BeginMap (NewBuilder : Assembler Nat) 0).2 Node.Null
      = (some Err.IllegalState, (BeginMap (NewBuilder : Assembler Nat) 0).2) ∧
    ¬ ((AssignNode cfgPlain (BeginMap (NewBuilder : Assembler Nat) 0).2 Node.Null).1
      = some Err.WrongKind) := by
  refine ⟨by decide, by decide, by decide, by decide, by decide⟩

/-- C15 (amended): for every node whose kind is not Map and every map assembler,
`AssignNode` assembles nothing: it leaves the map and the state as they were.
If the node is not null the call fails with the wrong-kind error and changes
nothing at all.  A null node is handed to `AssignNull`, which fails with the
wrong-kind error on an assembler whose maybe is absent, fails with IllegalState
on one that has begun or finished, and accepts the null where the parent allowed
it. -/
theorem assignNode_wrong_kind (cfg : Cfg) (na : Assembler V) (n : Node V)
    (hk : n.ReprKind ≠ ReprKind_Map) :
    (AssignNode cfg na n).2.w = na.w ∧
    (AssignNode cfg na n).2.state = na.state ∧
    (n.IsNull = false → AssignNode cfg na n = (some Err.WrongKind, na)) ∧
    (n.IsNull = true →
      AssignNode cfg na n = AssignNull na ∧
      (na.m = Maybe.Maybe_Absent → AssignNode cfg na n = (some Err.WrongKind, na)) ∧
      (na.m = Maybe.midvalue ∨ na.m = Maybe.Maybe_Value ∨ na.m = Maybe.Maybe_Null →
        AssignNode cfg na n = (some Err.IllegalState, na)) ∧
      (na.m = Maybe.allowNull →
        AssignNode cfg na n = (none, { na with m := Maybe.Maybe_Null }))) := by
  cases n with
  | Null =>
    refine ⟨?_, ?_, by simp [Node.IsNull], ?_⟩
    · simp only [AssignNode, AssignNull]; split <;> rfl
    · simp only [AssignNode, AssignNull]; split <;> rfl
    · intro _
      refine ⟨rfl, ?_, ?_, ?_⟩
      · intro h; simp [AssignNode, AssignNull, h]
      · intro h
        rcases h with h | h | h <;> simp [AssignNode, AssignNull, h]
      · intro h; simp [AssignNode, AssignNull, h]
  | own m => exact absurd rfl hk
  | other kind entries =>
    have hk2 : kind ≠ ReprKind_Map := hk
    simp [AssignNode, hk2, Node.IsNull]

theorem assignNode_wrong_kind_witness :
    AssignNode cfgPlain (BeginMap (NewBuilder : Assembler Nat) 0).2
        (Node.other ReprKind_String [])
      = (some Err.WrongKind, (BeginMap (NewBuilder : Assembler Nat) 0).2) :=
  (assignNode_wrong_kind cfgPlain (BeginMap (NewBuilder : Assembler Nat) 0).2
    (Node.other ReprKind_String []) (by decide)).2.2.1 rfl

/-- C20: the map builder's `Build()` succeeds exactly when the state of the
assembler is finished, and then returns the assembled map; in every other state
it fails with IllegalState: so on a builder fresh from `NewBuilder()` or
`Reset()`, on a map that was begun and not finished, and in midKey, expectValue
and midValue. -/
theorem build_spec (nb : Assembler V) :
    ((∃ n, Build nb = Except.ok n) ↔ nb.state = maState.maState_finished) ∧
    (nb.state = maState.maState_finished → Build nb = Except.ok nb.w) ∧
    (nb.state ≠ maState.maState_finished → Build nb = Except.error Err.IllegalState) ∧
    Build (NewBuilder : Assembler V) = Except.error Err.IllegalState ∧
    Build (Reset : Assembler V) = Except.error Err.IllegalState ∧
    (∀ sizeHint : Int,
      (BeginMap (NewBuilder : Assembler V) sizeHint).1 = none ∧
      Build (BeginMap (NewBuilder : Assembler V) sizeHint).2
        = Except.error Err.IllegalState) ∧
    (∀ (cfg : Cfg) (sizeHint : Int) (ps : List (Pair V)),
      (ps.map (fun p => p.key)).Nodup →
      (∀ p ∈ ps, p.value = none → cfg.ValueIsNullable = true) →
      Build (buildMap cfg sizeHint ps).2 = Except.ok (buildMap cfg sizeHint ps).2.w ∧
      Build (BeginMap (NewBuilder : Assembler V) sizeHint).2
        = Except.error Err.IllegalState ∧
      Build
        ((BeginMap (NewBuilder : Assembler V) sizeHint).andThen
          fun a => assembleAll cfg ps a).2 = Except.error Err.IllegalState) := by
  have hfresh : ∀ sizeHint : Int,
      (BeginMap (NewBuilder : Assembler V) sizeHint).1 = none ∧
      Build (BeginMap (NewBuilder : Assembler V) sizeHint).2
        = Except.error Err.IllegalState := by
    intro sizeHint
    simp [BeginMap, NewBuilder, Reset, Build]
  refine ⟨?_, ?_, ?_, by simp [Build, NewBuilder, Reset], by simp [Build, Reset], hfresh, ?_⟩
  · by_cases h : nb.state = maState.maState_finished <;> simp [Build, h]
  · intro h; simp [Build, h]
  · intro h; simp [Build, h]
  · intro cfg sizeHint ps hnd hv
    obtain ⟨mc, hrun, -⟩ := buildMap_settled cfg sizeHint ps hnd hv
    refine ⟨by rw [hrun]; simp [Build], (hfresh sizeHint).2, ?_⟩
    have h0 : Assembled cfg (BeginMap (NewBuilder : Assembler V) sizeHint).2 [] := by
      refine ⟨(BeginMap (NewBuilder : Assembler V) sizeHint).2, ?_, ?_⟩
      · simp [stateFence, BeginMap, NewBuilder, Reset]
      · simp [Settled, BeginMap, NewBuilder, Reset, MapNode.mkeys, LookupAgrees]
    have hB : BeginMap (NewBuilder : Assembler V) sizeHint
        = (none, (BeginMap (NewBuilder : Assembler V) sizeHint).2) := by
      simp [BeginMap, NewBuilder, Reset]
    obtain ⟨mb, hb, md, hf, hS⟩ :=
      assembleAll_assembled cfg ps [] _ h0 (by simpa using hnd) hv
    rw [hB]
    simp only [Step.andThen_none, hb]
    -- the fence passes on `mb`, whose state therefore is initial or midValue
    have hst := (stateFence_ok_iff cfg mb).mp (by simp [hf])
    rcases hst with h | ⟨h, -⟩ <;> simp [Build, h]

end GenMap

/-! # The dynamic builder: C16, C17, C18, C19 -/

namespace Impls

open GenMap

variable {MB LB L X : Type}

/-- C16: the dynamic builder is sealed by its first shaping call: on a builder
whose recorded kind is not Invalid, each of `BeginMap`, `BeginList`,
`AssignNull`, `AssignBool`, `AssignInt`, `AssignFloat`, `AssignString`,
`AssignBytes`, `AssignLink` and `AssignNode` fails with IllegalState, whatever
its argument, and leaves the recorded kind, the stored payload and the rest of
the builder as they were. -/
theorem anyBuilder_sealed (P : Plain MB LB L X) (nb : anyBuilder MB LB L X)
    (h : nb.kind ≠ ReprKind_Invalid) (c : Shaping L X) :
    c.run P nb = (some Err.IllegalState, nb) ∧
    (c.run P nb).2.kind = nb.kind ∧
    (c.run P nb).2.scalarNode = nb.scalarNode := by
  have hr : c.run P nb = (some Err.IllegalState, nb) := by
    cases c <;>
      simp [Shaping.run, anyBuilder.BeginMap, anyBuilder.BeginList, anyBuilder.AssignNull,
        anyBuilder.AssignBool, anyBuilder.AssignInt, anyBuilder.AssignFloat,
        anyBuilder.AssignString, anyBuilder.AssignBytes, anyBuilder.AssignLink,
        anyBuilder.AssignNode, h]
  simp [hr]

theorem anyBuilder_sealed_witness :
    Shaping.run plainUnit (anyBuilder.AssignBool (Style__Any.NewBuilder plainUnit) true).2
        (Shaping.AssignInt 3)
      = (some Err.IllegalState,
          (anyBuilder.AssignBool (Style__Any.NewBuilder plainUnit) true).2) :=
  (anyBuilder_sealed plainUnit (anyBuilder.AssignBool (Style__Any.NewBuilder plainUnit) true).2
    (by decide) (Shaping.AssignInt 3)).1

/-- C17: `Build()` on a dynamic builder on which no shaping call has completed
(one fresh from `NewBuilder()`, one just `Reset`, any builder whose recorded
kind is Invalid) fails with IllegalState and returns no node. -/
theorem anyBuilder_build_unshaped (P : Plain MB LB L X) (nb : anyBuilder MB LB L X) :
    anyBuilder.Build P (Style__Any.NewBuilder P) = Except.error Err.IllegalState ∧
    anyBuilder.Build P (anyBuilder.Reset P nb) = Except.error Err.IllegalState ∧
    (nb.kind = ReprKind_Invalid → anyBuilder.Build P nb = Except.error Err.IllegalState) := by
  refine ⟨?_, ?_, ?_⟩
  · simp [anyBuilder.Build, Style__Any.NewBuilder, anyBuilder.zero]
  · simp [anyBuilder.Build, anyBuilder.Reset, anyBuilder.zero]
  · intro h; simp [anyBuilder.Build, h]

/-- C18: on a fresh dynamic builder, each scalar assignment succeeds and the
`Build()` after it returns exactly the scalar node of that kind holding the
value; after `AssignNull()` it returns the Null node; after `AssignNode(n)` it
returns `n` itself, and the kind recorded is the tag 99, which no other shaping
call records and which is not Invalid. -/
theorem anyBuilder_build_after_assign (P : Plain MB LB L X) :
    (∀ v, (anyBuilder.AssignBool (Style__Any.NewBuilder P) v).1 = none ∧
      anyBuilder.Build P (anyBuilder.AssignBool (Style__Any.NewBuilder P) v).2
        = Except.ok (some (Node.Bool v))) ∧
    (∀ v, (anyBuilder.AssignInt (Style__Any.NewBuilder P) v).1 = none ∧
      anyBuilder.Build P (anyBuilder.AssignInt (Style__Any.NewBuilder P) v).2
        = Except.ok (some (Node.Int v))) ∧
    (∀ v, (anyBuilder.AssignFloat (Style__Any.NewBuilder P) v).1 = none ∧
      anyBuilder.Build P (anyBuilder.AssignFloat (Style__Any.NewBuilder P) v).2
        = Except.ok (some (Node.Float v))) ∧
    (∀ v, (anyBuilder.AssignString (Style__Any.NewBuilder P) v).1 = none ∧
      anyBuilder.Build P (anyBuilder.AssignString (Style__Any.NewBuilder P) v).2
        = Except.ok (some (Node.String v))) ∧
    (∀ v, (anyBuilder.AssignBytes (Style__Any.NewBuilder P) v).1 = none ∧
      anyBuilder.Build P (anyBuilder.AssignBytes (Style__Any.NewBuilder P) v).2
        = Except.ok (some (Node.Bytes v))) ∧
    (∀ v, (anyBuilder.AssignLink (Style__Any.NewBuilder P) v).1 = none ∧
      anyBuilder.Build P (anyBuilder.AssignLink (Style__Any.NewBuilder P) v).2
        = Except.ok (some (Node.Link v))) ∧
    ((anyBuilder.AssignNull (Style__Any.NewBuilder P)).1 = none ∧
      anyBuilder.Build P (anyBuilder.AssignNull (Style__Any.NewBuilder P)).2
        = Except.ok (some Node.Null)) ∧
    (∀ n, (anyBuilder.AssignNode (Style__Any.NewBuilder P) n).1 = none ∧
      anyBuilder.Build P (anyBuilder.AssignNode (Style__Any.NewBuilder P) n).2 = Except.ok n ∧
      (anyBuilder.AssignNode (Style__Any.NewBuilder P) n).2.kind = 99) ∧
    (99 : ReprKind) ≠ ReprKind_Invalid ∧
    (∀ c : Shaping L X, (∀ n, c ≠ Shaping.AssignNode n) →
      (c.run P (Style__Any.NewBuilder P)).2.kind ≠ 99) := by
  refine ⟨?_, ?_, ?_, ?_, ?_, ?_, ?_, ?_, by decide, ?_⟩
  · intro v
    simp [anyBuilder.AssignBool, anyBuilder.Build, Style__Any.NewBuilder, anyBuilder.zero,
      ReprKind_Invalid, ReprKind_Map, ReprKind_List, ReprKind_Null, ReprKind_Bool]
  · intro v
    simp [anyBuilder.AssignInt, anyBuilder.Build, Style__Any.NewBuilder, anyBuilder.zero,
      ReprKind_Invalid, ReprKind_Map, ReprKind_List, ReprKind_Null, ReprKind_Bool,
      ReprKind_Int]
  · intro v
    simp [anyBuilder.AssignFloat, anyBuilder.Build, Style__Any.NewBuilder, anyBuilder.zero,
      ReprKind_Invalid, ReprKind_Map, ReprKind_List, ReprKind_Null, ReprKind_Bool,
      ReprKind_Int, ReprKind_Float]
  · intro v
    simp [anyBuilder.AssignString, anyBuilder.Build, Style__Any.NewBuilder, anyBuilder.zero,
      ReprKind_Invalid, ReprKind_Map, ReprKind_List, ReprKind_Null, ReprKind_Bool,
      ReprKind_Int, ReprKind_Float, ReprKind_String]
  · intro v
    simp [anyBuilder.AssignBytes, anyBuilder.Build, Style__Any.NewBuilder, anyBuilder.zero,
      ReprKind_Invalid, ReprKind_Map, ReprKind_List, ReprKind_Null, ReprKind_Bool,
      ReprKind_Int, ReprKind_Float, ReprKind_String, ReprKind_Bytes]
  · intro v
    simp [anyBuilder.AssignLink, anyBuilder.Build, Style__Any.NewBuilder, anyBuilder.zero,
      ReprKind_Invalid, ReprKind_Map, ReprKind_List, ReprKind_Null, ReprKind_Bool,
      ReprKind_Int, ReprKind_Float, ReprKind_String, ReprKind_Bytes, ReprKind_Link]
  · simp [anyBuilder.AssignNull, anyBuilder.Build, Style__Any.NewBuilder, anyBuilder.zero,
      ReprKind_Invalid, ReprKind_Map, ReprKind_List, ReprKind_Null]
  · intro n
    simp [anyBuilder.AssignNode, anyBuilder.Build, Style__Any.NewBuilder, anyBuilder.zero,
      ReprKind_Invalid, ReprKind_Map, ReprKind_List, ReprKind_Null, ReprKind_Bool,
      ReprKind_Int, ReprKind_Float, ReprKind_String, ReprKind_Bytes, ReprKind_Link]
  · intro c hc
    cases c with
    | AssignNode n => exact absurd rfl (hc n)
    | _ =>
      simp [Shaping.run, anyBuilder.BeginMap, anyBuilder.BeginList, anyBuilder.AssignNull,
        anyBuilder.AssignBool, anyBuilder.AssignInt, anyBuilder.AssignFloat,
        anyBuilder.AssignString, anyBuilder.AssignBytes, anyBuilder.AssignLink,
        Style__Any.NewBuilder, anyBuilder.zero,
        ReprKind_Invalid, ReprKind_Map, ReprKind_List, ReprKind_Null, ReprKind_Bool,
        ReprKind_Int, ReprKind_Float, ReprKind_String, ReprKind_Bytes, ReprKind_Link]

/-- C19: `Reset()` leaves a dynamic builder in any state equal to a builder
fresh from `NewBuilder()`: the recorded kind is Invalid and there is no payload,
`Build()` fails, and every shaping call does exactly what it does on a new
instance: the assignments succeed, and `BeginMap` and `BeginList` have the
outcome that the map and the list builder give them on their zero values. -/
theorem anyBuilder_reset_fresh (P : Plain MB LB L X) (nb : anyBuilder MB LB L X) :
    anyBuilder.Reset P nb = Style__Any.NewBuilder P ∧
    (anyBuilder.Reset P nb).kind = ReprKind_Invalid ∧
    (anyBuilder.Reset P nb).scalarNode = none ∧
    anyBuilder.Build P (anyBuilder.Reset P nb) = Except.error Err.IllegalState ∧
    (∀ c : Shaping L X,
      c.run P (anyBuilder.Reset P nb) = c.run P (Style__Any.NewBuilder P)) ∧
    (∀ c : Shaping L X, (∀ h, c ≠ Shaping.BeginMap h) → (∀ h, c ≠ Shaping.BeginList h) →
      (c.run P (anyBuilder.Reset P nb)).1 = none) ∧
    (∀ h, (anyBuilder.BeginMap P (anyBuilder.Reset P nb) h).1 = (P.mapBeginMap P.mapZero h).1) ∧
    (∀ h, (anyBuilder.BeginList P (anyBuilder.Reset P nb) h).1
      = (P.listBeginList P.listZero h).1) := by
  refine ⟨rfl, rfl, rfl, ?_, fun c => rfl, ?_, ?_, ?_⟩
  · simp [anyBuilder.Build, anyBuilder.Reset, anyBuilder.zero]
  · intro c h1 h2
    cases c with
    | BeginMap h => exact absurd rfl (h1 h)
    | BeginList h => exact absurd rfl (h2 h)
    | _ =>
      simp [Shaping.run, anyBuilder.AssignNull, anyBuilder.AssignBool, anyBuilder.AssignInt,
        anyBuilder.AssignFloat, anyBuilder.AssignString, anyBuilder.AssignBytes,
        anyBuilder.AssignLink, anyBuilder.AssignNode, anyBuilder.Reset, anyBuilder.zero]
  · intro h
    simp [anyBuilder.BeginMap, anyBuilder.Reset, anyBuilder.zero]
  · intro h
    simp [anyBuilder.BeginList, anyBuilder.Reset, anyBuilder.zero]

end Impls

/-! # The read path by key node: C21 -/

namespace GenMap

variable {V : Type}

/-- C21: the code does not return an error for a key node of another type.  For
every map and every key node that is not of the declared key type, `Lookup`
ends in the panic "todo invalid key type error": nothing is returned to the
caller, no string is made from the node and the lookup structure is not
consulted.  For a key node of the declared type it returns what `LookupString`
returns for the key's string. -/
theorem lookup_key_node (cfg : Cfg) (n : MapNode V) :
    Lookup cfg n KeyNode.other = Ended.panicked "todo invalid key type error" ∧
    (∀ r, Lookup cfg n KeyNode.other ≠ Ended.returned r) ∧
    (∀ k : Key, Lookup cfg n (KeyNode.typed k) = Ended.returned (LookupString cfg n k.x)) := by
  refine ⟨rfl, ?_, ?_⟩
  · intro r h
    simp [Lookup] at h
  · intro k
    have hk : fromString k.x = k := rfl
    simp only [Lookup, LookupString, hk]
    cases n.find k with
    | none => rfl
    | some p =>
      simp only
      cases n.deref p with
      | none => rfl
      | some v =>
        simp only
        split <;> (try split) <;> rfl

end GenMap

/-! # The selector parser and path segments: C23, C24, C28 -/

namespace Selector

open GenMap

variable {P E S : Type}

/-- The switch answers a key string that is none of the eight keys with the
error that names it. -/
theorem dispatch_unknown (M : Members E S) (pc : ParseContext) (kstr : String) (v : SNode)
    (h : kstr ∉ M.keys) : dispatch M pc kstr v = Except.error (ParseError.unknownMember kstr) := by
  simp only [Members.keys, List.mem_cons, List.mem_singleton, not_or, List.mem_nil_iff,
    or_false] at h
  obtain ⟨h1, h2, h3, h4, h5, h6, h7, h8⟩ := h
  simp [dispatch, h1, h2, h3, h4, h5, h6, h7, h8]

/-- The switch hands a key string that is one of the eight keys to the parser
listed at the place of that key. -/
theorem dispatch_known (M : Members E S) (pc : ParseContext) (kstr : String) (v : SNode)
    (h : kstr ∈ M.keys) :
    ∃ (i : Nat) (f : ParseContext → SNode → Except (ParseError E) S),
      M.keys[i]? = some kstr ∧ M.parsers[i]? = some f ∧ dispatch M pc kstr v = f pc v := by
  unfold dispatch
  by_cases h1 : kstr = M.exploreFieldsKey
  · exact ⟨0, M.ParseExploreFields, by simp [Members.keys, h1], by simp [Members.parsers],
      by rw [if_pos h1]⟩
  by_cases h2 : kstr = M.exploreAllKey
  · exact ⟨1, M.ParseExploreAll, by simp [Members.keys, h2], by simp [Members.parsers],
      by rw [if_neg h1, if_pos h2]⟩
  by_cases h3 : kstr = M.exploreIndexKey
  · exact ⟨2, M.ParseExploreIndex, by simp [Members.keys, h3], by simp [Members.parsers],
      by rw [if_neg h1, if_neg h2, if_pos h3]⟩
  by_cases h4 : kstr = M.exploreRangeKey
  · exact ⟨3, M.ParseExploreRange, by simp [Members.keys, h4], by simp [Members.parsers],
      by rw [if_neg h1, if_neg h2, if_neg h3, if_pos h4]⟩
  by_cases h5 : kstr = M.exploreUnionKey
  · exact ⟨4, M.ParseExploreUnion, by simp [Members.keys, h5], by simp [Members.parsers],
      by rw [if_neg h1, if_neg h2, if_neg h3, if_neg h4, if_pos h5]⟩
  by_cases h6 : kstr = M.exploreRecursiveKey
  · exact ⟨5, M.ParseExploreRecursive, by simp [Members.keys, h6], by simp [Members.parsers],
      by rw [if_neg h1, if_neg h2, if_neg h3, if_neg h4, if_neg h5, if_pos h6]⟩
  by_cases h7 : kstr = M.exploreRecursiveEdgeKey
  · exact ⟨6, M.ParseExploreRecursiveEdge, by simp [Members.keys, h7], by simp [Members.parsers],
      by rw [if_neg h1, if_neg h2, if_neg h3, if_neg h4, if_neg h5, if_neg h6, if_pos h7]⟩
  by_cases h8 : kstr = M.matcherKey
  · exact ⟨7, M.ParseMatcher, by simp [Members.keys, h8], by simp [Members.parsers],
      by rw [if_neg h1, if_neg h2, if_neg h3, if_neg h4, if_neg h5, if_neg h6, if_neg h7, if_pos h8]⟩
  exfalso
  simp only [Members.keys, List.mem_cons, List.mem_singleton, List.mem_nil_iff, or_false] at h
  rcases h with h | h | h | h | h | h | h | h <;> contradiction

/-- C23: `ParseSelector` returns an error and no selector for every node that
is not of kind Map, for every map whose length is not 1, and for every map with
one entry whose key string is none of the eight keys of the selector union; a
key that is no string is read as the empty string and refused likewise (the
empty string being none of the eight keys); the value of the entry is handed to
a member's parser only when the key is one of the eight, and then to the parser
of that member, with the context unchanged. -/
theorem parseSelector_spec (M : Members E S) (pc : ParseContext) (n : SNode) :
    (n.ReprKind ≠ ReprKind_Map →
      pc.ParseSelector M n = Except.error ParseError.notMap) ∧
    (n.ReprKind = ReprKind_Map → n.Length ≠ 1 →
      pc.ParseSelector M n = Except.error ParseError.notSingleEntry) ∧
    (∀ kn v, n = SNode.map [(kn, v)] → kn.AsString.1 ∉ M.keys →
      pc.ParseSelector M n = Except.error (ParseError.unknownMember kn.AsString.1)) ∧
    (∀ kn v, n = SNode.map [(kn, v)] → (∀ str, kn ≠ SNode.string str) → "" ∉ M.keys →
      pc.ParseSelector M n = Except.error (ParseError.unknownMember "")) ∧
    (∀ kn v, n = SNode.map [(kn, v)] → kn.AsString.1 ∈ M.keys →
      ∃ (i : Nat) (f : ParseContext → SNode → Except (ParseError E) S),
        M.keys[i]? = some kn.AsString.1 ∧ M.parsers[i]? = some f ∧
        pc.ParseSelector M n = f pc v) ∧
    ParseSelector M n
      = ParseContext.ParseSelector M { parentStack := { arr := 0, len := 0, cap := 0 } } n := by
  have hsingle : ∀ kn v, n = SNode.map [(kn, v)] →
      pc.ParseSelector M n = dispatch M pc kn.AsString.1 v := by
    intro kn v hn
    subst hn
    simp [ParseContext.ParseSelector, SNode.ReprKind, SNode.Length, SNode.firstEntry]
  refine ⟨?_, ?_, ?_, ?_, ?_, rfl⟩
  · intro h
    simp [ParseContext.ParseSelector, h]
  · intro h1 h2
    simp [ParseContext.ParseSelector, h1, h2]
  · intro kn v hn hk
    rw [hsingle kn v hn]
    exact dispatch_unknown M pc _ v hk
  · intro kn v hn hstr hk
    rw [hsingle kn v hn]
    have : kn.AsString.1 = "" := by
      cases kn <;> simp [SNode.AsString]
      rename_i str
      exact absurd rfl (hstr str)
    rw [this]
    exact dispatch_unknown M pc _ v hk
  · intro kn v hn hk
    rw [hsingle kn v hn]
    exact dispatch_known M pc _ v hk

theorem parseSelector_spec_witness :
    ParseSelector membersSample (SNode.map [(SNode.int 3, SNode.null)])
      = Except.error (ParseError.unknownMember "") ∧
    ParseSelector membersSample (SNode.map [(SNode.string "x", SNode.null)])
      = Except.error (ParseError.unknownMember "x") ∧
    ParseSelector membersSample (SNode.list []) = Except.error ParseError.notMap :=
  ⟨(parseSelector_spec membersSample { parentStack := { arr := 0, len := 0, cap := 0 } }
      (SNode.map [(SNode.int 3, SNode.null)])).2.2.2.1 _ _ rfl (by simp) (by decide),
   (parseSelector_spec membersSample { parentStack := { arr := 0, len := 0, cap := 0 } }
      (SNode.map [(SNode.string "x", SNode.null)])).2.2.1 _ _ rfl (by decide),
   (parseSelector_spec membersSample { parentStack := { arr := 0, len := 0, cap := 0 } }
      (SNode.list [])).1 (by decide)⟩

/-! ## C24: PushParent -/

theorem take_succ_set {α : Type} : ∀ (l : List α) (n : Nat) (x : α), n < l.length →
    (l.set n x).take (n + 1) = l.take n ++ [x]
  | [], n, x, h => by simp at h
  | a :: r, 0, x, _ => by simp
  | a :: r, n + 1, x, h => by
    have := take_succ_set r n x (by simpa using h)
    simp [this]

theorem getD_modify_ne {α : Type} (l : List (List α)) (f : List α → List α) (i j : Nat)
    (h : i ≠ j) : (l.modify f i).getD j [] = l.getD j [] := by
  simp [List.getD_eq_getElem?_getD, List.getElem?_modify_ne _ _ h]

theorem getD_modify_self {α : Type} (l : List (List α)) (f : List α → List α) (i : Nat)
    (h : i < l.length) : (l.modify f i).getD i [] = f (l.getD i []) := by
  simp [List.getD_eq_getElem?_getD, List.getElem?_eq_getElem h]

/-- Appending within the capacity writes into the slice's own array only, past
the elements the slice already has. -/
theorem appendAll_in_place (grow : Nat → Nat) (xs : List (Option P)) :
    ∀ (m : Mem P) (s : SliceRef), s.arr < m.arrays.length →
      s.len + xs.length ≤ s.cap → s.cap ≤ (m.arrays.getD s.arr []).length →
      (Mem.appendAll grow m s xs).2 = { s with len := s.len + xs.length } ∧
      (Mem.appendAll grow m s xs).1.arrays.length = m.arrays.length ∧
      (∀ a, a ≠ s.arr →
        (Mem.appendAll grow m s xs).1.arrays.getD a [] = m.arrays.getD a []) ∧
      (Mem.appendAll grow m s xs).1.view (Mem.appendAll grow m s xs).2 = m.view s ++ xs := by
  induction xs with
  | nil =>
    intro m s _ _ _
    simp [Mem.appendAll]
  | cons x xs ih =>
    intro m s harr hlen hcap
    have hlt : s.len < s.cap := by simp at hlen; omega
    have hone : Mem.appendOne grow m s x
        = ({ arrays := m.arrays.modify (fun a => a.set s.len x) s.arr },
            { s with len := s.len + 1 }) := by
      simp [Mem.appendOne, hlt]
    have hself : (m.arrays.modify (fun a => a.set s.len x) s.arr).getD s.arr []
        = (m.arrays.getD s.arr []).set s.len x := getD_modify_self _ _ _ harr
    obtain ⟨h1, h2, h3, h4⟩ := ih
      { arrays := m.arrays.modify (fun a => a.set s.len x) s.arr } { s with len := s.len + 1 }
      (by simpa using harr) (by simp at hlen ⊢; omega) (by simp only [hself]; simpa using hcap)
    simp only [Mem.appendAll, hone]
    refine ⟨?_, ?_, ?_, ?_⟩
    · rw [h1]; simp; omega
    · rw [h2]; simp
    · intro a ha
      rw [h3 a ha]
      exact getD_modify_ne _ _ _ _ (Ne.symm ha)
    · rw [h4]
      have hv : Mem.view { arrays := m.arrays.modify (fun a => a.set s.len x) s.arr }
          { s with len := s.len + 1 } = m.view s ++ [x] := by
        simp only [Mem.view, hself]
        exact take_succ_set _ _ _ (by omega)
      rw [hv]; simp

/-- C24: for every parse context `pc` whose slice header the memory bears out
and every parent `p`, `pc.PushParent(p)` returns a context whose parent stack is
`p` followed by the parents of `pc` in unchanged order (one longer, `p` on top),
on an array of its own, and the parent stack of `pc` itself reads after the call
as it did before. -/
theorem pushParent_spec (grow : Nat → Nat) (m : Mem P) (pc : ParseContext) (parent : Option P)
    (hv : m.valid pc.parentStack) :
    (pc.PushParent grow m parent).1.view (pc.PushParent grow m parent).2.parentStack
      = parent :: m.view pc.parentStack ∧
    ((pc.PushParent grow m parent).1.view (pc.PushParent grow m parent).2.parentStack).length
      = (m.view pc.parentStack).length + 1 ∧
    (pc.PushParent grow m parent).1.view pc.parentStack = m.view pc.parentStack ∧
    (pc.PushParent grow m parent).2.parentStack.arr = m.arrays.length ∧
    (∀ a, a < m.arrays.length →
      (pc.PushParent grow m parent).1.arrays.getD a [] = m.arrays.getD a []) := by
  obtain ⟨hle, hval⟩ := hv
  -- the slice and the memory that `make` returns
  have hmk : m.make (pc.parentStack.len + 1)
      = ({ arrays := m.arrays ++ [List.replicate (pc.parentStack.len + 1) none] },
          { arr := m.arrays.length, len := 0, cap := pc.parentStack.len + 1 }) := rfl
  have hnew : (m.arrays ++ [List.replicate (pc.parentStack.len + 1) (none : Option P)]).getD
      m.arrays.length [] = List.replicate (pc.parentStack.len + 1) none := by
    simp [List.getD_eq_getElem?_getD]
  have hold : ∀ a, a < m.arrays.length →
      (m.arrays ++ [List.replicate (pc.parentStack.len + 1) (none : Option P)]).getD a []
        = m.arrays.getD a [] := by
    intro a ha
    simp [List.getD_eq_getElem?_getD, List.getElem?_append_left ha]
  -- the elements of `pc.parentStack` as the second `append` reads them
  have hread : (Mem.appendOne grow (m.make (pc.parentStack.len + 1)).1
      (m.make (pc.parentStack.len + 1)).2 parent).1.view pc.parentStack
        = m.view pc.parentStack := by
    rcases hval with h0 | ⟨harr, -⟩
    · simp [Mem.view, h0]
    · simp only [hmk, Mem.appendOne, Nat.zero_lt_succ, if_true, Mem.view]
      rw [getD_modify_ne _ _ _ _ (by omega), hold _ harr]
  have hxs : (m.view pc.parentStack).length ≤ pc.parentStack.len := by
    simp [Mem.view, List.length_take]
  have hpush : pc.PushParent grow m parent
      = ((Mem.appendAll grow (m.make (pc.parentStack.len + 1)).1
            (m.make (pc.parentStack.len + 1)).2 (parent :: m.view pc.parentStack)).1,
         { parentStack := (Mem.appendAll grow (m.make (pc.parentStack.len + 1)).1
            (m.make (pc.parentStack.len + 1)).2 (parent :: m.view pc.parentStack)).2 }) := by
    simp only [ParseContext.PushParent, Mem.appendAll, hread]
  obtain ⟨h1, h2, h3, h4⟩ := appendAll_in_place grow (parent :: m.view pc.parentStack)
    (m.make (pc.parentStack.len + 1)).1 (m.make (pc.parentStack.len + 1)).2
    (by simp [hmk]) (by simp [hmk]; omega) (by simp only [hmk, hnew]; simp)
  have hview0 : (m.make (pc.parentStack.len + 1)).1.view (m.make (pc.parentStack.len + 1)).2
      = [] := by
    simp [hmk, Mem.view]
  have hkeep : ∀ a, a < m.arrays.length →
      (pc.PushParent grow m parent).1.arrays.getD a [] = m.arrays.getD a [] := by
    intro a ha
    rw [hpush]
    simp only
    rw [h3 a (by simp [hmk]; omega)]
    simp only [hmk]
    exact hold a ha
  have hfirst : (pc.PushParent grow m parent).1.view (pc.PushParent grow m parent).2.parentStack
      = parent :: m.view pc.parentStack := by
    rw [hpush]
    simp only
    rw [h4, hview0]; rfl
  refine ⟨hfirst, by rw [hfirst]; simp, ?_, ?_, hkeep⟩
  · rcases hval with h0 | ⟨harr, -⟩
    · simp [Mem.view, h0]
    · simp only [Mem.view]
      rw [hkeep _ harr]
  · rw [hpush]
    simp only
    rw [h1]
    simp [hmk]

theorem pushParent_spec_witness :
    (ParseContext.PushParent (fun c => 2 * c)
        ({ arrays := [[some 7, some 8, none]] } : Mem Nat)
        { parentStack := { arr := 0, len := 2, cap := 3 } } (some 5)).1.view
      (ParseContext.PushParent (fun c => 2 * c)
        ({ arrays := [[some 7, some 8, none]] } : Mem Nat)
        { parentStack := { arr := 0, len := 2, cap := 3 } } (some 5)).2.parentStack
      = [some 5, some 7, some 8] :=
  (pushParent_spec (fun c => 2 * c) ({ arrays := [[some 7, some 8, none]] } : Mem Nat)
    { parentStack := { arr := 0, len := 2, cap := 3 } } (some 5)
    ⟨by decide, Or.inr ⟨by decide, by decide⟩⟩).1

/-! ## C28: path segments -/

theorem digitVal_digitChar (d : Nat) (h : d < 10) : digitVal (digitChar d) = some d := by
  interval_cases d <;> decide

theorem digitChar_not_sign (d : Nat) (h : d < 10) :
    digitChar d ≠ '-' ∧ digitChar d ≠ '+' := by
  interval_cases d <;> decide

theorem parseDigits_map (ds : List Nat) :
    ∀ acc, (∀ d ∈ ds, d < 10) →
      parseDigits acc (ds.map digitChar) = some (ds.foldl (fun a d => a * 10 + d) acc) := by
  induction ds with
  | nil => intro acc _; rfl
  | cons d ds ih =>
    intro acc h
    have hd : d < 10 := h d (by simp)
    simp only [List.map_cons, parseDigits, digitVal_digitChar d hd, List.foldl_cons]
    exact ih _ (fun x hx => h x (by simp [hx]))

theorem foldl_digits_reverse (n : Nat) :
    (Nat.digits 10 n).reverse.foldl (fun a d => a * 10 + d) 0 = n := by
  rw [List.foldl_reverse]
  have h : ∀ l : List Nat, l.foldr (fun d a => a * 10 + d) 0 = Nat.ofDigits 10 l := by
    intro l
    induction l with
    | nil => rfl
    | cons d l ih =>
      simp only [List.foldr_cons, ih, Nat.ofDigits_cons]
      omega
  rw [h, Nat.ofDigits_digits]

/-- The numeral of a number reads back as the number. -/
theorem parseDigits_natChars (n : Nat) : parseDigits 0 (natChars n) = some n := by
  unfold natChars
  by_cases h : n = 0
  · subst h
    simp only [if_true, parseDigits, digitVal_digitChar 0 (by decide)]
  · simp only [h, if_false]
    rw [parseDigits_map _ 0 (by
      intro d hd
      exact Nat.digits_lt_base (by decide) (List.mem_reverse.mp hd))]
    rw [foldl_digits_reverse]

/-- A numeral starts with a digit, which is no sign. -/
theorem natChars_cons (n : Nat) :
    ∃ c rest, natChars n = c :: rest ∧ c ≠ '-' ∧ c ≠ '+' := by
  unfold natChars
  by_cases h : n = 0
  · exact ⟨digitChar 0, [], by simp [h], digitChar_not_sign 0 (by decide)⟩
  · simp only [h, if_false]
    have hne : (Nat.digits 10 n).reverse ≠ [] := by
      simpa using (Nat.digits_ne_nil_iff_ne_zero).mpr h
    cases hl : (Nat.digits 10 n).reverse with
    | nil => exact absurd hl hne
    | cons d ds =>
      have hd : d < 10 := by
        have : d ∈ (Nat.digits 10 n).reverse := by rw [hl]; simp
        exact Nat.digits_lt_base (by decide) (List.mem_reverse.mp this)
      exact ⟨digitChar d, ds.map digitChar, by simp, digitChar_not_sign d hd⟩

/-- `Atoi` reads back what `Itoa` wrote, for every number that fits an `int`. -/
theorem atoi_itoa (intSize : Nat) (i : Int)
    (hlo : -((2 : Int) ^ (intSize - 1)) ≤ i) (hhi : i < (2 : Int) ^ (intSize - 1)) :
    Atoi intSize (Itoa i) = (i, none) := by
  obtain ⟨c, rest, hc, hm, hp⟩ := natChars_cons i.natAbs
  have hparse := parseDigits_natChars i.natAbs
  rw [hc] at hparse
  by_cases hneg : i < 0
  · have hdata : (Itoa i).data = '-' :: c :: rest := by
      simp [Itoa, hneg, hc]
    have hbound : ¬ (i.natAbs > 2 ^ (intSize - 1)) := by
      have : ((i.natAbs : Nat) : Int) ≤ (2 : Int) ^ (intSize - 1) := by omega
      have h2 : ((i.natAbs : Nat) : Int) ≤ ((2 ^ (intSize - 1) : Nat) : Int) := by
        simp only [Nat.cast_pow, Nat.cast_ofNat]; exact this
      have := Int.ofNat_le.mp h2
      omega
    have hval : -((i.natAbs : Nat) : Int) = i := by omega
    simp only [Atoi, hdata, if_true, parseSigned, hparse, hbound, if_false, hval]
  · have hdata : (Itoa i).data = c :: rest := by
      simp [Itoa, hneg, hc]
    have hbound : ¬ (i.natAbs ≥ 2 ^ (intSize - 1)) := by
      have : ((i.natAbs : Nat) : Int) < (2 : Int) ^ (intSize - 1) := by omega
      have h2 : ((i.natAbs : Nat) : Int) < ((2 ^ (intSize - 1) : Nat) : Int) := by
        simp only [Nat.cast_pow, Nat.cast_ofNat]; exact this
      have := Int.ofNat_lt.mp h2
      omega
    have hval : ((i.natAbs : Nat) : Int) = i := by omega
    simp only [Atoi, hdata, hm, hp, if_false, parseSigned, hparse, hbound, hval]
    simp

/-- C28: path segments round-trip between their int and string forms: for every
`int` `i` (a number that fits the `intSize` bits of the platform), the index of
the string segment made from the string of the int segment of `i` is `i`, with
no error, and the index of the int segment is `i`, with no error; the string of
a string segment is the string it holds. -/
theorem pathSegment_round_trip (intSize : Nat) (i : Int) (s : String)
    (hlo : -((2 : Int) ^ (intSize - 1)) ≤ i) (hhi : i < (2 : Int) ^ (intSize - 1)) :
    PathSegmentString.Index intSize { S := PathSegmentInt.String { I := i } } = (i, none) ∧
    PathSegmentInt.Index { I := i } = (i, none) ∧
    PathSegmentString.String { S := s } = s :=
  ⟨atoi_itoa intSize i hlo hhi, rfl, rfl⟩

theorem pathSegment_round_trip_witness :
    PathSegmentString.Index 64 { S := PathSegmentInt.String { I := -42 } } = (-42, none) ∧
    PathSegmentInt.Index { I := -42 } = (-42, none) ∧
    PathSegmentString.String { S := "x" } = "x" :=
  pathSegment_round_trip 64 (-42) "x" (by norm_num) (by norm_num)

end Selector

/-! # Maybe slots: C22 -/

namespace GenMap

variable {V : Type}

theorem getD_modify_row (old : List (List (Entry V))) (g : Entry V → Entry V) (a0 i0 a : Nat) :
    (old.modify (fun r => r.modify g i0) a0).getD a []
      = if a0 = a then (old.getD a []).modify g i0 else old.getD a [] := by
  simp only [List.getD_eq_getElem?_getD, List.getElem?_modify]
  by_cases h : a0 = a
  · subst h
    cases old[a0]? <;> simp
  · cases old[a]? <;> simp [h]

theorem MapNode.deref_store (n : MapNode V) (p0 p : Ptr) (f : MaybeV V → MaybeV V) :
    (n.store p0 f).deref p = if p = p0 then (n.deref p).map f else n.deref p := by
  obtain ⟨a0, i0⟩ := p0
  obtain ⟨a, i⟩ := p
  unfold MapNode.store
  by_cases h0 : a0 = n.old.length
  · simp only [h0, if_true, MapNode.deref]
    by_cases ha : a = n.old.length
    · simp only [ha, if_true, List.getElem?_modify, Ptr.mk.injEq, true_and]
      by_cases hi : i0 = i
      · subst hi
        cases n.t[i0]? <;> simp
      · have hi2 : ¬ i = i0 := fun h => hi h.symm
        cases n.t[i]? <;> simp [hi, hi2]
    · have : ¬ (a = n.old.length ∧ i = i0) := fun h => ha h.1
      simp [ha]
  · simp only [h0, if_false, MapNode.deref, List.length_modify]
    by_cases ha : a = n.old.length
    · have hne : ¬ (n.old.length = a0) := fun h => h0 h.symm
      simp [ha, hne]
    · simp only [ha, if_false, getD_modify_row, Ptr.mk.injEq, List.getElem?_modify]
      by_cases haa : a0 = a
      · subst haa
        simp only [if_true, true_and, List.getElem?_modify]
        by_cases hi : i0 = i
        · subst hi
          cases (n.old.getD a0 [])[i0]? <;> simp
        · have hi2 : ¬ i = i0 := fun h => hi h.symm
          cases (n.old.getD a0 [])[i]? <;> simp [hi, hi2]
      · have haa2 : ¬ a = a0 := fun h => haa h.symm
        simp [haa, haa2]

theorem SlotsKept.refl (n : MapNode V) : SlotsKept n n :=
  fun _ s h _ => ⟨s, h, rfl⟩

theorem SlotsKept.trans {n n1 n2 : MapNode V} (h1 : SlotsKept n n1) (h2 : SlotsKept n1 n2) :
    SlotsKept n n2 := by
  intro p s hd hs
  obtain ⟨s1, hd1, hm1⟩ := h1 p s hd hs
  obtain ⟨s2, hd2, hm2⟩ := h2 p s1 hd1 (by rw [hm1]; exact hs)
  exact ⟨s2, hd2, by rw [hm2, hm1]⟩

/-- What a pointer leads to depends on the sequence and the retired arrays
only. -/
theorem MapNode.deref_congr (n n1 : MapNode V) (ht : n1.t = n.t) (ho : n1.old = n.old)
    (p : Ptr) : n1.deref p = n.deref p := by
  simp [MapNode.deref, ht, ho]

/-- A write that leaves the state of the wrapper alone keeps every slot. -/
theorem slotsKept_store_keep (n : MapNode V) (p0 : Ptr) (f : MaybeV V → MaybeV V)
    (hf : ∀ s, (f s).m = s.m) : SlotsKept n (n.store p0 f) := by
  intro p s hd _
  rw [MapNode.deref_store, hd]
  by_cases h : p = p0
  · exact ⟨f s, by simp [h], hf s⟩
  · exact ⟨s, by simp [h], rfl⟩

/-- A write to a wrapper that is neither Null nor Value keeps every slot that
is. -/
theorem slotsKept_store_open (n : MapNode V) (p0 : Ptr) (f : MaybeV V → MaybeV V)
    (hopen : ∀ s, n.deref p0 = some s → s.m ≠ Maybe.Maybe_Null ∧ s.m ≠ Maybe.Maybe_Value) :
    SlotsKept n (n.store p0 f) := by
  intro p s hd hs
  rw [MapNode.deref_store, hd]
  by_cases h : p = p0
  · subst h
    obtain ⟨h1, h2⟩ := hopen s hd
    rcases hs with hs | hs
    · exact absurd hs h1
    · exact absurd hs h2
  · exact ⟨s, by simp [h], rfl⟩

/-- `append` leaves what every live pointer leads to as it was. -/
theorem MapNode.deref_append (g : Nat → Nat) (n : MapNode V) (e : Entry V) (p : Ptr)
    (s : MaybeV V) (hd : n.deref p = some s) : (n.append g e).deref p = some s := by
  unfold MapNode.deref at hd ⊢
  unfold MapNode.append
  by_cases hc : n.t.length < n.cap
  · simp only [hc, if_true]
    by_cases hp : p.arr = n.old.length
    · simp only [hp, if_true] at hd ⊢
      have hlt : p.idx < n.t.length := by
        by_contra hge
        rw [List.getElem?_eq_none (by omega)] at hd
        simp at hd
      rw [List.getElem?_append_left hlt]; exact hd
    · simp only [hp, if_false] at hd ⊢
      exact hd
  · simp only [hc, if_false, List.length_append, List.length_singleton]
    by_cases hp : p.arr = n.old.length
    · simp only [hp, if_true] at hd
      have hne : ¬ (n.old.length = n.old.length + 1) := by omega
      simp only [hp, hne, if_false]
      simpa [List.getD_eq_getElem?_getD] using hd
    · simp only [hp, if_false] at hd
      have hlt : p.arr < n.old.length := by
        by_contra hge
        have : n.old.getD p.arr [] = [] := by
          rw [List.getD_eq_getElem?_getD, List.getElem?_eq_none (by omega)]; rfl
        rw [this] at hd
        simp at hd
      have hne : ¬ (p.arr = n.old.length + 1) := by omega
      simp only [hne, if_false]
      rw [List.getD_eq_getElem?_getD, List.getElem?_append_left hlt,
        ← List.getD_eq_getElem?_getD]
      exact hd

theorem slotsKept_append (g : Nat → Nat) (n : MapNode V) (e : Entry V) :
    SlotsKept n (n.append g e) :=
  fun p s hd _ => ⟨s, MapNode.deref_append g n e p s hd, rfl⟩

/-- `BeginMap` retires the sequence it replaces; the wrappers in it stay. -/
theorem slotsKept_retire (n : MapNode V) (m1 : Option (List (Key × Ptr))) (c : Nat) :
    SlotsKept n { m := m1, t := [], cap := c, old := n.old ++ [n.t] } := by
  intro p s hd _
  refine ⟨s, ?_, rfl⟩
  unfold MapNode.deref at hd ⊢
  simp only [List.length_append, List.length_singleton]
  by_cases hp : p.arr = n.old.length
  · simp only [hp, if_true] at hd
    have hne : ¬ (n.old.length = n.old.length + 1) := by omega
    simp only [hp, hne, if_false]
    simpa [List.getD_eq_getElem?_getD] using hd
  · simp only [hp, if_false] at hd
    have hlt : p.arr < n.old.length := by
      by_contra hge
      have : n.old.getD p.arr [] = [] := by
        rw [List.getD_eq_getElem?_getD, List.getElem?_eq_none (by omega)]; rfl
      rw [this] at hd
      simp at hd
    have hne : ¬ (p.arr = n.old.length + 1) := by omega
    simp only [hne, if_false]
    rw [List.getD_eq_getElem?_getD, List.getElem?_append_left hlt,
      ← List.getD_eq_getElem?_getD]
    exact hd

/-- What the state fence does to the maybes: the own maybe and the wrappers stay,
and the child maybe stays unless the tidy for non-nullable values resets it from
Value. -/
theorem stateFence_effect (cfg : Cfg) (ma : Assembler V) :
    (stateFence cfg ma).2.m = ma.m ∧ SlotsKept ma.w (stateFence cfg ma).2.w ∧
    ((stateFence cfg ma).2.cm = ma.cm ∨
      (cfg.ValueIsNullable = false ∧ ma.cm = Maybe.Maybe_Value ∧
        ma.state = maState.maState_midValue)) := by
  cases hf : stateFence cfg ma with
  | mk e a =>
    cases e with
    | some e =>
      obtain ⟨ha, -⟩ := stateFence_fail cfg ma e a hf
      subst ha
      exact ⟨rfl, SlotsKept.refl _, Or.inl rfl⟩
    | none =>
      rcases (stateFence_ok_iff cfg ma).mp (by simp [hf]) with hs | ⟨hs, ma1, ht⟩
      · rw [stateFence_initial cfg ma hs] at hf
        simp only [Prod.mk.injEq, true_and] at hf
        subst hf
        exact ⟨rfl, SlotsKept.refl _, Or.inl rfl⟩
      · rw [stateFence_midValue cfg ma ma1 hs ht] at hf
        simp only [Prod.mk.injEq, true_and] at hf
        subst hf
        obtain ⟨-, -, -, -, hm, -, -⟩ := valueFinishTidy_true cfg ma ma1 ht
        refine ⟨hm, ?_, ?_⟩
        · rcases valueFinishTidy_true_w cfg ma ma1 ht with hw | ⟨-, -, hw⟩
          · rw [hw]; exact SlotsKept.refl _
          · rw [hw]; exact slotsKept_store_keep _ _ _ (fun _ => rfl)
        · cases hn : cfg.ValueIsNullable
          · right
            refine ⟨rfl, ?_, hs⟩
            unfold valueFinishTidy at ht
            split at ht
            · simp at ht
            · simp only [hn, Bool.false_eq_true, if_false] at ht
              split at ht
              · assumption
              · simp at ht
          · left
            unfold valueFinishTidy at ht
            split at ht
            · simp at ht
            · simp only [hn, if_true] at ht
              split at ht
              · simp at ht; rw [← ht]
              · split at ht <;> (simp at ht; rw [← ht])
              · simp at ht

/-- What appending a row does to the maybes: nothing, the wrapper of the new row
apart. -/
theorem addRow_effect (cfg : Cfg) (ma : Assembler V) (k : String) (next : maState) :
    (addRow cfg ma k next).2.m = ma.m ∧ (addRow cfg ma k next).2.cm = ma.cm ∧
    SlotsKept ma.w (addRow cfg ma k next).2.w := by
  unfold addRow
  simp only
  cases hf : ma.w.find (fromString k) with
  | some p => exact ⟨rfl, rfl, SlotsKept.refl _⟩
  | none =>
    simp only
    have happ := slotsKept_append cfg.grow ma.w
      { k := fromString k, v := { m := Maybe.Maybe_Absent, v := none } }
    cases hm : (ma.w.append cfg.grow
        { k := fromString k, v := { m := Maybe.Maybe_Absent, v := none } }).m with
    | none => exact ⟨rfl, rfl, happ⟩
    | some l =>
      simp only
      have hcong : SlotsKept ma.w
          ({ (ma.w.append cfg.grow
              { k := fromString k, v := { m := Maybe.Maybe_Absent, v := none } }) with
            m := some (mset l (fromString k) (ma.w.append cfg.grow
              { k := fromString k, v := { m := Maybe.Maybe_Absent, v := none } }).lastPtr) } :
            MapNode V) := by
        intro p s hd hs
        obtain ⟨s1, h1, h2⟩ := happ p s hd hs
        exact ⟨s1, by rw [← h1]; exact MapNode.deref_congr _ _ rfl rfl p, h2⟩
      cases hn : cfg.ValueIsNullable
      · exact ⟨rfl, rfl, hcong⟩
      · simp only [if_true]
        refine ⟨trivial, trivial, hcong.trans (slotsKept_store_open _ _ _ ?_)⟩
        intro s hs
        have hlast := MapNode.deref_lastPtr
          ({ (ma.w.append cfg.grow
              { k := fromString k, v := { m := Maybe.Maybe_Absent, v := none } }) with
            m := some (mset l (fromString k) (ma.w.append cfg.grow
              { k := fromString k, v := { m := Maybe.Maybe_Absent, v := none } }).lastPtr) } :
            MapNode V)
          { k := fromString k, v := { m := Maybe.Maybe_Absent, v := none } } (by simp)
        simp only [MapNode.lastPtr] at hlast hs
        rw [hlast] at hs
        simp only [Option.some.injEq] at hs
        subst hs
        simp

/-- What the value assembler's writes do to the maybes: the own maybe and the
finished wrappers stay, and the child maybe stays or becomes Value or Null. -/
theorem writeM_effect (ma : Assembler V) (x : Maybe)
    (hopen : ∀ y, ValueAssembler.readM ma = some y →
      y ≠ Maybe.Maybe_Null ∧ y ≠ Maybe.Maybe_Value) :
    (ValueAssembler.writeM ma x).m = ma.m ∧ (ValueAssembler.writeM ma x).state = ma.state ∧
    SlotsKept ma.w (ValueAssembler.writeM ma x).w ∧
    ((ValueAssembler.writeM ma x).cm = ma.cm ∨ (ValueAssembler.writeM ma x).cm = x) := by
  unfold ValueAssembler.writeM
  cases hm : ma.va.m with
  | nil => exact ⟨rfl, rfl, SlotsKept.refl _, Or.inl rfl⟩
  | cm => exact ⟨rfl, rfl, SlotsKept.refl _, Or.inr rfl⟩
  | slot p =>
    refine ⟨rfl, rfl, slotsKept_store_open _ _ _ ?_, Or.inl rfl⟩
    intro s hs
    exact hopen s.m (by simp [ValueAssembler.readM, hm, hs])

theorem valueAssign_effect (cfg : Cfg) (ma : Assembler V) (v : Option V) :
    (ValueAssembler.AssignNode cfg ma v).2.m = ma.m ∧
    (ValueAssembler.AssignNode cfg ma v).2.state = ma.state ∧
    SlotsKept ma.w (ValueAssembler.AssignNode cfg ma v).2.w ∧
    ((ValueAssembler.AssignNode cfg ma v).2.cm = ma.cm ∨
      (ValueAssembler.AssignNode cfg ma v).2.cm = Maybe.Maybe_Value ∨
      (ValueAssembler.AssignNode cfg ma v).2.cm = Maybe.Maybe_Null) := by
  have same : (ma.m = ma.m ∧ ma.state = ma.state ∧ SlotsKept ma.w ma.w ∧
      (ma.cm = ma.cm ∨ ma.cm = Maybe.Maybe_Value ∨ ma.cm = Maybe.Maybe_Null)) :=
    ⟨rfl, rfl, SlotsKept.refl _, Or.inl rfl⟩
  cases v with
  | none =>
    simp only [ValueAssembler.AssignNode, ValueAssembler.AssignNull]
    cases hr : ValueAssembler.readM ma with
    | none => exact same
    | some y =>
      cases y <;> try exact same
      obtain ⟨h1, h2, h3, h4⟩ := writeM_effect ma Maybe.Maybe_Null
        (by intro y hy; rw [hr] at hy; simp at hy; subst hy; simp)
      exact ⟨h1, h2, h3, h4.elim Or.inl (fun h => Or.inr (Or.inr h))⟩
  | some v =>
    simp only [ValueAssembler.AssignNode, ValueAssembler.AssignValue]
    cases hr : ValueAssembler.readM ma with
    | none => exact same
    | some y =>
      have key : ∀ (a : Assembler V), a.va.m = ma.va.m → a.cm = ma.cm → a.m = ma.m →
          a.state = ma.state → SlotsKept ma.w a.w →
          (∀ p, ma.va.m = MRef.slot p → (a.w.deref p).map MaybeV.m = (ma.w.deref p).map MaybeV.m) →
          y ≠ Maybe.Maybe_Null → y ≠ Maybe.Maybe_Value →
          (ValueAssembler.writeM a Maybe.Maybe_Value).m = ma.m ∧
          (ValueAssembler.writeM a Maybe.Maybe_Value).state = ma.state ∧
          SlotsKept ma.w (ValueAssembler.writeM a Maybe.Maybe_Value).w ∧
          ((ValueAssembler.writeM a Maybe.Maybe_Value).cm = ma.cm ∨
            (ValueAssembler.writeM a Maybe.Maybe_Value).cm = Maybe.Maybe_Value ∨
            (ValueAssembler.writeM a Maybe.Maybe_Value).cm = Maybe.Maybe_Null) := by
        intro a hva hcm hm hst hk hd hy1 hy2
        have hread : ValueAssembler.readM a = some y := by
          unfold ValueAssembler.readM at hr ⊢
          rw [hva]
          cases hvm : ma.va.m with
          | nil => simp [hvm] at hr
          | cm => simp only [hvm] at hr ⊢; rw [hcm]; exact hr
          | slot p => simp only [hvm] at hr ⊢; rw [hd p hvm]; exact hr
        obtain ⟨h1, h2, h3, h4⟩ := writeM_effect a Maybe.Maybe_Value
          (by intro z hz; rw [hread] at hz; simp at hz; subst hz; exact ⟨hy1, hy2⟩)
        refine ⟨by rw [h1, hm], by rw [h2, hst], hk.trans h3, ?_⟩
        rcases h4 with h4 | h4
        · exact Or.inl (by rw [h4, hcm])
        · exact Or.inr (Or.inl h4)
      cases y with
      | Maybe_Value => exact same
      | Maybe_Null => exact same
      | midvalue => exact same
      | Maybe_Absent =>
        simp only
        cases hw : ma.va.w with
        | nil =>
          simp only
          split
          · exact key _ rfl rfl rfl rfl (SlotsKept.refl _) (fun _ _ => rfl) (by simp) (by simp)
          · exact same
        | box b =>
          exact key _ rfl rfl rfl rfl (SlotsKept.refl _) (fun _ _ => rfl) (by simp) (by simp)
        | slot q =>
          refine key _ rfl rfl rfl rfl (slotsKept_store_keep _ _ _ (fun _ => rfl)) ?_
            (by simp) (by simp)
          intro p _
          simp only [MapNode.deref_store]
          split
          · cases ma.w.deref p <;> simp
          · rfl
      | allowNull =>
        simp only
        cases hw : ma.va.w with
        | nil =>
          simp only
          split
          · exact key _ rfl rfl rfl rfl (SlotsKept.refl _) (fun _ _ => rfl) (by simp) (by simp)
          · exact same
        | box b =>
          exact key _ rfl rfl rfl rfl (SlotsKept.refl _) (fun _ _ => rfl) (by simp) (by simp)
        | slot q =>
          refine key _ rfl rfl rfl rfl (slotsKept_store_keep _ _ _ (fun _ => rfl)) ?_
            (by simp) (by simp)
          intro p _
          simp only [MapNode.deref_store]
          split
          · cases ma.w.deref p <;> simp
          · rfl

/-- What a call does to the maybes. -/
theorem callRun_effect (cfg : Cfg) (ma : Assembler V) (c : Call V) :
    ((c.run cfg ma).2.m = ma.m ∨ (c.run cfg ma).2.m = Maybe.Maybe_Value) ∧
    SlotsKept ma.w (c.run cfg ma).2.w ∧
    ((c.run cfg ma).2.cm = ma.cm ∨ (c.run cfg ma).2.cm = Maybe.Maybe_Value ∨
      (c.run cfg ma).2.cm = Maybe.Maybe_Null ∨
      (cfg.ValueIsNullable = false ∧ ma.cm = Maybe.Maybe_Value ∧
        ma.state = maState.maState_midValue)) := by
  obtain ⟨f1, f2, f3⟩ := stateFence_effect cfg ma
  have f3b : (stateFence cfg ma).2.cm = ma.cm ∨
      (stateFence cfg ma).2.cm = Maybe.Maybe_Value ∨
      (stateFence cfg ma).2.cm = Maybe.Maybe_Null ∨
      (cfg.ValueIsNullable = false ∧ ma.cm = Maybe.Maybe_Value ∧
        ma.state = maState.maState_midValue) :=
    f3.elim Or.inl (fun h => Or.inr (Or.inr (Or.inr h)))
  cases c with
  | AssembleKey =>
    simp only [Call.run, GenMap.AssembleKey]
    cases hf : stateFence cfg ma with
    | mk e a =>
      rw [hf] at f1 f2 f3b
      cases e <;> exact ⟨Or.inl f1, f2, f3b⟩
  | KeyAssignString k =>
    simp only [Call.run, KeyAssembler.AssignString]
    split
    · exact ⟨Or.inl rfl, SlotsKept.refl _, Or.inl rfl⟩
    · obtain ⟨h1, h2, h3⟩ := addRow_effect cfg ma k maState.maState_expectValue
      exact ⟨Or.inl h1, h3, Or.inl h2⟩
  | AssembleValue =>
    simp only [Call.run, GenMap.AssembleValue]
    split <;> exact ⟨Or.inl rfl, SlotsKept.refl _, Or.inl rfl⟩
  | AssembleEntry k =>
    simp only [Call.run, GenMap.AssembleEntry]
    cases hf : stateFence cfg ma with
    | mk e a =>
      rw [hf] at f1 f2 f3b
      cases e with
      | some e => exact ⟨Or.inl f1, f2, f3b⟩
      | none =>
        obtain ⟨h1, h2, h3⟩ := addRow_effect cfg a k maState.maState_midValue
        simp only [Step.andThen_none]
        refine ⟨Or.inl (by rw [h1]; exact f1), f2.trans h3, ?_⟩
        rw [h2]; exact f3b
  | Finish =>
    simp only [Call.run, GenMap.Finish]
    cases hf : stateFence cfg ma with
    | mk e a =>
      rw [hf] at f1 f2 f3b
      cases e with
      | some e => exact ⟨Or.inl f1, f2, f3b⟩
      | none => exact ⟨Or.inr rfl, f2, f3b⟩
  | ValueAssign v =>
    obtain ⟨h1, -, h3, h4⟩ := valueAssign_effect cfg ma v
    refine ⟨Or.inl h1, h3, ?_⟩
    rcases h4 with h | h | h
    · exact Or.inl h
    · exact Or.inr (Or.inl h)
    · exact Or.inr (Or.inr (Or.inl h))

/-- The replay of a map with at least one entry ends where its first
`AssembleKey` ends: no key gets assembled. -/
theorem replay_cons (cfg : Cfg) (ma : Assembler V) (k : String) (v : Option V)
    (rest : List (String × Option V)) :
    (replay cfg ((k, v) :: rest) ma).2 = (AssembleKey cfg ma).2 ∧
    (replay cfg ((k, v) :: rest) ma).1 ≠ none := by
  simp only [replay, AssembleKey]
  cases hf : stateFence cfg ma with
  | mk e a =>
    cases e with
    | some e => simp
    | none => simp [KeyAssembler.AssignNode, AssembleValue]

/-- C22, as stated, fails: for non-nullable values, after the entry `("a", 1)`
was assembled and its value completed the child maybe holds Value, and
`AssembleKey()`, through its tidy step, sets it back to Absent. -/
theorem tidy_resets_child_maybe :
    afterOnePlain.cm = Maybe.Maybe_Value ∧
    (AssembleKey cfgPlain afterOnePlain).1 = none ∧
    (AssembleKey cfgPlain afterOnePlain).2.cm = Maybe.Maybe_Absent ∧
    Regresses afterOnePlain.cm (AssembleKey cfgPlain afterOnePlain).2.cm := by
  refine ⟨by decide, by decide, by decide, Or.inr (by decide), by decide⟩

/-- C22 (amended): no operation of the map assembler (`BeginMap`, `AssignNull`,
`AssignNode`, `AssembleKey`, the key assembler's `AssignString`,
`AssembleValue`, `AssembleEntry`, `Finish`, the tidy step they run, and the
completion of a value) changes the assembler's own maybe from Null or Value to
Absent, and none changes the wrapper of a row that is Null or Value: the wrapper
stays at its address in its state (`AssignNode` of a map of the assembler's own
type writes no row at all: the map afterwards is that map, or the old one when
the call fails).  The child maybe is the exception: it regresses only for
non-nullable values, only from Value, and only in midValue, where the tidy step
resets it to Absent for the next value. -/
theorem maybe_slots_monotone (cfg : Cfg) (ma : Assembler V) (o : Op V) :
    ¬ Regresses ma.m (o.run cfg ma).2.m ∧
    ((∀ M, o ≠ Op.AssignNode (Node.own M)) → SlotsKept ma.w (o.run cfg ma).2.w) ∧
    (∀ M, o = Op.AssignNode (Node.own M) →
      (o.run cfg ma).2.w = M ∨ (o.run cfg ma).2.w = ma.w) ∧
    (Regresses ma.cm (o.run cfg ma).2.cm →
      cfg.ValueIsNullable = false ∧ ma.cm = Maybe.Maybe_Value ∧
        ma.state = maState.maState_midValue) := by
  -- the four facts for a result that a call leaves
  have ofCall : ∀ (r : Assembler V) (c : Call V), r = (c.run cfg ma).2 →
      ¬ Regresses ma.m r.m ∧ SlotsKept ma.w r.w ∧
      (Regresses ma.cm r.cm →
        cfg.ValueIsNullable = false ∧ ma.cm = Maybe.Maybe_Value ∧
          ma.state = maState.maState_midValue) := by
    intro r c hr
    obtain ⟨h1, h2, h3⟩ := callRun_effect cfg ma c
    rw [← hr] at h1 h2 h3
    refine ⟨?_, h2, ?_⟩
    · rintro ⟨ha, hb⟩
      rcases h1 with h | h
      · rw [h] at hb; rcases ha with ha | ha <;> simp [hb] at ha
      · rw [h] at hb; simp at hb
    · rintro ⟨ha, hb⟩
      rcases h3 with h | h | h | h
      · rw [h] at hb; rcases ha with ha | ha <;> simp [hb] at ha
      · rw [h] at hb; simp at hb
      · rw [h] at hb; simp at hb
      · exact h
  -- the four facts for a result that differs from `ma` in the own maybe only
  have ofM : ∀ (x : Maybe), x ≠ Maybe.Maybe_Absent →
      ¬ Regresses ma.m ({ ma with m := x } : Assembler V).m ∧
      SlotsKept ma.w ({ ma with m := x } : Assembler V).w ∧
      (Regresses ma.cm ({ ma with m := x } : Assembler V).cm →
        cfg.ValueIsNullable = false ∧ ma.cm = Maybe.Maybe_Value ∧
          ma.state = maState.maState_midValue) := by
    intro x hx
    refine ⟨fun h => hx h.2, SlotsKept.refl _, ?_⟩
    rintro ⟨ha, hb⟩
    simp only at hb
    rcases ha with ha | ha <;> simp [hb] at ha
  have ofSame : ¬ Regresses ma.m ma.m ∧ SlotsKept ma.w ma.w ∧
      (Regresses ma.cm ma.cm →
        cfg.ValueIsNullable = false ∧ ma.cm = Maybe.Maybe_Value ∧
          ma.state = maState.maState_midValue) := by
    refine ⟨?_, SlotsKept.refl _, ?_⟩
    · rintro ⟨ha, hb⟩; rcases ha with ha | ha <;> simp [hb] at ha
    · rintro ⟨ha, hb⟩; rcases ha with ha | ha <;> simp [hb] at ha
  have ofNull : ¬ Regresses ma.m (AssignNull ma).2.m ∧ SlotsKept ma.w (AssignNull ma).2.w ∧
      (Regresses ma.cm (AssignNull ma).2.cm →
        cfg.ValueIsNullable = false ∧ ma.cm = Maybe.Maybe_Value ∧
          ma.state = maState.maState_midValue) := by
    unfold AssignNull
    split
    · exact ofM _ (by simp)
    all_goals exact ofSame
  cases o with
  | call c =>
    obtain ⟨h1, h2, h3⟩ := ofCall _ c rfl
    exact ⟨h1, fun _ => h2, fun M hM => by simp at hM, h3⟩
  | BeginMap h =>
    have : ¬ Regresses ma.m (BeginMap ma h).2.m ∧ SlotsKept ma.w (BeginMap ma h).2.w ∧
        (Regresses ma.cm (BeginMap ma h).2.cm →
          cfg.ValueIsNullable = false ∧ ma.cm = Maybe.Maybe_Value ∧
            ma.state = maState.maState_midValue) := by
      unfold BeginMap
      split
      · exact ofSame
      · exact ofSame
      · exact ofSame
      · refine ⟨fun hh => by simp at hh; simp [Regresses] at hh, slotsKept_retire _ _ _, ?_⟩
        rintro ⟨ha, hb⟩
        simp only at hb
        rcases ha with ha | ha <;> simp [hb] at ha
    exact ⟨this.1, fun _ => this.2.1, fun M hM => by simp at hM, this.2.2⟩
  | AssignNull =>
    exact ⟨ofNull.1, fun _ => ofNull.2.1, fun M hM => by simp at hM, ofNull.2.2⟩
  | AssignNode n =>
    cases n with
    | Null =>
      exact ⟨ofNull.1, fun _ => ofNull.2.1, fun M hM => by simp at hM, ofNull.2.2⟩
    | own M =>
      simp only [Op.run, AssignNode]
      refine ⟨?_, fun h => absurd rfl (h M), ?_, ?_⟩
      · split
        · exact ofSame.1
        · exact ofSame.1
        · exact ofSame.1
        · rintro ⟨-, hb⟩; simp at hb
      · intro M2 hM2
        simp only [Op.AssignNode.injEq, Node.own.injEq] at hM2
        subst hM2
        split
        · exact Or.inr rfl
        · exact Or.inr rfl
        · exact Or.inr rfl
        · exact Or.inl rfl
      · split
        · exact ofSame.2.2
        · exact ofSame.2.2
        · exact ofSame.2.2
        · rintro ⟨ha, hb⟩
          simp only at hb
          rcases ha with ha | ha <;> simp [hb] at ha
    | other kind entries =>
      have : ¬ Regresses ma.m (AssignNode cfg ma (Node.other kind entries)).2.m ∧
          SlotsKept ma.w (AssignNode cfg ma (Node.other kind entries)).2.w ∧
          (Regresses ma.cm (AssignNode cfg ma (Node.other kind entries)).2.cm →
            cfg.ValueIsNullable = false ∧ ma.cm = Maybe.Maybe_Value ∧
              ma.state = maState.maState_midValue) := by
        simp only [AssignNode]
        split
        · exact ofSame
        · cases entries with
          | nil => exact ofCall _ Call.Finish (by simp [replay, Call.run])
          | cons e rest =>
            obtain ⟨k, v⟩ := e
            exact ofCall _ Call.AssembleKey (by rw [(replay_cons cfg ma k v rest).1]; rfl)
      exact ⟨this.1, fun _ => this.2.1, fun M hM => by simp at hM, this.2.2⟩

end GenMap

/-! # The invariant of a begun assembler: C25, C26, C27 -/

namespace GenMap

variable {V : Type}

theorem exists_concat_of_ne_nil {α : Type} (l : List α) (h : l ≠ []) :
    ∃ L b, l = L ++ [b] := by
  rcases List.eq_nil_or_concat l with h0 | ⟨L, b, hb⟩
  · exact absurd h0 h
  · exact ⟨L, b, by simpa using hb⟩

/-- A write through the pointer to the last row keeps the lookup structure in
agreement with the sequence, the pointer entered for the last row being that
pointer. -/
theorem lookupAgrees_store_last (n : MapNode V) (f : MaybeV V → MaybeV V)
    (h : LookupAgrees n) (hl : LastFresh n) (l : List (Entry V)) (e : Entry V)
    (ht : n.t = l ++ [e]) : LookupAgrees (n.store n.lastPtr f) := by
  have hst := MapNode.store_lastPtr_t n f l e ht
  have hlast : n.lastPtr = ⟨n.old.length, l.length⟩ := by simp [MapNode.lastPtr, ht]
  intro i x hx
  rw [hst] at hx
  rcases Nat.lt_trichotomy i l.length with hi | hi | hi
  · rw [List.getElem?_append_left hi] at hx
    have hx0 : n.t[i]? = some x := by rw [ht, List.getElem?_append_left hi]; exact hx
    obtain ⟨p, hf, hidx, hd⟩ := h i x hx0
    refine ⟨p, by simpa using hf, hidx, ?_⟩
    rw [MapNode.deref_store]
    have hne : p ≠ n.lastPtr := by
      intro hp
      rw [hp, hlast] at hidx
      simp at hidx
      omega
    simp [hne, hd]
  · subst hi
    have hxe : x = { e with v := f e.v } := by simpa using hx.symm
    have hx0 : n.t[l.length]? = some e := by simp [ht]
    obtain ⟨p, hf, hidx, hd⟩ := h l.length e hx0
    have hp : p = n.lastPtr := by
      have := hl e (by simp [ht])
      rw [hf] at this
      exact Option.some.inj this
    subst hxe
    refine ⟨n.lastPtr, by simpa [hp] using hf, by simp [hlast], ?_⟩
    rw [MapNode.deref_store]
    rw [hp] at hd
    simp [hd]
  · rw [List.getElem?_eq_none (by simp; omega)] at hx
    simp at hx

theorem lastFresh_store_last (n : MapNode V) (f : MaybeV V → MaybeV V)
    (hl : LastFresh n) (l : List (Entry V)) (e : Entry V) (ht : n.t = l ++ [e]) :
    LastFresh (n.store n.lastPtr f) := by
  have hst := MapNode.store_lastPtr_t n f l e ht
  intro x hx
  rw [hst] at hx
  have hxe : x = { e with v := f e.v } := by simpa using hx.symm
  subst hxe
  have := hl e (by simp [ht])
  simpa using this

theorem Sound.set_cm {cfg : Cfg} {ma : Assembler V} (h : Sound cfg ma) (c : Maybe) :
    Sound cfg { ma with cm := c } := h

theorem Sound.set_va_w {cfg : Cfg} {ma : Assembler V} (h : Sound cfg ma) (vw : WRef V)
    (hvw : ∀ p, vw = WRef.slot p → p = ma.w.lastPtr ∧ ma.w.t ≠ []) :
    Sound cfg { ma with va := { ma.va with w := vw } } := by
  obtain ⟨h1, h2, h3, h4, h5, h6, h7⟩ := h
  exact ⟨h1, h2, h3, ⟨hvw, h4.2⟩, h5, h6, h7⟩

/-- A write through the pointer to the last row that leaves the state of the
wrapper alone, or makes it Null or Value, keeps the invariant. -/
theorem Sound.store_last {cfg : Cfg} {ma : Assembler V} (h : Sound cfg ma)
    (f : MaybeV V → MaybeV V) (hne : ma.w.t ≠ [])
    (hf : ∀ s, (f s).m = s.m ∨ (f s).m = Maybe.Maybe_Null ∨ (f s).m = Maybe.Maybe_Value) :
    Sound cfg { ma with w := ma.w.store ma.w.lastPtr f } := by
  obtain ⟨h1, h2, h3, h4, h5, h6, h7⟩ := h
  obtain ⟨l, e, ht⟩ := exists_concat_of_ne_nil _ hne
  have hst := MapNode.store_lastPtr_t ma.w f l e ht
  have hne2 : (ma.w.store ma.w.lastPtr f).t ≠ [] := by rw [hst]; simp
  refine ⟨h1.of_same (by simp) (by simp), lookupAgrees_store_last _ f h2 h3 l e ht,
    lastFresh_store_last _ f h3 l e ht, ?_, ?_, fun _ => hne2, h7⟩
  · refine ⟨fun p hp => ?_, fun p hp => ?_⟩
    · exact ⟨by simpa using (h4.1 p hp).1, hne2⟩
    · exact ⟨by simpa using (h4.2 p hp).1, hne2⟩
  · refine ⟨?_, ?_⟩
    · intro x hx
      simp only [hst, List.dropLast_concat] at hx
      exact h5.1 x (by simpa [ht] using hx)
    · intro hs x hx
      simp only [hst] at hx
      have hxe : x = { e with v := f e.v } := by simpa using hx.symm
      subst hxe
      have he := h5.2 hs e (by simp [ht])
      intro hn
      rcases hf e.v with hm | hm | hm
      · simp only [hm]; exact he hn
      · exact Or.inl hm
      · exact Or.inr hm

/-- The value assembler's `*va.m = x`, for `x` Null or Value, keeps the
invariant. -/
theorem Sound.writeM {cfg : Cfg} {ma : Assembler V} (h : Sound cfg ma) (x : Maybe)
    (hx : x = Maybe.Maybe_Null ∨ x = Maybe.Maybe_Value) :
    Sound cfg (ValueAssembler.writeM ma x) := by
  unfold ValueAssembler.writeM
  cases hm : ma.va.m with
  | nil => exact h
  | cm => exact h.set_cm x
  | slot p =>
    obtain ⟨hp, hne⟩ := h.2.2.2.1.2 p hm
    subst hp
    exact h.store_last _ hne (fun s => Or.inr (by simpa using hx))

theorem valueAssign_state (cfg : Cfg) (ma : Assembler V) (v : Option V) :
    (ValueAssembler.AssignNode cfg ma v).2.state = ma.state :=
  (valueAssign_effect cfg ma v).2.1

/-- The completion of a value keeps the invariant. -/
theorem valueAssign_sound (cfg : Cfg) (ma : Assembler V) (v : Option V)
    (h : Sound cfg ma) : Sound cfg (ValueAssembler.AssignNode cfg ma v).2 := by
  cases v with
  | none =>
    simp only [ValueAssembler.AssignNode, ValueAssembler.AssignNull]
    split
    · exact h
    · exact h.writeM _ (Or.inl rfl)
    · exact h
    · exact h
  | some v =>
    simp only [ValueAssembler.AssignNode, ValueAssembler.AssignValue]
    split
    · exact h
    · exact h
    · exact h
    · exact h
    · split
      · split
        · exact (h.set_va_w (WRef.box v) (by simp)).writeM _ (Or.inr rfl)
        · exact h
      · exact (h.set_va_w (WRef.box v) (by simp)).writeM _ (Or.inr rfl)
      · rename_i p hp
        obtain ⟨hpl, hne⟩ := h.2.2.2.1.1 p hp
        subst hpl
        exact (h.store_last (fun s => { m := s.m, v := some v }) hne
          (fun s => Or.inl rfl)).writeM _ (Or.inr rfl)

theorem Sound.set_state {cfg : Cfg} {ma : Assembler V} (h : Sound cfg ma) (s : maState)
    (hd : s = maState.maState_initial ∨ s = maState.maState_midKey ∨
        s = maState.maState_finished →
      ∀ x, ma.w.t.getLast? = some x → RowDone cfg x)
    (hv : s = maState.maState_expectValue ∨ s = maState.maState_midValue → ma.w.t ≠ []) :
    Sound cfg { ma with state := s } := by
  obtain ⟨h1, h2, h3, h4, h5, h6, h7⟩ := h
  exact ⟨h1, h2, h3, h4, ⟨h5.1, hd⟩, hv, h7⟩

theorem Sound.set_m {cfg : Cfg} {ma : Assembler V} (h : Sound cfg ma) :
    Sound cfg { ma with m := Maybe.Maybe_Value } := by
  obtain ⟨h1, h2, h3, h4, h5, h6, h7⟩ := h
  exact ⟨h1, h2, h3, h4, h5, h6, Or.inr rfl⟩

theorem store_last_getLast (n : MapNode V) (f : MaybeV V → MaybeV V) (x : Entry V)
    (hx : n.t.getLast? = some x) :
    (n.store n.lastPtr f).t.getLast? = some { x with v := f x.v } := by
  have hne : n.t ≠ [] := by intro h0; simp [h0] at hx
  obtain ⟨l, e, ht⟩ := exists_concat_of_ne_nil _ hne
  have hxe : x = e := by simpa [ht] using hx.symm
  subst hxe
  rw [MapNode.store_lastPtr_t n f l x ht]
  simp

/-- All rows are finished while the assembler is between entries, in a key, or
finished. -/
theorem Sound.all_done {cfg : Cfg} {ma : Assembler V} (h : Sound cfg ma)
    (hs : ma.state = maState.maState_initial ∨ ma.state = maState.maState_midKey ∨
      ma.state = maState.maState_finished) :
    ∀ x ∈ ma.w.t, RowDone cfg x := by
  intro x hx
  have hne : ma.w.t ≠ [] := by intro h0; simp [h0] at hx
  obtain ⟨l, e, ht⟩ := exists_concat_of_ne_nil _ hne
  rw [ht] at hx
  rcases List.mem_append.mp hx with hl | hl
  · exact h.2.2.2.2.1.1 x (by simpa [ht] using hl)
  · have : x = e := by simpa using hl
    subst this
    exact h.2.2.2.2.1.2 hs x (by simp [ht])

/-- The tidy step keeps the invariant. -/
theorem valueFinishTidy_sound (cfg : Cfg) (ma ma1 : Assembler V) (b : Bool)
    (h : Sound cfg ma) (ht : valueFinishTidy cfg ma = some (b, ma1)) : Sound cfg ma1 := by
  cases b with
  | false => rw [valueFinishTidy_false cfg ma ma1 ht]; exact h
  | true =>
    unfold valueFinishTidy at ht
    cases hlast : ma.w.t.getLast? with
    | none => simp [hlast] at ht
    | some tz =>
      have hne : ma.w.t ≠ [] := by intro h0; simp [h0] at hlast
      simp only [hlast] at ht
      cases hn : cfg.ValueIsNullable with
      | false =>
        simp only [hn, Bool.false_eq_true, if_false] at ht
        cases hcm : ma.cm <;> simp [hcm] at ht
        subst ht
        have h2 := (h.set_va_w WRef.nil (by simp)).set_cm Maybe.Maybe_Absent
        exact h2.set_state maState.maState_initial
          (fun _ x _ hnn => by simp [hn] at hnn) (fun hs => by simp at hs)
      | true =>
        simp only [hn, if_true] at ht
        cases hm : tz.v.m <;> simp [hm] at ht
        · subst ht
          exact h.set_state maState.maState_initial
            (fun _ x hx _ => by
              have : x = tz := by rw [hlast] at hx; exact (Option.some.inj hx).symm
              subst this; exact Or.inl hm)
            (fun hs => by simp at hs)
        · cases hp : cfg.ValueMaybeUsesPtr with
          | false =>
            simp only [hp, Bool.false_eq_true, if_false] at ht
            have ht2 := (Prod.mk.inj (Option.some.inj ht)).2
            subst ht2
            exact h.set_state maState.maState_initial
              (fun _ x hx _ => by
                have : x = tz := by rw [hlast] at hx; exact (Option.some.inj hx).symm
                subst this; exact Or.inr hm)
              (fun hs => by simp at hs)
          | true =>
            simp only [hp, if_true] at ht
            have ht2 := (Prod.mk.inj (Option.some.inj ht)).2
            subst ht2
            have h2 := h.store_last (fun s => { s with v := ma.va.w.load ma.w }) hne
              (fun s => Or.inl rfl)
            exact h2.set_state maState.maState_initial
              (fun _ x hx _ => by
                have hx2 := store_last_getLast ma.w
                  (fun s => { s with v := ma.va.w.load ma.w }) tz hlast
                simp only at hx
                rw [hx2] at hx
                have : x = _ := (Option.some.inj hx).symm
                subst this
                exact Or.inr hm)
              (fun hs => by simp at hs)

/-- The state fence keeps the invariant. -/
theorem stateFence_sound (cfg : Cfg) (ma : Assembler V) (h : Sound cfg ma) :
    Sound cfg (stateFence cfg ma).2 := by
  unfold stateFence
  cases hs : ma.state with
  | maState_initial => exact h
  | maState_midKey => exact h
  | maState_expectValue => exact h
  | maState_finished => exact h
  | maState_midValue =>
    simp only
    cases ht : valueFinishTidy cfg ma with
    | none => exact h
    | some r =>
      obtain ⟨b, ma1⟩ := r
      have := valueFinishTidy_sound cfg ma ma1 b h ht
      cases b <;> exact this

/-- After the state fence has let a call pass, the assembler is between
entries. -/
theorem stateFence_ok_state (cfg : Cfg) (ma : Assembler V)
    (h : (stateFence cfg ma).1 = none) :
    (stateFence cfg ma).2.state = maState.maState_initial := by
  rcases (stateFence_ok_iff cfg ma).mp h with hs | ⟨hs, ma1, ht⟩
  · rw [stateFence_initial cfg ma hs]; exact hs
  · rw [stateFence_midValue cfg ma ma1 hs ht]
    exact (valueFinishTidy_true cfg ma ma1 ht).1

/-- A new row keeps the invariant. -/
theorem addRow_sound (cfg : Cfg) (ma : Assembler V) (k : String) (next : maState)
    (h : Sound cfg ma)
    (hs : ma.state = maState.maState_initial ∨ ma.state = maState.maState_midKey)
    (hn : next = maState.maState_expectValue ∨ next = maState.maState_midValue) :
    Sound cfg (addRow cfg ma k next).2 := by
  cases hfind : ma.w.find (fromString k) with
  | some p =>
    rw [addRow_repeated cfg ma k next (by simp [hfind])]
    exact h
  | none =>
    obtain ⟨hka, hla, hlf, hva, hrd, hne, hm⟩ := h
    have hall := Sound.all_done ⟨hka, hla, hlf, hva, hrd, hne, hm⟩
      (hs.elim Or.inl (fun x => Or.inr (Or.inl x)))
    cases hl : ma.w.m with
    | none => exact absurd hl hka.1
    | some l =>
      obtain ⟨-, h2, h3, -, h5, h6, h7, h8⟩ := addRow_fresh cfg ma k next l hl hfind
      have hnot : (freshRow (V := V) cfg k).k ∉ ma.w.tkeys := by
        have := (MapNode.find_eq_none_iff ma.w (fromString k)).mp hfind
        rw [hka.2.1] at this
        simpa [freshRow] using this
      have hne2 : (addRow cfg ma k next).2.w.t ≠ [] := by rw [h5]; simp
      have hlp : (addRow cfg ma k next).2.w.lastPtr
          = ⟨(addRow cfg ma k next).2.w.old.length, ma.w.t.length⟩ := by
        simp [MapNode.lastPtr, h5]
      refine ⟨addRow_keysAgree cfg ma k next hka, ?_, ?_, ?_, ?_, fun _ => hne2, ?_⟩
      · refine lookupAgrees_addRow cfg.grow ma.w _ l _ (freshRow cfg k) hla hl hnot h5 ?_ h7
        rw [h6, hlp]
        simp [freshRow]
      · intro x hx
        rw [h5] at hx
        have hxe : x = freshRow cfg k := by simpa using hx.symm
        subst hxe
        unfold MapNode.find
        rw [h6]
        simp [freshRow, mget_mset_self]
      · unfold ValueAssembler.wiredTo at h8
        split at h8
        · refine ⟨fun p hp => ?_, fun p hp => ?_⟩
          · rw [h8.2] at hp
            split at hp
            · cases hp
            · exact ⟨(WRef.slot.inj hp).symm, hne2⟩
          · rw [h8.1] at hp
            exact ⟨(MRef.slot.inj hp).symm, hne2⟩
        · refine ⟨fun p hp => ?_, fun p hp => ?_⟩
          · rw [h8.1] at hp
            exact ⟨(WRef.slot.inj hp).symm, hne2⟩
          · rw [h8.2] at hp
            cases hp
      · refine ⟨?_, ?_⟩
        · intro x hx
          rw [h5, List.dropLast_concat] at hx
          exact hall x hx
        · intro hst
          rw [h2] at hst
          rcases hn with hn | hn <;> rw [hn] at hst <;> simp at hst
      · rw [h3]; exact hm

theorem Step.andThen_snd (s : Step V) (f : Assembler V → Step V) :
    (s.andThen f).2 = s.2 ∨ (s.1 = none ∧ (s.andThen f).2 = (f s.2).2) := by
  obtain ⟨e, a⟩ := s
  cases e with
  | none => exact Or.inr ⟨rfl, by simp [Step.andThen_none]⟩
  | some e => exact Or.inl (by simp [Step.andThen_some])

/-- Every call on the assembler or its sub-assemblers keeps the invariant. -/
theorem callRun_sound (cfg : Cfg) (ma : Assembler V) (c : Call V) (h : Sound cfg ma) :
    Sound cfg (c.run cfg ma).2 := by
  have hf := stateFence_sound cfg ma h
  cases c with
  | AssembleKey =>
    simp only [Call.run, GenMap.AssembleKey]
    rcases Step.andThen_snd (stateFence cfg ma)
      (fun ma1 => (none, { ma1 with state := maState.maState_midKey })) with hr | ⟨hok, hr⟩
    · rw [hr]; exact hf
    · rw [hr]
      have hst := stateFence_ok_state cfg ma hok
      exact hf.set_state maState.maState_midKey
        (fun _ x hx => hf.2.2.2.2.1.2 (Or.inl hst) x hx) (fun hs => by simp at hs)
  | KeyAssignString k =>
    simp only [Call.run, KeyAssembler.AssignString]
    split
    · exact h
    · rename_i hs
      exact addRow_sound cfg ma k _ h (Or.inr (by simpa using hs)) (Or.inl rfl)
  | AssembleValue =>
    simp only [Call.run, GenMap.AssembleValue]
    split
    · rename_i hs
      exact h.set_state maState.maState_midValue (fun hs2 => by simp at hs2)
        (fun _ => h.2.2.2.2.2.1 (Or.inl hs))
    · exact h
  | AssembleEntry k =>
    simp only [Call.run, GenMap.AssembleEntry]
    rcases Step.andThen_snd (stateFence cfg ma)
      (fun ma1 => addRow cfg ma1 k maState.maState_midValue) with hr | ⟨hok, hr⟩
    · rw [hr]; exact hf
    · rw [hr]
      exact addRow_sound cfg _ k _ hf (Or.inl (stateFence_ok_state cfg ma hok)) (Or.inr rfl)
  | Finish =>
    simp only [Call.run, GenMap.Finish]
    rcases Step.andThen_snd (stateFence cfg ma)
      (fun ma1 => (none, { ma1 with state := .maState_finished, m := .Maybe_Value }))
      with hr | ⟨hok, hr⟩
    · rw [hr]; exact hf
    · rw [hr]
      have hst := stateFence_ok_state cfg ma hok
      exact (hf.set_state maState.maState_finished
        (fun _ x hx => hf.2.2.2.2.1.2 (Or.inl hst) x hx) (fun hs => by simp at hs)).set_m
  | ValueAssign v => exact valueAssign_sound cfg ma v h

/-- Every operation on a begun assembler keeps the invariant: the ones that
start a map (`BeginMap`, `AssignNull`, `AssignNode` with a node of the map's own
type) are refused there. -/
theorem opRun_sound (cfg : Cfg) (ma : Assembler V) (o : Op V) (h : Sound cfg ma) :
    Sound cfg (o.run cfg ma).2 := by
  have hm := h.2.2.2.2.2.2
  cases o with
  | call c => exact callRun_sound cfg ma c h
  | BeginMap hint =>
    simp only [Op.run, GenMap.BeginMap]
    rcases hm with hm | hm <;> simp only [hm] <;> exact h
  | AssignNull =>
    simp only [Op.run, GenMap.AssignNull]
    rcases hm with hm | hm <;> simp only [hm] <;> exact h
  | AssignNode n =>
    cases n with
    | Null =>
      simp only [Op.run, GenMap.AssignNode, GenMap.AssignNull]
      rcases hm with hm | hm <;> simp only [hm] <;> exact h
    | own v2 =>
      simp only [Op.run, GenMap.AssignNode]
      rcases hm with hm | hm <;> simp only [hm] <;> exact h
    | other kind entries =>
      simp only [Op.run, GenMap.AssignNode]
      split
      · exact h
      · cases entries with
        | nil => exact callRun_sound cfg ma Call.Finish h
        | cons e rest =>
          obtain ⟨k, v⟩ := e
          rw [(replay_cons cfg ma k v rest).1]
          exact callRun_sound cfg ma Call.AssembleKey h

theorem runOps_sound (cfg : Cfg) (os : List (Op V)) :
    ∀ ma : Assembler V, Sound cfg ma → Sound cfg (runOps cfg os ma) := by
  induction os with
  | nil => intro ma h; exact h
  | cons o os ih => intro ma h; exact ih _ (opRun_sound cfg ma o h)

/-- A new builder on which `BeginMap` was called satisfies the invariant. -/
theorem beginMap_sound (cfg : Cfg) (sizeHint : Int) :
    Sound cfg (BeginMap (NewBuilder : Assembler V) sizeHint).2 := by
  refine ⟨⟨by simp [BeginMap, NewBuilder, Reset], by simp [BeginMap, NewBuilder, Reset,
      MapNode.mkeys, MapNode.tkeys], by simp [BeginMap, NewBuilder, Reset, MapNode.tkeys]⟩,
    ?_, ?_, ?_, ?_, ?_, ?_⟩
  · intro i x hx; simp [BeginMap, NewBuilder, Reset] at hx
  · intro x hx; simp [BeginMap, NewBuilder, Reset] at hx
  · exact ⟨fun p hp => by simp [BeginMap, NewBuilder, Reset] at hp,
      fun p hp => by simp [BeginMap, NewBuilder, Reset] at hp⟩
  · exact ⟨fun x hx => by simp [BeginMap, NewBuilder, Reset] at hx,
      fun _ x hx => by simp [BeginMap, NewBuilder, Reset] at hx⟩
  · intro hs; simp [BeginMap, NewBuilder, Reset] at hs
  · exact Or.inl (by simp [BeginMap, NewBuilder, Reset])

/-- A finished row is yielded by the iterator with a key and a value, and the
lookup of its key returns that value. -/
theorem row_lookup_agrees (cfg : Cfg) (n : MapNode V) (x : Entry V)
    (hla : LookupAgrees n) (hx : x ∈ n.t) (hd : RowDone cfg x) :
    ∃ v, Entry.asNext cfg x = (some x.k, some v, none) ∧
      LookupString cfg n x.k.x = Except.ok v := by
  obtain ⟨i, hi⟩ := List.mem_iff_getElem?.mp hx
  obtain ⟨p, hf, -, hdr⟩ := hla i x hi
  have hk : fromString x.k.x = x.k := rfl
  cases hn : cfg.ValueIsNullable with
  | false =>
    exact ⟨NodeRes.val x.v.v, by simp [Entry.asNext, hn],
      by simp [LookupString, hk, hf, hdr, hn]⟩
  | true =>
    rcases hd hn with hm | hm
    · exact ⟨NodeRes.Null, by simp [Entry.asNext, hn, hm],
        by simp [LookupString, hk, hf, hdr, hn, hm]⟩
    · exact ⟨NodeRes.val x.v.v, by simp [Entry.asNext, hn, hm],
        by simp [LookupString, hk, hf, hdr, hn, hm]⟩

/-- The map that `Build` returns satisfies the invariant with all rows
finished. -/
theorem build_sound (cfg : Cfg) (ma : Assembler V) (n : MapNode V) (h : Sound cfg ma)
    (hb : Build ma = Except.ok n) :
    KeysAgree n ∧ LookupAgrees n ∧ ∀ x ∈ n.t, RowDone cfg x := by
  unfold Build at hb
  split at hb
  · cases hb
  · rename_i hs
    have hn : ma.w = n := by simpa using hb
    subst hn
    exact ⟨h.1, h.2.1, h.all_done (Or.inr (Or.inr (by simpa using hs)))⟩

theorem drain_all (cfg : Cfg) (n : MapNode V) :
    MapItr.drain cfg (Length n) (MapIterator n) = n.t.map (Entry.asNext cfg) := by
  have := drain_eq cfg (Length n) (MapIterator n) (by simp [MapIterator, Length])
  simpa [MapIterator] using this

/-! ## C25 -/

/-- Lookup and iteration agree on the map that `Build` returns, whatever the
size hint of `BeginMap` and however many entries were inserted: for the map `n`
that `Build` returns after any sequence of operations on a builder on which
`BeginMap` was called, the iterator yields the rows in order; everything it
yields is a key and a value with no error, and `LookupString` of that key
succeeds with that same value; and every key for which `LookupString` succeeds
is yielded with the value looked up, and occurs exactly once among the yielded
keys.  (This is `n` as `Build` returns it: see
`adopted_map_lookup_outruns_iteration` for what an assembler that adopts `n`
does to it.) -/
theorem lookup_iteration_agree (cfg : Cfg) (sizeHint : Int) (os : List (Op V))
    (n : MapNode V)
    (hb : Build (runOps cfg os (BeginMap NewBuilder sizeHint).2) = Except.ok n) :
    MapItr.drain cfg (Length n) (MapIterator n) = n.t.map (Entry.asNext cfg) ∧
    (∀ r ∈ MapItr.drain cfg (Length n) (MapIterator n),
      ∃ k v, r = (some k, some v, none) ∧ LookupString cfg n k.x = Except.ok v) ∧
    (∀ key v, LookupString cfg n key = Except.ok v →
      (some (fromString key), some v, none) ∈ MapItr.drain cfg (Length n) (MapIterator n) ∧
      ((MapItr.drain cfg (Length n) (MapIterator n)).filterMap (fun r => r.1)).count
        (fromString key) = 1) := by
  obtain ⟨hka, hla, hdone⟩ :=
    build_sound cfg _ n (runOps_sound cfg os _ (beginMap_sound cfg sizeHint)) hb
  rw [drain_all]
  refine ⟨rfl, ?_, ?_⟩
  · intro r hr
    obtain ⟨x, hx, hxr⟩ := List.mem_map.mp hr
    obtain ⟨v, hv1, hv2⟩ := row_lookup_agrees cfg n x hla hx (hdone x hx)
    exact ⟨x.k, v, by rw [← hxr, hv1], hv2⟩
  · intro key v hl
    have hfind : n.find (fromString key) ≠ none := by
      intro h0
      simp [LookupString, h0] at hl
    have hmem : fromString key ∈ n.tkeys := by
      rw [← hka.2.1]
      by_contra hc
      exact hfind ((MapNode.find_eq_none_iff n _).mpr hc)
    obtain ⟨x, hx, hxk⟩ := List.mem_map.mp hmem
    obtain ⟨v2, hv1, hv2⟩ := row_lookup_agrees cfg n x hla hx (hdone x hx)
    have hkx : x.k.x = key := by rw [hxk]; rfl
    rw [hkx, hl] at hv2
    have hvv : v = v2 := by simpa using hv2
    subst hvv
    refine ⟨List.mem_map.mpr ⟨x, hx, by rw [hv1, hxk]⟩, ?_⟩
    have hkeys : (n.t.map (Entry.asNext cfg)).filterMap (fun r => r.1) = n.tkeys := by
      simp only [MapNode.tkeys, Entry.asNext, List.filterMap_map, Function.comp_def]
      exact congrFun (List.filterMap_eq_map Entry.k) n.t
    rw [hkeys]
    exact List.count_eq_one_of_mem hka.2.2 hmem

theorem lookup_iteration_agree_witness :
    Build twoEntriesPlain = Except.ok twoEntriesPlain.w ∧
    MapItr.drain cfgPlain (Length twoEntriesPlain.w) (MapIterator twoEntriesPlain.w)
      = twoEntriesPlain.w.t.map (Entry.asNext cfgPlain) :=
  have hs : twoEntriesPlain.state = maState.maState_finished := by decide
  have hb : Build twoEntriesPlain = Except.ok twoEntriesPlain.w := by simp [Build, hs]
  ⟨hb, (lookup_iteration_agree cfgPlain 0
    [Op.call (Call.AssembleEntry "a"), Op.call (Call.ValueAssign (some 1)),
     Op.call (Call.AssembleEntry "b"), Op.call (Call.ValueAssign (some 2)),
     Op.call Call.Finish] twoEntriesPlain.w hb).1⟩

/-! ## C26 -/

/-- C26 (amended): in every nullable-valued map that `Build` returns after any sequence
of operations on a builder on which `BeginMap` was called (so the assembler has
reached the state finished), the wrapper of every row is Null or Value, and
every `Next` of an iterator over it for which `Done` is false returns a key and
a value, both present, with no error, and moves to the next row. -/
theorem nullable_finished_rows (cfg : Cfg) (sizeHint : Int) (os : List (Op V))
    (n : MapNode V) (hn : cfg.ValueIsNullable = true)
    (hb : Build (runOps cfg os (BeginMap NewBuilder sizeHint).2) = Except.ok n) :
    (∀ x ∈ n.t, x.v.m = Maybe.Maybe_Null ∨ x.v.m = Maybe.Maybe_Value) ∧
    (∀ i : Nat, MapItr.Done { n := n, idx := i } = false →
      ∃ k v, MapItr.Next cfg { n := n, idx := i }
        = ((some k, some v, none), { n := n, idx := i + 1 })) := by
  obtain ⟨-, -, hdone⟩ :=
    build_sound cfg _ n (runOps_sound cfg os _ (beginMap_sound cfg sizeHint)) hb
  refine ⟨fun x hx => hdone x hx hn, ?_⟩
  intro i hi
  have hlt : i < n.t.length := by simpa [MapItr.Done] using hi
  have hx : n.t[i]? = some n.t[i] := List.getElem?_eq_getElem hlt
  have hnot : ¬ (i ≥ n.t.length) := by omega
  rcases hdone n.t[i] (List.getElem_mem hlt) hn with hm | hm
  · exact ⟨n.t[i].k, NodeRes.Null, by simp [MapItr.Next, hnot, hx, hn, hm]⟩
  · exact ⟨n.t[i].k, NodeRes.val n.t[i].v.v, by simp [MapItr.Next, hnot, hx, hn, hm]⟩

theorem nullable_finished_rows_witness :
    cfgNullable.ValueIsNullable = true ∧
    Build twoEntriesNullable = Except.ok twoEntriesNullable.w ∧
    ∀ x ∈ twoEntriesNullable.w.t, x.v.m = Maybe.Maybe_Null ∨ x.v.m = Maybe.Maybe_Value :=
  have hs : twoEntriesNullable.state = maState.maState_finished := by decide
  have hb : Build twoEntriesNullable = Except.ok twoEntriesNullable.w := by simp [Build, hs]
  ⟨rfl, hb, (nullable_finished_rows cfgNullable 0
    [Op.call (Call.AssembleEntry "a"), Op.call (Call.ValueAssign none),
     Op.call (Call.AssembleEntry "b"), Op.call (Call.ValueAssign (some 2)),
     Op.call Call.Finish] twoEntriesNullable.w rfl hb).1⟩

/-! ## C27 -/

theorem tame_of_same {a b : Assembler V} (h : Tame a) (hm : b.w.m = a.w.m)
    (ht : b.w.tkeys = a.w.tkeys) (hmm : b.m = a.m ∨ b.m = Maybe.Maybe_Value)
    (hs : b.state = a.state ∨
      (b.state ≠ maState.maState_expectValue ∧ b.state ≠ maState.maState_midValue)) :
    Tame b := by
  have htn : b.w.t ≠ [] ↔ a.w.t ≠ [] := by
    have h1 : b.w.t.length = a.w.t.length := by
      have := congrArg List.length ht
      simpa [MapNode.tkeys] using this
    constructor
    · intro hb h0; apply hb; apply List.eq_nil_of_length_eq_zero; rw [h1, h0]; rfl
    · intro hb h0; apply hb; apply List.eq_nil_of_length_eq_zero; rw [← h1, h0]; rfl
  refine ⟨fun hst => ?_, fun hne => ?_⟩
  · rcases hs with hs | hs
    · rw [hs] at hst
      exact ⟨htn.mpr (h.1 hst).1, by rw [hm]; exact (h.1 hst).2⟩
    · rcases hst with hst | hst
      · exact absurd hst hs.1
      · exact absurd hst hs.2
  · rcases hmm with hmm | hmm
    · rw [hmm]; exact h.2 (by rw [← hm]; exact hne)
    · exact Or.inr hmm

theorem stateFence_state (cfg : Cfg) (ma : Assembler V) :
    (stateFence cfg ma).2.state = ma.state ∨
      (stateFence cfg ma).2.state = maState.maState_initial := by
  cases h : (stateFence cfg ma).1 with
  | none => exact Or.inr (stateFence_ok_state cfg ma h)
  | some e =>
    have := (stateFence_fail cfg ma e (stateFence cfg ma).2 (Prod.ext h rfl)).1
    exact Or.inl (by rw [this])

theorem stateFence_tame (cfg : Cfg) (ma : Assembler V) (h : Tame ma) :
    Tame (stateFence cfg ma).2 := by
  refine tame_of_same h (stateFence_same cfg ma).1 (stateFence_same cfg ma).2
    (Or.inl (stateFence_effect cfg ma).1) ?_
  rcases stateFence_state cfg ma with hs | hs
  · exact Or.inl hs
  · exact Or.inr (by rw [hs]; simp)

/-- A new row keeps a value expected only on a map with a row: on a nil map the
write to the lookup structure panics before the state moves. -/
theorem addRow_tame (cfg : Cfg) (ma : Assembler V) (k : String) (next : maState)
    (h : Tame ma)
    (hs : ma.state = maState.maState_initial ∨ ma.state = maState.maState_midKey) :
    Tame (addRow cfg ma k next).2 := by
  cases hfind : ma.w.find (fromString k) with
  | some p =>
    rw [addRow_repeated cfg ma k next (by simp [hfind])]
    exact h
  | none =>
    cases hl : ma.w.m with
    | none =>
      have hr : addRow cfg ma k next = (some Err.RuntimePanic,
          { ma with w := ma.w.append cfg.grow ⟨fromString k, ⟨Maybe.Maybe_Absent, none⟩⟩ }) := by
        simp [addRow, hfind, MapNode.append_m, hl]
      rw [hr]
      refine ⟨fun hst => ?_, fun hne => ?_⟩
      · rcases hs with hs | hs <;> rcases hst with hst | hst <;>
          simp only [hs] at hst <;> cases hst
      · exact absurd (by simp [MapNode.append_m, hl]) hne
    | some l =>
      obtain ⟨-, -, h3, -, h5, h6, -, -⟩ := addRow_fresh cfg ma k next l hl hfind
      refine ⟨fun _ => ⟨by rw [h5]; simp, by rw [h6]; simp⟩, fun _ => ?_⟩
      rw [h3]
      exact h.2 (by simp [hl])

theorem callRun_tame (cfg : Cfg) (ma : Assembler V) (c : Call V) (h : Tame ma) :
    Tame (c.run cfg ma).2 := by
  have hf := stateFence_tame cfg ma h
  cases c with
  | AssembleKey =>
    simp only [Call.run, GenMap.AssembleKey]
    rcases Step.andThen_snd (stateFence cfg ma)
      (fun ma1 => (none, { ma1 with state := maState.maState_midKey })) with hr | ⟨hok, hr⟩
    · rw [hr]; exact hf
    · rw [hr]
      exact tame_of_same hf rfl rfl (Or.inl rfl) (Or.inr (by simp))
  | KeyAssignString k =>
    simp only [Call.run, KeyAssembler.AssignString]
    split
    · exact h
    · rename_i hs
      exact addRow_tame cfg ma k _ h (Or.inr (by simpa using hs))
  | AssembleValue =>
    simp only [Call.run, GenMap.AssembleValue]
    split
    · rename_i hs
      exact ⟨fun _ => h.1 (Or.inl hs), h.2⟩
    · exact h
  | AssembleEntry k =>
    simp only [Call.run, GenMap.AssembleEntry]
    rcases Step.andThen_snd (stateFence cfg ma)
      (fun ma1 => addRow cfg ma1 k maState.maState_midValue) with hr | ⟨hok, hr⟩
    · rw [hr]; exact hf
    · rw [hr]
      exact addRow_tame cfg _ k _ hf (Or.inl (stateFence_ok_state cfg ma hok))
  | Finish =>
    simp only [Call.run, GenMap.Finish]
    rcases Step.andThen_snd (stateFence cfg ma)
      (fun ma1 => (none, { ma1 with state := .maState_finished, m := .Maybe_Value }))
      with hr | ⟨hok, hr⟩
    · rw [hr]; exact hf
    · rw [hr]
      exact tame_of_same hf rfl rfl (Or.inr rfl) (Or.inr (by simp))
  | ValueAssign v =>
    exact tame_of_same h (valueAssignNode_same cfg ma v).1 (valueAssignNode_same cfg ma v).2
      (Or.inl (valueAssign_effect cfg ma v).1) (Or.inl (valueAssign_effect cfg ma v).2.1)

/-- An assembler that has not begun has no value expected or under way. -/
theorem Tame.not_begun {ma : Assembler V} (h : Tame ma)
    (hm : ma.m = Maybe.Maybe_Absent ∨ ma.m = Maybe.allowNull) :
    ma.state ≠ maState.maState_expectValue ∧ ma.state ≠ maState.maState_midValue := by
  have hnm : ma.w.m = none := by
    by_contra hc
    rcases h.2 hc with h2 | h2 <;> rcases hm with hm | hm <;> rw [hm] at h2 <;> cases h2
  exact ⟨fun hs => (h.1 (Or.inl hs)).2 hnm, fun hs => (h.1 (Or.inr hs)).2 hnm⟩

theorem opRun_tame (cfg : Cfg) (ma : Assembler V) (o : Op V) (h : Tame ma) :
    Tame (o.run cfg ma).2 := by
  cases o with
  | call c => exact callRun_tame cfg ma c h
  | BeginMap hint =>
    simp only [Op.run, GenMap.BeginMap]
    cases hm : ma.m <;> simp only <;> first
      | exact h
      | (have hnb := h.not_begun (by simp [hm])
         exact ⟨fun hst => by rcases hst with hst | hst
                              · exact absurd hst hnb.1
                              · exact absurd hst hnb.2,
           fun _ => Or.inl rfl⟩)
  | AssignNull =>
    simp only [Op.run, GenMap.AssignNull]
    cases hm : ma.m <;> simp only <;> first
      | exact h
      | (have hnb := h.not_begun (by simp [hm])
         have hnm : ma.w.m = none := by
           by_contra hc
           rcases h.2 hc with h2 | h2 <;> rw [hm] at h2 <;> cases h2
         exact ⟨fun hst => by rcases hst with hst | hst
                              · exact absurd hst hnb.1
                              · exact absurd hst hnb.2,
           fun hne => absurd hnm hne⟩)
  | AssignNode n =>
    cases n with
    | Null =>
      simp only [Op.run, GenMap.AssignNode, GenMap.AssignNull]
      cases hm : ma.m <;> simp only <;> first
        | exact h
        | (have hnb := h.not_begun (by simp [hm])
           have hnm : ma.w.m = none := by
             by_contra hc
             rcases h.2 hc with h2 | h2 <;> rw [hm] at h2 <;> cases h2
           exact ⟨fun hst => by rcases hst with hst | hst
                                · exact absurd hst hnb.1
                                · exact absurd hst hnb.2,
             fun hne => absurd hnm hne⟩)
    | own v2 =>
      simp only [Op.run, GenMap.AssignNode]
      cases hm : ma.m <;> simp only <;> first
        | exact h
        | (have hnb := h.not_begun (by simp [hm])
           exact ⟨fun hst => by rcases hst with hst | hst
                                · exact absurd hst hnb.1
                                · exact absurd hst hnb.2,
             fun _ => Or.inr rfl⟩)
    | other kind entries =>
      simp only [Op.run, GenMap.AssignNode]
      split
      · exact h
      · cases entries with
        | nil => exact callRun_tame cfg ma Call.Finish h
        | cons e rest =>
          obtain ⟨k, v⟩ := e
          rw [(replay_cons cfg ma k v rest).1]
          exact callRun_tame cfg ma Call.AssembleKey h

theorem runOps_tame (cfg : Cfg) (os : List (Op V)) :
    ∀ ma : Assembler V, Tame ma → Tame (runOps cfg os ma) := by
  induction os with
  | nil => intro ma h; exact h
  | cons o os ih => intro ma h; exact ih _ (opRun_tame cfg ma o h)

theorem newBuilder_tame : Tame (NewBuilder : Assembler V) :=
  ⟨fun hs => by rcases hs with hs | hs <;> simp [NewBuilder, Reset] at hs,
    fun hne => absurd (by simp [NewBuilder, Reset]) hne⟩

/-- C27: `valueFinishTidy` never indexes out of range: in every assembler
state reached from a new builder by any sequence of operations (`BeginMap`,
`AssignNull`, `AssignNode`, `AssembleKey`, the key assembler's `AssignString`,
`AssembleValue`, `AssembleEntry`, `Finish`, the completion of a value; failed
calls included), whenever the state is expectValue or midValue the sequence of
entries is not empty, it has a last entry, and the tidy step does not panic;
and a successful tidy for non-nullable values leaves the child maybe Absent and
the working reference of the value assembler nil. -/
theorem tidy_in_range (cfg : Cfg) (os : List (Op V)) :
    ((runOps cfg os (NewBuilder : Assembler V)).state = maState.maState_expectValue ∨
        (runOps cfg os (NewBuilder : Assembler V)).state = maState.maState_midValue →
      (runOps cfg os (NewBuilder : Assembler V)).w.t ≠ [] ∧
      (∃ tz, (runOps cfg os (NewBuilder : Assembler V)).w.t.getLast? = some tz) ∧
      valueFinishTidy cfg (runOps cfg os (NewBuilder : Assembler V)) ≠ none) ∧
    (∀ ma ma1 : Assembler V, cfg.ValueIsNullable = false →
      valueFinishTidy cfg ma = some (true, ma1) →
      ma1.cm = Maybe.Maybe_Absent ∧ ma1.va.w = WRef.nil) := by
  refine ⟨fun hs => ?_, ?_⟩
  · have hne := ((runOps_tame cfg os _ newBuilder_tame).1 hs).1
    refine ⟨hne, ?_, fun h0 => hne ((valueFinishTidy_none_iff cfg _).mp h0)⟩
    obtain ⟨l, e, hle⟩ := exists_concat_of_ne_nil _ hne
    exact ⟨e, by rw [hle]; simp⟩
  · intro ma ma1 hn ht
    unfold valueFinishTidy at ht
    cases hlast : ma.w.t.getLast? with
    | none => simp [hlast] at ht
    | some tz =>
      simp only [hlast, hn, Bool.false_eq_true, if_false] at ht
      cases hcm : ma.cm <;> simp [hcm] at ht
      subst ht
      exact ⟨rfl, rfl⟩

/-! ## C12: the tidy step on the states that operations reach -/

theorem valueFinishTidy_cm (cfg : Cfg) (ma ma1 : Assembler V) (b : Bool)
    (h : valueFinishTidy cfg ma = some (b, ma1)) :
    ma1.cm = ma.cm ∨ ma1.cm = Maybe.Maybe_Absent := by
  cases b with
  | false => rw [valueFinishTidy_false cfg ma ma1 h]; exact Or.inl rfl
  | true =>
    unfold valueFinishTidy at h
    cases hlast : ma.w.t.getLast? with
    | none => simp [hlast] at h
    | some tz =>
      simp only [hlast] at h
      cases hn : cfg.ValueIsNullable with
      | false =>
        simp only [hn, Bool.false_eq_true, if_false] at h
        cases hcm : ma.cm <;> simp [hcm] at h
        subst h
        exact Or.inr rfl
      | true =>
        simp only [hn, if_true] at h
        cases hm : tz.v.m <;> simp [hm] at h
        · subst h
          exact Or.inl rfl
        · cases hp : cfg.ValueMaybeUsesPtr with
          | false =>
            simp only [hp, Bool.false_eq_true, if_false] at h
            have h2 := (Prod.mk.inj (Option.some.inj h)).2
            subst h2
            exact Or.inl rfl
          | true =>
            simp only [hp, if_true] at h
            have h2 := (Prod.mk.inj (Option.some.inj h)).2
            subst h2
            exact Or.inl rfl

theorem stateFence_cm (cfg : Cfg) (ma : Assembler V) :
    (stateFence cfg ma).2.cm = ma.cm ∨ (stateFence cfg ma).2.cm = Maybe.Maybe_Absent := by
  unfold stateFence
  cases hs : ma.state with
  | maState_initial => exact Or.inl rfl
  | maState_midKey => exact Or.inl rfl
  | maState_expectValue => exact Or.inl rfl
  | maState_finished => exact Or.inl rfl
  | maState_midValue =>
    simp only
    cases ht : valueFinishTidy cfg ma with
    | none => exact Or.inl rfl
    | some r =>
      obtain ⟨b, ma1⟩ := r
      have := valueFinishTidy_cm cfg ma ma1 b ht
      cases b <;> exact this

theorem writeM_cm (ma : Assembler V) (x : Maybe) :
    (ValueAssembler.writeM ma x).cm = ma.cm ∨
      (ma.va.m = MRef.cm ∧ (ValueAssembler.writeM ma x).cm = x) := by
  unfold ValueAssembler.writeM
  cases hm : ma.va.m with
  | nil => exact Or.inl rfl
  | cm => exact Or.inr ⟨rfl, rfl⟩
  | slot p => exact Or.inl rfl

/-- The child maybe is Absent or Value, whatever value is completed: null is
taken only through a maybe that holds allowNull, which the child maybe never
does. -/
theorem valueAssign_cm (cfg : Cfg) (ma : Assembler V) (v : Option V)
    (h : ma.cm = Maybe.Maybe_Absent ∨ ma.cm = Maybe.Maybe_Value) :
    (ValueAssembler.AssignNode cfg ma v).2.cm = Maybe.Maybe_Absent ∨
      (ValueAssembler.AssignNode cfg ma v).2.cm = Maybe.Maybe_Value := by
  cases v with
  | none =>
    simp only [ValueAssembler.AssignNode, ValueAssembler.AssignNull]
    split
    · exact h
    · rename_i hr
      rcases writeM_cm ma Maybe.Maybe_Null with hw | ⟨hm, -⟩
      · simp only [hw]; exact h
      · have : ma.cm = Maybe.allowNull := by
          simpa [ValueAssembler.readM, hm] using hr
        rcases h with h | h <;> rw [h] at this <;> cases this
    · exact h
    · exact h
  | some v =>
    simp only [ValueAssembler.AssignNode, ValueAssembler.AssignValue]
    split
    · exact h
    · exact h
    · exact h
    · exact h
    · split
      · split
        · rcases writeM_cm { ma with va := { ma.va with w := WRef.box v } }
            Maybe.Maybe_Value with hw | ⟨-, hw⟩
          · simp only [hw]; exact h
          · exact Or.inr hw
        · exact h
      · rcases writeM_cm { ma with va := { ma.va with w := WRef.box v } }
          Maybe.Maybe_Value with hw | ⟨-, hw⟩
        · simp only [hw]; exact h
        · exact Or.inr hw
      · rename_i p hp
        rcases writeM_cm { ma with w := ma.w.store p (fun s => { m := s.m, v := some v }) }
          Maybe.Maybe_Value with hw | ⟨-, hw⟩
        · simp only [hw]; exact h
        · exact Or.inr hw

theorem callRun_cm (cfg : Cfg) (ma : Assembler V) (c : Call V)
    (h : ma.cm = Maybe.Maybe_Absent ∨ ma.cm = Maybe.Maybe_Value) :
    (c.run cfg ma).2.cm = Maybe.Maybe_Absent ∨ (c.run cfg ma).2.cm = Maybe.Maybe_Value := by
  have hf : (stateFence cfg ma).2.cm = Maybe.Maybe_Absent ∨
      (stateFence cfg ma).2.cm = Maybe.Maybe_Value := by
    rcases stateFence_cm cfg ma with h1 | h1
    · rw [h1]; exact h
    · exact Or.inl h1
  cases c with
  | AssembleKey =>
    simp only [Call.run, GenMap.AssembleKey]
    rcases Step.andThen_snd (stateFence cfg ma)
      (fun ma1 => (none, { ma1 with state := maState.maState_midKey })) with hr | ⟨-, hr⟩
    · rw [hr]; exact hf
    · rw [hr]; exact hf
  | KeyAssignString k =>
    simp only [Call.run, KeyAssembler.AssignString]
    split
    · exact h
    · rw [(addRow_effect cfg ma k _).2.1]; exact h
  | AssembleValue =>
    simp only [Call.run, GenMap.AssembleValue]
    split
    · exact h
    · exact h
  | AssembleEntry k =>
    simp only [Call.run, GenMap.AssembleEntry]
    rcases Step.andThen_snd (stateFence cfg ma)
      (fun ma1 => addRow cfg ma1 k maState.maState_midValue) with hr | ⟨-, hr⟩
    · rw [hr]; exact hf
    · rw [hr, (addRow_effect cfg _ k _).2.1]; exact hf
  | Finish =>
    simp only [Call.run, GenMap.Finish]
    rcases Step.andThen_snd (stateFence cfg ma)
      (fun ma1 => (none, { ma1 with state := .maState_finished, m := .Maybe_Value }))
      with hr | ⟨-, hr⟩
    · rw [hr]; exact hf
    · rw [hr]; exact hf
  | ValueAssign v => exact valueAssign_cm cfg ma v h

theorem opRun_cm (cfg : Cfg) (ma : Assembler V) (o : Op V)
    (h : ma.cm = Maybe.Maybe_Absent ∨ ma.cm = Maybe.Maybe_Value) :
    (o.run cfg ma).2.cm = Maybe.Maybe_Absent ∨ (o.run cfg ma).2.cm = Maybe.Maybe_Value := by
  cases o with
  | call c => exact callRun_cm cfg ma c h
  | BeginMap hint =>
    simp only [Op.run, GenMap.BeginMap]
    split <;> exact h
  | AssignNull =>
    simp only [Op.run, GenMap.AssignNull]
    split <;> exact h
  | AssignNode n =>
    cases n with
    | Null =>
      simp only [Op.run, GenMap.AssignNode, GenMap.AssignNull]
      split <;> exact h
    | own v2 =>
      simp only [Op.run, GenMap.AssignNode]
      split <;> exact h
    | other kind entries =>
      simp only [Op.run, GenMap.AssignNode]
      split
      · exact h
      · cases entries with
        | nil => exact callRun_cm cfg ma Call.Finish h
        | cons e rest =>
          obtain ⟨k, v⟩ := e
          rw [(replay_cons cfg ma k v rest).1]
          exact callRun_cm cfg ma Call.AssembleKey h

/-- In every state that operations reach from a new builder the child maybe is
Absent or Value: it is never Null. -/
theorem runOps_cm (cfg : Cfg) (os : List (Op V)) :
    ∀ ma : Assembler V, (ma.cm = Maybe.Maybe_Absent ∨ ma.cm = Maybe.Maybe_Value) →
      ((runOps cfg os ma).cm = Maybe.Maybe_Absent ∨
        (runOps cfg os ma).cm = Maybe.Maybe_Value) := by
  induction os with
  | nil => intro ma h; exact h
  | cons o os ih => intro ma h; exact ih _ (opRun_cm cfg ma o h)

/-- C12: tidy reconciliation, in every state in midValue that a sequence of
operations (failed ones included) reaches from a new builder, for nullable
values (signal: the wrapper of the last row) and for non-nullable values
(signal: the child maybe): if the signal is Value or Null then
`valueFinishTidy` succeeds and the state returns to initial; if it is neither
then `valueFinishTidy` fails and writes nothing, the state stays midValue, and
the `AssembleKey`, `AssembleEntry` or `Finish` that was attempted fails with
IllegalState.  For non-nullable values the signal is never Null in such a
state. -/
theorem tidy_reconciliation (cfg : Cfg) (os : List (Op V))
    (hs : (runOps cfg os (NewBuilder : Assembler V)).state = maState.maState_midValue) :
    ((tidySignal cfg (runOps cfg os (NewBuilder : Assembler V)) = some Maybe.Maybe_Value ∨
        tidySignal cfg (runOps cfg os (NewBuilder : Assembler V)) = some Maybe.Maybe_Null) →
      ∃ ma1, valueFinishTidy cfg (runOps cfg os (NewBuilder : Assembler V)) = some (true, ma1) ∧
        ma1.state = maState.maState_initial) ∧
    (tidySignal cfg (runOps cfg os (NewBuilder : Assembler V)) ≠ some Maybe.Maybe_Value →
      tidySignal cfg (runOps cfg os (NewBuilder : Assembler V)) ≠ some Maybe.Maybe_Null →
      valueFinishTidy cfg (runOps cfg os (NewBuilder : Assembler V))
        = some (false, runOps cfg os (NewBuilder : Assembler V)) ∧
      AssembleKey cfg (runOps cfg os (NewBuilder : Assembler V))
        = (some Err.IllegalState, runOps cfg os (NewBuilder : Assembler V)) ∧
      (∀ k, AssembleEntry cfg (runOps cfg os (NewBuilder : Assembler V)) k
        = (some Err.IllegalState, runOps cfg os (NewBuilder : Assembler V))) ∧
      Finish cfg (runOps cfg os (NewBuilder : Assembler V))
        = (some Err.IllegalState, runOps cfg os (NewBuilder : Assembler V))) ∧
    (cfg.ValueIsNullable = false →
      tidySignal cfg (runOps cfg os (NewBuilder : Assembler V)) ≠ some Maybe.Maybe_Null) := by
  have hrow := ((runOps_tame cfg os _ newBuilder_tame).1 (Or.inr hs)).1
  have hcm := runOps_cm cfg os (NewBuilder : Assembler V) (Or.inl rfl)
  obtain ⟨h1, h2, h3⟩ := tidy_by_signal cfg _ hs hrow
  have hnull : cfg.ValueIsNullable = false →
      tidySignal cfg (runOps cfg os (NewBuilder : Assembler V)) ≠ some Maybe.Maybe_Null := by
    intro hn hsig
    obtain ⟨l, e, hle⟩ := exists_concat_of_ne_nil _ hrow
    have : (runOps cfg os (NewBuilder : Assembler V)).cm = Maybe.Maybe_Null := by
      simpa [tidySignal, hle, hn] using hsig
    rcases hcm with hc | hc <;> rw [hc] at this <;> cases this
  refine ⟨?_, ?_, hnull⟩
  · intro hsig
    cases hn : cfg.ValueIsNullable with
    | true => exact h1 hn hsig
    | false =>
      rcases hsig with hsig | hsig
      · exact h2 hn hsig
      · exact absurd hsig (hnull hn)
  · intro hv hnl
    exact h3 hv (fun _ => hnl)

theorem tidy_reconciliation_witness :
    (runOps cfgNullable
      ([Op.BeginMap 0, Op.call (Call.AssembleEntry "a"), Op.call (Call.ValueAssign none)] :
        List (Op Nat)) NewBuilder).state = maState.maState_midValue ∧
    ∃ a, valueFinishTidy cfgNullable (runOps cfgNullable
      ([Op.BeginMap 0, Op.call (Call.AssembleEntry "a"), Op.call (Call.ValueAssign none)] :
        List (Op Nat)) NewBuilder) = some (true, a) ∧ a.state = maState.maState_initial :=
  ⟨by decide,
   (tidy_reconciliation cfgNullable
      ([Op.BeginMap 0, Op.call (Call.AssembleEntry "a"), Op.call (Call.ValueAssign none)] :
        List (Op Nat)) (by decide)).1 (Or.inr (by decide))⟩

/-! ## Builders on which `BeginMap` was not called, and adopted nodes -/

/-- C9, as stated, fails: on a new builder `AssembleKey()` succeeds without
`BeginMap`, so the assembler is in midKey with a nil lookup map, which holds no
key; the key assembler's `AssignString("a")` then appends the row and panics on
the write to the nil map: it does not succeed, the state stays midKey, and the
sequence has the key `"a"` while the lookup structure has none. -/
theorem keyAssignString_nil_map_panics :
    (AssembleKey cfgPlain (NewBuilder : Assembler Nat)).1 = none ∧
    midKeyUnbegun.state = maState.maState_midKey ∧
    midKeyUnbegun.w.find (fromString "a") = none ∧
    (KeyAssembler.AssignString cfgPlain midKeyUnbegun "a").1 = some Err.RuntimePanic ∧
    (KeyAssembler.AssignString cfgPlain midKeyUnbegun "a").2.state
      = maState.maState_midKey ∧
    (KeyAssembler.AssignString cfgPlain midKeyUnbegun "a").2.w.tkeys = [fromString "a"] ∧
    (KeyAssembler.AssignString cfgPlain midKeyUnbegun "a").2.w.mkeys = [] := by
  refine ⟨by decide, by decide, by decide, by decide, by decide, by decide, by decide⟩

/-- C26, as stated, fails: on a new builder for nullable values on which
`BeginMap` was not called, `AssembleEntry("a")` appends the row and panics on
the write to the nil lookup map, before it sets the wrapper to allowNull; the
state is still initial, so `Finish()` succeeds and `Build()` returns the map.
Its one row has a wrapper in state Absent, and `Next()`, with `Done()` false,
returns the key with a nil value and no error. -/
theorem unbegun_finished_row_absent :
    (AssembleEntry cfgNullable (NewBuilder : Assembler Nat) "a").1 = some Err.RuntimePanic ∧
    (Finish cfgNullable (AssembleEntry cfgNullable (NewBuilder : Assembler Nat) "a").2).1
      = none ∧
    Build finishedUnbegun = Except.ok finishedUnbegun.w ∧
    finishedUnbegun.w.t.map (fun x => x.v.m) = [Maybe.Maybe_Absent] ∧
    MapItr.Done (MapIterator finishedUnbegun.w) = false ∧
    (MapItr.Next cfgNullable (MapIterator finishedUnbegun.w)).1
      = (some (fromString "a"), none, none) := by
  have hs : finishedUnbegun.state = maState.maState_finished := by decide
  refine ⟨by decide, by decide, by simp [Build, hs], by decide, by decide, by decide⟩

/-- C25: the code does not keep lookup and iteration in agreement on a finished
map.  The builder `finishedOnePlain` has built the map `M` with the one entry
`("a", 1)`.  A new builder takes `M` through `AssignNode`, whose statement
`*na.w = *v2` copies the map reference, and whose state stays initial; its
`AssembleEntry("z")` then succeeds and enters `"z"` in the lookup map that `M`
holds too.  After the value 3 was assigned, `LookupString("z")` on `M` succeeds
with 3, while the iterator of `M` yields the entry `("a", 1)` and is done:
`"z"` is looked up and never yielded.  (As `Build` returned it, `M` answered
`LookupString("z")` with NotExists.) -/
theorem adopted_map_lookup_outruns_iteration :
    Build finishedOnePlain = Except.ok finishedOnePlain.w ∧
    (AssignNode cfgPlain (NewBuilder : Assembler Nat) (Node.own finishedOnePlain.w)).1
      = none ∧
    (AssembleEntry cfgPlain
      (AssignNode cfgPlain (NewBuilder : Assembler Nat) (Node.own finishedOnePlain.w)).2
      "z").1 = none ∧
    Adopted.LookupString cfgPlain { hdr := finishedOnePlain.w, w := adopterPlain.w } "z"
      = Except.ok (NodeRes.val (some 3)) ∧
    MapItr.drain cfgPlain 2
        (Adopted.MapIterator { hdr := finishedOnePlain.w, w := adopterPlain.w })
      = [(some (fromString "a"), some (NodeRes.val (some 1)), none)] ∧
    LookupString cfgPlain finishedOnePlain.w "z" = Except.error (Err.NotExists "z") := by
  have hs : finishedOnePlain.state = maState.maState_finished := by decide
  refine ⟨by simp [Build, hs], by decide, by decide, by rfl, by decide, by rfl⟩

end GenMap
